import Mathlib

/-!
# BucketStorage: a segmented container

A shallow embedding of `src/bucket_storage.hpp` and the properties of its
specification.

Modelling conventions.

* `T* data` is raw storage: a slot is `none` while no object is constructed in
  it and `some v` once `v` has been constructed there.  A destructor call puts
  `none` back.  A move assignment `data[i] = std::move(data[j])` copies the
  value and leaves slot `j` as it was (the behaviour of trivially movable
  element types such as `int`).
* `bool* flags` is a list of `Bool`; the source writes `0` for a live slot and
  `1` for a deleted one, so `false` means live.
* The pointer array `Cell** cells` and its logical length `cell_count` are one
  list: `cell_count` is the length of `cells`.  Every path of the source keeps
  the two in step (the array is reallocated, or shifted down and the count
  decremented).
* The members `Cell::deleted` and `BucketStorage::free_slots` are never read
  and are left out.
* An iterator stores the address of its container; `BucketStorage.this` is
  that address.
* `size_t` values are natural numbers; the counts are bounded by the memory
  of the process and never wrap.  Where the source subtracts one, the value
  is positive on the path taken, except for `--cell_index` in `operator--`,
  which wraps at `0`: see `seek_back`.
* Reading past the end of the cell table is undefined behaviour: the
  operations that can do it return `Option`.
-/

namespace Bucket

/-- The `struct Cell`: raw element storage, its capacity, the number of
used slots and the per-slot flags. -/
structure Cell (T : Type) where
  data : List (Option T)
  capacity : Nat
  size : Nat
  flags : List Bool
deriving DecidableEq

/-- The constructor `Cell(cap)`: uninitialised storage, value-initialised
flags (all `0`), `size = 0`. -/
def Cell.new {T : Type} (cap : Nat) : Cell T :=
  { data := List.replicate cap none, capacity := cap, size := 0,
    flags := List.replicate cap false }

/-- The three statements `new (&cell->data[index]) T(v); cell->flags[index] = 0;
++cell->size;` of `insert_helper`, the copy constructor and `shrink_to_fit`. -/
def Cell.put {T : Type} (c : Cell T) (index : Nat) (v : Option T) : Cell T :=
  { c with data := c.data.set index v, flags := c.flags.set index false,
           size := c.size + 1 }

/-- The class `BucketStorage<T>`. -/
structure BucketStorage (T : Type) where
  this : Nat
  cells : List (Cell T)
  cell_capacity : Nat
  total_size : Nat
deriving DecidableEq

/-- The classes `iterator` and `const_iterator`, which have the same members
and the same code. -/
structure iterator where
  cell_index : Nat
  element_index : Nat
  storage : Nat
deriving DecidableEq

/-- The constructor `BucketStorage(cell_capacity)` of an object at address
`addr`: no cell is linked (`cell_count = 0`), `total_size = 0`. -/
def BucketStorage.construct {T : Type} (addr : Nat) (cell_capacity : Nat) :
    BucketStorage T :=
  { this := addr, cells := [], cell_capacity := cell_capacity, total_size := 0 }

/-- The member `cell_count`. -/
def BucketStorage.cell_count {T : Type} (s : BucketStorage T) : Nat :=
  s.cells.length

/-- The method `size()`. -/
def BucketStorage.size {T : Type} (s : BucketStorage T) : Nat :=
  s.total_size

/-- The method `empty()`. -/
def BucketStorage.empty {T : Type} (s : BucketStorage T) : Bool :=
  s.total_size == 0

/-- The method `capacity()`. -/
def BucketStorage.capacity {T : Type} (s : BucketStorage T) : Nat :=
  s.cell_capacity * s.cell_count

/-- The method `end()`: the iterator `(this, cell_count, 0)`. -/
def BucketStorage.end_ {T : Type} (s : BucketStorage T) : iterator :=
  { cell_index := s.cell_count, element_index := 0, storage := s.this }

/-- The method `allocate_new_cell()`: the table is copied into an array one
longer and a fresh cell is linked at the end. -/
def BucketStorage.allocate_new_cell {T : Type} (s : BucketStorage T) :
    BucketStorage T :=
  { s with cells := s.cells ++ [Cell.new s.cell_capacity] }

/-- The `for` loop of `insert_helper` over `cells[i..cell_count)`: the first
cell with `cell_capacity > cell->size` receives the value.  The result is the
rewritten part of the table with the cell index and slot index of the write,
or `none` when the loop runs off the table. -/
def insert_loop {T : Type} (C : Nat) (v : T) :
    Nat → List (Cell T) → Option (List (Cell T) × Nat × Nat)
  | _, [] => none
  | i, cell :: rest =>
    if C > cell.size then
      some (cell.put cell.size (some v) :: rest, i, cell.size)
    else
      match insert_loop C v (i + 1) rest with
      | none => none
      | some (rest1, ci, ei) => some (cell :: rest1, ci, ei)

/-- The method `insert_helper(value)`, which both overloads of `insert`
call. -/
def BucketStorage.insert_helper {T : Type} (s : BucketStorage T) (v : T) :
    BucketStorage T × iterator :=
  let s1 := if s.total_size ≥ s.capacity then s.allocate_new_cell else s
  match insert_loop s1.cell_capacity v 0 s1.cells with
  | some (cells1, ci, ei) =>
    ({ s1 with cells := cells1, total_size := s1.total_size + 1 },
     { cell_index := ci, element_index := ei, storage := s1.this })
  | none => (s1, s1.end_)

/-- The method `insert(value)`. -/
def BucketStorage.insert {T : Type} (s : BucketStorage T) (v : T) :
    BucketStorage T × iterator :=
  s.insert_helper v

/-- The first loop of `begin_helper`:
`while (cell_index < cell_count && cells[cell_index]->size == 0) ++cell_index;`
over `cells[i..cell_count)`. -/
def first_nonempty {T : Type} : Nat → List (Cell T) → Nat
  | i, [] => i
  | i, cell :: rest => if cell.size == 0 then first_nonempty (i + 1) rest else i

/-- The loop `while (e < cell->size && cell->flags[e]) ++e;` of `begin_helper`
and `operator++`.  The first argument is the variant `cell->size - e`. -/
def skip_flags {T : Type} (cell : Cell T) : Nat → Nat → Nat
  | 0, e => e
  | n + 1, e =>
    if e < cell.size ∧ cell.flags[e]? = some true then skip_flags cell n (e + 1)
    else e

/-- The method `begin_helper(cell_index)`: the pair of the out-parameter
`cell_index` and the returned element index. -/
def BucketStorage.begin_helper {T : Type} (s : BucketStorage T) : Nat × Nat :=
  let cell_index := first_nonempty 0 s.cells
  match s.cells[cell_index]? with
  | none => (cell_index, s.cell_count)
  | some cell => (cell_index, skip_flags cell cell.size 0)

/-- The method `begin()`. -/
def BucketStorage.begin {T : Type} (s : BucketStorage T) : iterator :=
  { cell_index := s.begin_helper.1, element_index := s.begin_helper.2,
    storage := s.this }

/-- The loop `while (++cell_index < cell_count) { ... }` of `operator++`.
The list is `cells[cell_index..cell_count)` for the already incremented
`cell_index`; the result is the final `(cell_index, element_index, cell)`. -/
def seek_cell {T : Type} :
    List (Cell T) → Nat → Nat → Cell T → Nat × Nat × Cell T
  | [], ci, ei, cell => (ci, ei, cell)
  | c :: rest, ci, ei, _ =>
    if c.size ≠ 0 ∧ c.flags[0]? = some false then (ci, 0, c)
    else seek_cell rest (ci + 1) ei c

/-- The operator `++` of `iterator` and of `const_iterator` on the
container `s` the iterator points into.  `none` when `cells[cell_index]` is
read past the table. -/
def iterator.incr {T : Type} (s : BucketStorage T) (it : iterator) :
    Option iterator :=
  match s.cells[it.cell_index]? with
  | none => none
  | some cell0 =>
    let element_index := it.element_index + 1
    let next_index := skip_flags cell0 (cell0.size - element_index) element_index
    let r : Nat × Nat × Cell T :=
      if next_index < cell0.size then (it.cell_index, next_index, cell0)
      else seek_cell (s.cells.drop (it.cell_index + 1)) (it.cell_index + 1)
             element_index cell0
    if r.1 ≥ s.cell_count ∨ r.2.1 ≥ r.2.2.size then
      some { cell_index := s.cell_count, element_index := 0, storage := it.storage }
    else
      some { cell_index := r.1, element_index := r.2.1, storage := it.storage }

/-- The operator `*`: `storage->cells[cell_index]->data[element_index]`;
`none` when the slot is outside the table or holds no object. -/
def iterator.deref {T : Type} (s : BucketStorage T) (it : iterator) : Option T :=
  match s.cells[it.cell_index]? with
  | none => none
  | some cell => cell.data.getD it.element_index none

/-- The operator `==` of the iterators. -/
def iterator.eq (a b : iterator) : Bool :=
  a.storage == b.storage && a.cell_index == b.cell_index &&
    a.element_index == b.element_index

/-- The range loop `for (i = first; i != end(); ++i)` collecting `*i`, the
loop the copy constructor runs.  The first argument bounds the number of
iterations; `none` when it is used up or an access is out of range. -/
def collect {T : Type} (s : BucketStorage T) : Nat → iterator → Option (List T)
  | 0, _ => none
  | fuel + 1, i =>
    if i.eq s.end_ then some []
    else
      match i.deref s, i.incr s with
      | some v, some i1 =>
        match collect s fuel i1 with
        | some vs => some (v :: vs)
        | none => none
      | _, _ => none

/-- The sequence `begin()..end()` yields. -/
def BucketStorage.to_list {T : Type} (s : BucketStorage T) (fuel : Nat) :
    Option (List T) :=
  collect s fuel s.begin

/-- The compaction loop of `erase`:
`for (i = index; i < cell->size - 1; ++i) if (flags[i + 1] == 0) { data[i] =
std::move(data[i + 1]); flags[i] = flags[i + 1]; }`.  The first argument is
the variant `cell->size - 1 - i`. -/
def shift_down {T : Type} : Nat → Nat → Cell T → Cell T
  | 0, _, c => c
  | n + 1, i, c =>
    let c1 :=
      if c.flags[i + 1]? = some false then
        { c with data := c.data.set i (c.data.getD (i + 1) none),
                 flags := c.flags.set i (c.flags.getD (i + 1) false) }
      else c
    shift_down n (i + 1) c1

/-- The table loop of `erase`:
`for (i = cell_index; i < cell_count - 1; ++i) cells[i] = cells[i + 1];`.
The first argument is the variant `cell_count - 1 - i`. -/
def shift_cells {T : Type} : Nat → Nat → List (Cell T) → List (Cell T)
  | 0, _, cells => cells
  | n + 1, i, cells =>
    shift_cells n (i + 1)
      (match cells[i + 1]? with
       | some c => cells.set i c
       | none => cells)

/-- The removal of the drained cell at `ci`: the table loop followed by
`--cell_count`. -/
def remove_cell {T : Type} (ci : Nat) (cells : List (Cell T)) : List (Cell T) :=
  (shift_cells (cells.length - 1 - ci) ci cells).take (cells.length - 1)

/-- The statements of `erase` on the owning cell: the destructor call on
`data[index]`, `flags[index] = 1`, the compaction loop and `--cell->size`. -/
def Cell.remove_at {T : Type} (cell : Cell T) (index : Nat) : Cell T :=
  let c1 : Cell T :=
    { cell with data := cell.data.set index none,
                flags := cell.flags.set index true }
  let c2 := shift_down (c1.size - 1 - index) index c1
  { c2 with size := c2.size - 1 }

/-- The method `erase(iterator)`: the new state and the returned iterator. -/
def BucketStorage.erase {T : Type} (s : BucketStorage T) (it : iterator) :
    BucketStorage T × iterator :=
  if it.storage ≠ s.this ∨ it.cell_index ≥ s.cell_count then (s, s.end_)
  else
    match s.cells[it.cell_index]? with
    | none => (s, s.end_)
    | some cell =>
      let index := it.element_index
      if index < cell.size ∧ cell.flags[index]? = some false then
        let c3 := cell.remove_at index
        let s1 : BucketStorage T :=
          if c3.size = 0 then
            { s with cells := remove_cell it.cell_index s.cells,
                     total_size := s.total_size - 1 }
          else
            { s with cells := s.cells.set it.cell_index c3,
                     total_size := s.total_size - 1 }
        (s1, s1.end_)
      else (s, s.end_)

/-- The method `clear()`. -/
def BucketStorage.clear {T : Type} (s : BucketStorage T) : BucketStorage T :=
  { s with cells := [], total_size := 0 }

/-- The body of the inner loop of `shrink_to_fit` for slot `j` of `cell`.
The state is the new table and `current_index`.  A write past the new table
(undefined behaviour in the source) leaves the table as it is. -/
def repack_slot {T : Type} (C : Nat) (cell : Cell T)
    (st : List (Cell T) × Nat) (j : Nat) : List (Cell T) × Nat :=
  if cell.flags[j]? = some false then
    let new_cell_index := st.2 / C
    let new_element_index := st.2 % C
    ((match st.1[new_cell_index]? with
      | some nc =>
        st.1.set new_cell_index (nc.put new_element_index (cell.data.getD j none))
      | none => st.1), st.2 + 1)
  else st

/-- The inner loop `for (j = 0; j < cell->size; ++j)` of `shrink_to_fit`. -/
def repack_cell {T : Type} (C : Nat) (st : List (Cell T) × Nat) (cell : Cell T) :
    List (Cell T) × Nat :=
  (List.range cell.size).foldl (repack_slot C cell) st

/-- The method `shrink_to_fit()`.  (The division is by a positive
`cell_capacity` whenever `total_size` is positive in a consistent state.) -/
def BucketStorage.shrink_to_fit {T : Type} (s : BucketStorage T) : BucketStorage T :=
  if s.total_size = 0 then s.clear
  else
    let new_cell_count := (s.total_size + s.cell_capacity - 1) / s.cell_capacity
    if new_cell_count ≥ s.cell_count then s
    else
      let new_cells : List (Cell T) :=
        List.replicate new_cell_count (Cell.new s.cell_capacity)
      let r := s.cells.foldl (repack_cell s.cell_capacity) (new_cells, 0)
      { s with cells := r.1, total_size := r.2 }

/-- The method `swap(other)`: the members `cells`, `cell_capacity`,
`cell_count` and `total_size` change places; each object keeps its address.
The result is `(this, other)` after the call. -/
def BucketStorage.swap {T : Type} (a b : BucketStorage T) :
    BucketStorage T × BucketStorage T :=
  ({ b with this := a.this }, { a with this := b.this })

/-- The loop of the copy constructor,
`for (auto i = other.begin(); i != other.end(); ++i)`, on the new table
`cells`.  The first argument bounds the number of iterations; `none` when it
is used up or a table is read out of range. -/
def copy_loop {T : Type} (other : BucketStorage T) (C : Nat) :
    Nat → iterator → List (Cell T) → Option (List (Cell T))
  | 0, _, _ => none
  | fuel + 1, i, cells =>
    if i.eq other.end_ then some cells
    else
      match cells[i.cell_index]? with
      | none => none
      | some c =>
        let element_index := c.size
        let cells1 :=
          if element_index < C then
            cells.set i.cell_index (c.put element_index (i.deref other))
          else cells
        match i.incr other with
        | none => none
        | some i1 => copy_loop other C fuel i1 cells1

/-- The copy constructor `BucketStorage(const BucketStorage& other)` of an
object at address `addr`. -/
def BucketStorage.copy_construct {T : Type} (addr : Nat) (other : BucketStorage T)
    (fuel : Nat) : Option (BucketStorage T) :=
  match copy_loop other other.cell_capacity fuel other.begin
      (List.replicate other.cell_count (Cell.new other.cell_capacity)) with
  | none => none
  | some cells =>
    some { this := addr, cells := cells, cell_capacity := other.cell_capacity,
           total_size := other.total_size }

/-- The state the default member initialisers give an object at `addr`:
`cells{}`, `cell_capacity{}`, `cell_count{}`, `total_size{}`. -/
def BucketStorage.default_init {T : Type} (addr : Nat) : BucketStorage T :=
  { this := addr, cells := [], cell_capacity := 0, total_size := 0 }

/-- The move constructor `BucketStorage(BucketStorage&& other)` of an object
at `addr`: `swap(other)` on the default-initialised members.  The result is
`(the new object, other afterwards)`. -/
def BucketStorage.move_construct {T : Type} (addr : Nat) (other : BucketStorage T) :
    BucketStorage T × BucketStorage T :=
  (BucketStorage.default_init addr).swap other

/-- The move assignment `operator=(BucketStorage&& other)`; the result is
`(this, other)` afterwards. -/
def BucketStorage.move_assign {T : Type} (s other : BucketStorage T) :
    BucketStorage T × BucketStorage T :=
  if s.this ≠ other.this then s.clear.swap other else (s, other)

/-- The copy assignment `operator=(const BucketStorage& other)`; `tmp` is the
address of the local `copy`. -/
def BucketStorage.copy_assign {T : Type} (s other : BucketStorage T) (tmp fuel : Nat) :
    Option (BucketStorage T) :=
  if s.this ≠ other.this then
    match BucketStorage.copy_construct tmp other fuel with
    | none => none
    | some copy => some (s.clear.swap copy).1
  else some s

/-- The states a container can be in: those the constructor gives and those
the public operations lead to. -/
inductive Reachable {T : Type} : BucketStorage T → Prop
  | construct (addr C : Nat) : Reachable (BucketStorage.construct addr C)
  | insert {s : BucketStorage T} (v : T) : Reachable s → Reachable (s.insert v).1
  | erase {s : BucketStorage T} (it : iterator) :
      Reachable s → Reachable (s.erase it).1
  | clear {s : BucketStorage T} : Reachable s → Reachable s.clear
  | shrink_to_fit {s : BucketStorage T} : Reachable s → Reachable s.shrink_to_fit
  | swap_this {a b : BucketStorage T} :
      Reachable a → Reachable b → Reachable (a.swap b).1
  | swap_other {a b : BucketStorage T} :
      Reachable a → Reachable b → Reachable (a.swap b).2
  | copy_construct {s s1 : BucketStorage T} (addr fuel : Nat) :
      Reachable s → BucketStorage.copy_construct addr s fuel = some s1 → Reachable s1
  | move_construct_this {s : BucketStorage T} (addr : Nat) :
      Reachable s → Reachable (BucketStorage.move_construct addr s).1
  | move_construct_other {s : BucketStorage T} (addr : Nat) :
      Reachable s → Reachable (BucketStorage.move_construct addr s).2
  | move_assign_this {a b : BucketStorage T} :
      Reachable a → Reachable b → Reachable (a.move_assign b).1
  | move_assign_other {a b : BucketStorage T} :
      Reachable a → Reachable b → Reachable (a.move_assign b).2
  | copy_assign {a b a1 : BucketStorage T} (tmp fuel : Nat) :
      Reachable a → Reachable b → a.copy_assign b tmp fuel = some a1 → Reachable a1

/-- An iterator of the container `s` that addresses a live slot: produced by
this container, cell index within the table, slot below the cell's `size`
with flag `0`. -/
def is_live {T : Type} (s : BucketStorage T) (it : iterator) : Bool :=
  it.storage == s.this &&
    (match s.cells[it.cell_index]? with
     | none => false
     | some cell => decide (it.element_index < cell.size) &&
         (cell.flags[it.element_index]? == some false))

/-- The elements a cell holds in its slots `[0, size)`. -/
def Cell.vals {T : Type} (c : Cell T) : List T :=
  (c.data.take c.size).reduceOption

/-- The elements of the container, cell by cell. -/
def BucketStorage.contents {T : Type} (s : BucketStorage T) : List T :=
  s.cells.flatMap Cell.vals

/-- The sum of the `size` members of the cells of the table. -/
def BucketStorage.live_total {T : Type} (s : BucketStorage T) : Nat :=
  (s.cells.map Cell.size).sum

/-- The position in iteration order of the slot an iterator addresses: the
slots of the cells before it and the slots before it in its cell. -/
def iter_pos {T : Type} (s : BucketStorage T) (it : iterator) : Nat :=
  ((s.cells.take it.cell_index).map Cell.size).sum + it.element_index

/-- A cell of capacity `C` whose first slots hold the elements `ys`, the
other slots being unused. -/
def Cell.of_list {T : Type} (C : Nat) (ys : List T) : Cell T :=
  { data := ys.map some ++ List.replicate (C - ys.length) none, capacity := C,
    size := ys.length, flags := List.replicate C false }

/-- A table of `m` cells of capacity `C` holding the elements `xs` packed
densely from slot `0` of cell `0` onward. -/
def packed {T : Type} (C : Nat) : Nat → List T → List (Cell T)
  | 0, _ => []
  | m + 1, xs => Cell.of_list C (xs.take C) :: packed C m (xs.drop C)

/-- A call of the public interface: `insert(v)` or `erase(it)`. -/
inductive Op (T : Type) where
  | insert (v : T) : Op T
  | erase (it : iterator) : Op T

/-- One call on the container. -/
def step {T : Type} (s : BucketStorage T) : Op T → BucketStorage T
  | Op.insert v => (s.insert v).1
  | Op.erase it => (s.erase it).1

/-- A sequence of calls on the container. -/
def run {T : Type} (s : BucketStorage T) (ops : List (Op T)) : BucketStorage T :=
  ops.foldl step s

/-- The number of `insert` calls in a sequence. -/
def inserted {T : Type} : List (Op T) → Nat
  | [] => 0
  | Op.insert _ :: ops => inserted ops + 1
  | Op.erase _ :: ops => inserted ops

/-- The number of `erase` calls of a sequence run from `s` whose iterator
addressed a live slot of the container when the call was made. -/
def erased {T : Type} (s : BucketStorage T) : List (Op T) → Nat
  | [] => 0
  | Op.insert v :: ops => erased (s.insert v).1 ops
  | Op.erase it :: ops =>
    (if is_live s it then 1 else 0) + erased (s.erase it).1 ops

/-- Every cell of the table but the last one is full. -/
def dense {T : Type} (C : Nat) (cells : List (Cell T)) : Prop :=
  ∀ pre c post, cells = pre ++ c :: post → post ≠ [] → c.size = C

/-- The inserts `insert(v1); ...; insert(vN)` in that order. -/
def insert_all {T : Type} (s : BucketStorage T) (vs : List T) : BucketStorage T :=
  vs.foldl (fun acc v => (acc.insert v).1) s

/-- Scenario A of the specification: a container at address `1` with `C = 2`
after the inserts `10, 20, 30, 40, 50`. -/
def scenarioA : BucketStorage Nat :=
  insert_all (BucketStorage.construct 1 2) [10, 20, 30, 40, 50]

/-- Scenario B of the specification: scenario A after erasing the element
`20`, which sits in slot `1` of cell `0`. -/
def scenarioB : BucketStorage Nat :=
  (scenarioA.erase { cell_index := 0, element_index := 1, storage := 1 }).1

/-- A container at address `1` with `C = 4` after the inserts `10, 20, 30`. -/
def scenarioD : BucketStorage Nat :=
  insert_all (BucketStorage.construct 1 4) [10, 20, 30]

/-- The loop `while (element_index && flags[element_index]) --element_index;`
of `operator--`. -/
def skip_back (flags : List Bool) : Nat → Nat
  | 0 => 0
  | e + 1 => if flags[e + 1]? = some true then skip_back flags e else e + 1

/-- The loop `while (--cell_index >= 0) { ... }` of `operator--`, started at
`cell_index`.  The index is an unsigned `size_t`, so the test is always true:
at `cell_index = 0` the decrement wraps to `2^64 - 1` and the next statement
reads `cells[2^64 - 1]`, past the table, which gives `none`; so does every
other read past the table.  The result is the final
`(cell_index, element_index)`. -/
def seek_back {T : Type} (cells : List (Cell T)) : Nat → Option (Nat × Nat)
  | 0 => none
  | ci + 1 =>
    match cells[ci]? with
    | none => none
    | some cell =>
      if cell.size ≠ 0 ∧ cell.flags[cell.size - 1]? = some false then
        some (ci, cell.size - 1)
      else seek_back cells ci

/-- The operator `--` of `iterator` on the container `s` the iterator points
into; `none` when a table is read out of range. -/
def iterator.decr {T : Type} (s : BucketStorage T) (it : iterator) :
    Option iterator :=
  if it.element_index ≠ 0 then
    let element_index := it.element_index - 1
    if element_index = 0 then
      some { cell_index := it.cell_index, element_index := 0, storage := it.storage }
    else
      match s.cells[it.cell_index]? with
      | none => none
      | some cell =>
        some { cell_index := it.cell_index,
               element_index := skip_back cell.flags element_index,
               storage := it.storage }
  else
    match seek_back s.cells it.cell_index with
    | none => none
    | some (ci, ei) =>
      some { cell_index := ci, element_index := ei, storage := it.storage }

/-- The counted loops of `get_to_distance`: `n` applications of a step. -/
def iterate (f : iterator → Option iterator) : Nat → iterator → Option iterator
  | 0, it => some it
  | n + 1, it =>
    match f it with
    | none => none
    | some it1 => iterate f n it1

/-- The static method `get_to_distance(iterator, distance)` for an iterator
into `s`: `distance` increments when it is positive, `-distance` decrements
otherwise. -/
def get_to_distance {T : Type} (s : BucketStorage T) (it : iterator) (distance : Int) :
    Option iterator :=
  if distance > 0 then iterate (iterator.incr s) distance.toNat it
  else iterate (iterator.decr s) (-distance).toNat it

/-- The operator `>` of `iterator`. -/
def iterator.gt (a b : iterator) : Bool :=
  !(b.eq a) &&
    (decide (a.cell_index > b.cell_index) ||
      (a.cell_index == b.cell_index && decide (a.element_index > b.element_index)))

/-- The operator `<` of `iterator`. -/
def iterator.lt (a b : iterator) : Bool :=
  !(a.gt b) && !(a.eq b)

/-- The operator `>=` of `iterator`. -/
def iterator.ge (a b : iterator) : Bool :=
  !(a.lt b)

/-- The operator `<=` of `iterator`. -/
def iterator.le (a b : iterator) : Bool :=
  !(a.gt b)

/-- A container at address `1` with `C = 3` after the inserts
`10, 20, 99, 30, 40` and the erase of `99`, which sits in slot `2` of cell
`0`: the cells hold `[10, 20]` and `[30, 40]`. -/
def scenarioE : BucketStorage Nat :=
  ((insert_all (BucketStorage.construct 1 3) [10, 20, 99, 30, 40]).erase
    { cell_index := 0, element_index := 2, storage := 1 }).1

/-- A container at address `1` with `C = 2` holding `10`, after it has been
the source of the move construction of an object at address `2`. -/
def scenarioM : BucketStorage Nat :=
  (BucketStorage.move_construct 2 (insert_all (BucketStorage.construct 1 2) [10])).2

/-- The consistency of one cell of a container of cell capacity `C`. -/
structure Cell.wf {T : Type} (C : Nat) (c : Cell T) : Prop where
  cap : c.capacity = C
  data_len : c.data.length = C
  flags_len : c.flags.length = C
  size_le : c.size ≤ C
  size_pos : 0 < C → 0 < c.size
  live : ∀ i, i < c.size → c.flags[i]? = some false
  full : ∀ i, i < c.size → ∃ v, c.data[i]? = some (some v)

/-- The consistency of a container: every cell is consistent and
`total_size` is the sum of the cells' sizes. -/
structure Inv {T : Type} (s : BucketStorage T) : Prop where
  cells_wf : ∀ c ∈ s.cells, c.wf s.cell_capacity
  total : s.total_size = s.live_total

variable {T : Type}

theorem reduceOption_map_some (l : List T) : (l.map some).reduceOption = l := by
  induction l with
  | nil => rfl
  | cons x xs ih => simp [List.reduceOption_cons_of_some, ih]

/-- A list of options whose entries are all present is the image of its values. -/
theorem map_some_reduceOption (l : List (Option T))
    (h : ∀ i, i < l.length → ∃ v, l[i]? = some (some v)) :
    l.reduceOption.map some = l := by
  induction l with
  | nil => rfl
  | cons x xs ih =>
    obtain ⟨v, hv⟩ := h 0 (by simp)
    simp at hv
    subst hv
    rw [List.reduceOption_cons_of_some, List.map_cons, ih]
    intro i hi
    have := h (i + 1) (by simpa using hi)
    simpa using this

theorem Cell.take_data {C : Nat} {c : Cell T} (h : c.wf C) :
    c.data.take c.size = c.vals.map some := by
  unfold Cell.vals
  rw [map_some_reduceOption]
  intro i hi
  have hi2 : i < c.size := by
    have := List.length_take_le c.size c.data
    omega
  obtain ⟨v, hv⟩ := h.full i hi2
  exact ⟨v, by rw [List.getElem?_take_of_lt hi2]; exact hv⟩

theorem Cell.vals_length {C : Nat} {c : Cell T} (h : c.wf C) :
    c.vals.length = c.size := by
  have h1 := congrArg List.length (Cell.take_data h)
  simp [h.data_len] at h1
  have := h.size_le
  omega

theorem Cell.vals_getElem? {C : Nat} {c : Cell T} (h : c.wf C) (i : Nat) (hi : i < c.size) :
    c.data[i]? = (c.vals[i]?).map some := by
  have h1 := congrArg (fun l => l[i]?) (Cell.take_data h)
  simp only [List.getElem?_take_of_lt hi, List.getElem?_map] at h1
  exact h1


theorem take_set_ge {α : Type} (l : List α) (n m : Nat) (a : α) (h : m ≤ n) :
    (l.set n a).take m = l.take m := by
  apply List.ext_getElem?
  intro i
  simp only [List.getElem?_take]
  split
  · rw [List.getElem?_set_ne (by omega)]
  · rfl

theorem Cell.vals_put (c : Cell T) (v : T) (h : c.size < c.data.length) :
    (c.put c.size (some v)).vals = c.vals ++ [v] := by
  unfold Cell.vals Cell.put
  simp only
  rw [List.take_succ, take_set_ge _ _ _ _ (Nat.le_refl _)]
  simp [List.getElem?_set, h, List.reduceOption_append]

theorem Cell.wf_put {C : Nat} (c : Cell T) (v : T)
    (hcap : c.capacity = C) (hd : c.data.length = C) (hf : c.flags.length = C)
    (hlt : c.size < C) (hlive : ∀ i, i < c.size → c.flags[i]? = some false)
    (hfull : ∀ i, i < c.size → ∃ w, c.data[i]? = some (some w)) :
    (c.put c.size (some v)).wf C := by
  refine ⟨hcap, by simp [Cell.put, hd], by simp [Cell.put, hf], by simp [Cell.put]; omega,
    fun _ => by simp [Cell.put], ?_, ?_⟩
  · intro i hi
    simp only [Cell.put] at hi ⊢
    rw [List.getElem?_set]
    split
    · simp; omega
    · exact hlive i (by omega)
  · intro i hi
    simp only [Cell.put] at hi ⊢
    rw [List.getElem?_set]
    split
    · simp; omega
    · exact hfull i (by omega)


theorem insert_loop_none (C : Nat) (v : T) (i : Nat) (cells : List (Cell T))
    (h : ∀ p ∈ cells, ¬ C > p.size) : insert_loop C v i cells = none := by
  induction cells generalizing i with
  | nil => rfl
  | cons c cs ih =>
    have hc := h c (by simp)
    simp only [insert_loop, hc, if_false]
    rw [ih (i + 1) (fun p hp => h p (by simp [hp]))]

theorem insert_loop_found (C : Nat) (v : T) (i : Nat) (pre : List (Cell T)) (c : Cell T)
    (post : List (Cell T)) (hpre : ∀ p ∈ pre, ¬ C > p.size) (hc : C > c.size) :
    insert_loop C v i (pre ++ c :: post)
      = some (pre ++ c.put c.size (some v) :: post, i + pre.length, c.size) := by
  induction pre generalizing i with
  | nil => simp [insert_loop, hc]
  | cons p ps ih =>
    have hp := hpre p (by simp)
    rw [List.cons_append]
    simp only [insert_loop, hp, if_false]
    rw [ih (i + 1) (fun q hq => hpre q (by simp [hq]))]
    simp
    omega

theorem exists_first_room (C : Nat) (cells : List (Cell T)) :
    (∀ p ∈ cells, ¬ C > p.size) ∨
    ∃ pre c post, cells = pre ++ c :: post ∧ (∀ p ∈ pre, ¬ C > p.size) ∧ C > c.size := by
  induction cells with
  | nil => left; simp
  | cons c cs ih =>
    by_cases hc : C > c.size
    · right; exact ⟨[], c, cs, rfl, by simp, hc⟩
    · rcases ih with h | ⟨pre, d, post, h1, h2, h3⟩
      · left
        intro p hp
        rcases List.mem_cons.1 hp with rfl | hp
        · exact hc
        · exact h p hp
      · right
        refine ⟨c :: pre, d, post, by simp [h1], ?_, h3⟩
        intro p hp
        rcases List.mem_cons.1 hp with rfl | hp
        · exact hc
        · exact h2 p hp

theorem sum_sizes_le (C : Nat) (cells : List (Cell T)) (h : ∀ c ∈ cells, c.size ≤ C) :
    (cells.map Cell.size).sum ≤ C * cells.length := by
  induction cells with
  | nil => simp
  | cons c cs ih =>
    have h1 := h c (by simp)
    have h2 := ih (fun d hd => h d (by simp [hd]))
    simp only [List.map_cons, List.sum_cons, List.length_cons, Nat.mul_succ]
    omega

theorem sizes_full (C : Nat) (cells : List (Cell T)) (h : ∀ c ∈ cells, c.size ≤ C)
    (hs : C * cells.length ≤ (cells.map Cell.size).sum) : ∀ c ∈ cells, c.size = C := by
  induction cells with
  | nil => simp
  | cons c cs ih =>
    have h1 := h c (by simp)
    have h2 := sum_sizes_le C cs (fun d hd => h d (by simp [hd]))
    simp only [List.map_cons, List.sum_cons, List.length_cons, Nat.mul_succ] at hs
    intro d hd
    rcases List.mem_cons.1 hd with rfl | hd
    · omega
    · exact ih (fun d hd => h d (by simp [hd])) (by omega) d hd

theorem sizes_not_full (C : Nat) (cells : List (Cell T))
    (hs : (cells.map Cell.size).sum < C * cells.length) : ¬ ∀ p ∈ cells, ¬ C > p.size := by
  intro h
  have : C * cells.length ≤ (cells.map Cell.size).sum := by
    clear hs
    induction cells with
    | nil => simp
    | cons c cs ih =>
      have h1 := h c (by simp)
      have h2 := ih (fun d hd => h d (by simp [hd]))
      simp only [List.map_cons, List.sum_cons, List.length_cons, Nat.mul_succ]
      omega
  omega

/-- What `insert` does in a consistent state with positive cell capacity. -/
theorem insert_spec (s : BucketStorage T) (v : T) (hI : Inv s) (hC : 0 < s.cell_capacity) :
    ∃ pre c post,
      (s.cells = pre ++ c :: post ∨
        (s.cells = pre ∧ c = Cell.new s.cell_capacity ∧ post = [])) ∧
      (∀ p ∈ pre, p.size = s.cell_capacity) ∧ c.size < s.cell_capacity ∧
      s.insert v =
        ({ s with cells := pre ++ c.put c.size (some v) :: post,
                  total_size := s.total_size + 1 },
         { cell_index := pre.length, element_index := c.size, storage := s.this }) := by
  have hle : ∀ c ∈ s.cells, c.size ≤ s.cell_capacity := fun c hc => (hI.cells_wf c hc).size_le
  by_cases hfull : s.total_size ≥ s.capacity
  · have hall : ∀ c ∈ s.cells, c.size = s.cell_capacity := by
      apply sizes_full _ _ hle
      have := hI.total
      unfold BucketStorage.live_total at this
      unfold BucketStorage.capacity BucketStorage.cell_count at hfull
      omega
    refine ⟨s.cells, Cell.new s.cell_capacity, [], Or.inr ⟨rfl, rfl, rfl⟩, hall, hC, ?_⟩
    unfold BucketStorage.insert BucketStorage.insert_helper
    simp only [hfull, if_true, BucketStorage.allocate_new_cell]
    rw [insert_loop_found _ _ _ _ _ _ (fun p hp => by have := hall p hp; omega)
      (by simpa [Cell.new] using hC)]
    simp
  · rcases exists_first_room s.cell_capacity s.cells with h | ⟨pre, c, post, h1, h2, h3⟩
    · exfalso
      refine sizes_not_full _ _ ?_ h
      have := hI.total
      unfold BucketStorage.live_total at this
      unfold BucketStorage.capacity BucketStorage.cell_count at hfull
      omega
    · refine ⟨pre, c, post, Or.inl h1, ?_, h3, ?_⟩
      · intro p hp
        have := h2 p hp
        have := hle p (by simp [h1, hp])
        omega
      · unfold BucketStorage.insert BucketStorage.insert_helper
        simp only [hfull, if_false]
        rw [h1, insert_loop_found _ _ _ _ _ _ h2 h3]
        simp


theorem Cell.new_vals (C : Nat) : (Cell.new C : Cell T).vals = [] := by
  simp [Cell.vals, Cell.new]

theorem Cell.new_wf_zero : (Cell.new 0 : Cell T).wf 0 := by
  refine ⟨rfl, rfl, rfl, Nat.le_refl _, fun h => absurd h (Nat.lt_irrefl 0), ?_, ?_⟩
  · intro i hi; exact absurd hi (Nat.not_lt_zero i)
  · intro i hi; exact absurd hi (Nat.not_lt_zero i)

/-- With cell capacity `0` the method `insert` links an empty cell and stores
nothing. -/
theorem insert_zero (s : BucketStorage T) (v : T) (hC : s.cell_capacity = 0) :
    s.insert v = (s.allocate_new_cell, s.allocate_new_cell.end_) := by
  have h0 : s.total_size ≥ s.capacity := by
    unfold BucketStorage.capacity; rw [hC]; simp
  unfold BucketStorage.insert BucketStorage.insert_helper
  simp only [h0, if_true]
  rw [insert_loop_none]
  intro p _
  simp [BucketStorage.allocate_new_cell, hC]

theorem insert_inv (s : BucketStorage T) (v : T) (hI : Inv s) : Inv (s.insert v).1 := by
  rcases Nat.eq_zero_or_pos s.cell_capacity with hC | hC
  · rw [insert_zero s v hC]
    constructor
    · intro c hc
      simp only [BucketStorage.allocate_new_cell, List.mem_append, List.mem_singleton] at hc ⊢
      rcases hc with hc | rfl
      · exact hI.cells_wf c hc
      · rw [hC]; exact Cell.new_wf_zero
    · have := hI.total
      simp [BucketStorage.allocate_new_cell, BucketStorage.live_total, Cell.new] at this ⊢
      exact this
  · obtain ⟨pre, c, post, hdec, hpre, hc, heq⟩ := insert_spec s v hI hC
    rw [heq]
    have hwf_pre : ∀ p ∈ pre, p.wf s.cell_capacity := by
      intro p hp
      rcases hdec with h | ⟨h, _, _⟩
      · exact hI.cells_wf p (by simp [h, hp])
      · exact hI.cells_wf p (by simp [h, hp])
    have hwf_post : ∀ p ∈ post, p.wf s.cell_capacity := by
      intro p hp
      rcases hdec with h | ⟨_, _, h⟩
      · exact hI.cells_wf p (by simp [h, hp])
      · simp [h] at hp
    have hwf_c : (c.put c.size (some v)).wf s.cell_capacity := by
      rcases hdec with h | ⟨_, h, _⟩
      · have hw := hI.cells_wf c (by simp [h])
        exact Cell.wf_put c v hw.cap hw.data_len hw.flags_len hc hw.live hw.full
      · subst h
        apply Cell.wf_put _ v rfl (by simp [Cell.new]) (by simp [Cell.new]) hc
        · intro i hi; simp [Cell.new] at hi
        · intro i hi; simp [Cell.new] at hi
    constructor
    · intro d hd
      simp only [List.mem_append, List.mem_cons] at hd
      rcases hd with hd | rfl | hd
      · exact hwf_pre d hd
      · exact hwf_c
      · exact hwf_post d hd
    · have := hI.total
      simp only [BucketStorage.live_total] at this ⊢
      rcases hdec with h | ⟨h, h2, h3⟩
      · rw [this, h]
        simp [Cell.put]
        omega
      · rw [this, h, h2, h3]
        simp [Cell.put, Cell.new]

theorem insert_contents (s : BucketStorage T) (v : T) (pre post : List (Cell T)) (c : Cell T)
    (hdec : s.cells = pre ++ c :: post ∨
        (s.cells = pre ∧ c = Cell.new s.cell_capacity ∧ post = []))
    (hlen : c.size < c.data.length) :
    s.contents = pre.flatMap Cell.vals ++ c.vals ++ post.flatMap Cell.vals ∧
    (pre ++ c.put c.size (some v) :: post).flatMap Cell.vals
      = pre.flatMap Cell.vals ++ (c.vals ++ [v]) ++ post.flatMap Cell.vals := by
  constructor
  · unfold BucketStorage.contents
    rcases hdec with h | ⟨h, h2, h3⟩
    · rw [h]; simp
    · rw [h, h2, h3]; simp [Cell.new_vals]
  · simp [Cell.vals_put c v hlen]

theorem getElem?_mid {α : Type} (pre post : List α) (c : α) :
    (pre ++ c :: post)[pre.length]? = some c := by
  rw [List.getElem?_append_right (Nat.le_refl _)]
  simp

theorem drop_mid {α : Type} (pre post : List α) (c : α) :
    (pre ++ c :: post).drop (pre.length + 1) = post := by
  induction pre with
  | nil => simp
  | cons p ps ih => simp

theorem skip_flags_live (c : Cell T) (n e : Nat)
    (h : e < c.size → c.flags[e]? = some false) : skip_flags c n e = e := by
  cases n with
  | zero => rfl
  | succ n =>
    have : ¬ (e < c.size ∧ c.flags[e]? = some true) := by
      rintro ⟨h1, h2⟩
      rw [h h1] at h2
      simp at h2
    simp only [skip_flags, this, if_false]

theorem begin_nil (s : BucketStorage T) (h : s.cells = []) : s.begin = s.end_ := by
  simp [BucketStorage.begin, BucketStorage.begin_helper, BucketStorage.end_,
    BucketStorage.cell_count, first_nonempty, h]

theorem begin_cons (s : BucketStorage T) (c : Cell T) (cs : List (Cell T))
    (h : s.cells = c :: cs) (hpos : 0 < c.size) (hlive : c.flags[0]? = some false) :
    s.begin = { cell_index := 0, element_index := 0, storage := s.this } := by
  have h0 : (c.size == 0) = false := by simp; omega
  have hsk : skip_flags c c.size 0 = 0 := skip_flags_live c _ _ (fun _ => hlive)
  simp [BucketStorage.begin, BucketStorage.begin_helper, first_nonempty, h, h0, hsk]

theorem incr_within (s : BucketStorage T) (pre post : List (Cell T)) (c : Cell T)
    (ei a : Nat) (h : s.cells = pre ++ c :: post) (hlt : ei + 1 < c.size)
    (hlive : c.flags[ei + 1]? = some false) :
    iterator.incr s { cell_index := pre.length, element_index := ei, storage := a }
      = some { cell_index := pre.length, element_index := ei + 1, storage := a } := by
  unfold iterator.incr
  simp only [h, getElem?_mid]
  rw [skip_flags_live c _ _ (fun _ => hlive)]
  simp only [hlt, if_true]
  have : ¬ (pre.length ≥ BucketStorage.cell_count s ∨ ei + 1 ≥ c.size) := by
    simp [BucketStorage.cell_count, h]; omega
  simp only [this, if_false]

theorem incr_next_cell (s : BucketStorage T) (pre post : List (Cell T)) (c d : Cell T)
    (ei a : Nat) (h : s.cells = pre ++ c :: d :: post) (hlt : ei + 1 = c.size)
    (hpos : 0 < d.size) (hlive : d.flags[0]? = some false) :
    iterator.incr s { cell_index := pre.length, element_index := ei, storage := a }
      = some { cell_index := pre.length + 1, element_index := 0, storage := a } := by
  unfold iterator.incr
  simp only [h, getElem?_mid, drop_mid]
  rw [skip_flags_live c _ _ (fun hh => absurd hh (by omega))]
  have h1 : ¬ (ei + 1 < c.size) := by omega
  have h2 : d.size ≠ 0 ∧ d.flags[0]? = some false := ⟨by omega, hlive⟩
  have h3 : seek_cell (d :: post) (pre.length + 1) (ei + 1) c = (pre.length + 1, 0, d) := by
    simp only [seek_cell, if_pos h2]
  simp only [h1, if_false, h3]
  have : ¬ (pre.length + 1 ≥ BucketStorage.cell_count s ∨ 0 ≥ d.size) := by
    simp [BucketStorage.cell_count, h]; omega
  simp only [this, if_false]

theorem incr_last (s : BucketStorage T) (pre : List (Cell T)) (c : Cell T)
    (ei a : Nat) (h : s.cells = pre ++ [c]) (hlt : ei + 1 = c.size) :
    iterator.incr s { cell_index := pre.length, element_index := ei, storage := a }
      = some { cell_index := s.cell_count, element_index := 0, storage := a } := by
  unfold iterator.incr
  simp only [h, getElem?_mid, drop_mid]
  rw [skip_flags_live c _ _ (fun hh => absurd hh (by omega))]
  have h1 : ¬ (ei + 1 < c.size) := by omega
  simp only [h1, if_false, seek_cell]
  have : (pre.length + 1 ≥ BucketStorage.cell_count s ∨ ei + 1 ≥ c.size) := by
    simp [BucketStorage.cell_count, h]
  simp only [this, if_true]

theorem deref_mid (s : BucketStorage T) (pre post : List (Cell T)) (c : Cell T)
    (ei a : Nat) (h : s.cells = pre ++ c :: post) :
    iterator.deref s { cell_index := pre.length, element_index := ei, storage := a }
      = c.data.getD ei none := by
  unfold iterator.deref
  simp only [h, getElem?_mid]

theorem iterator_eq_iff (a b : iterator) : a.eq b = true ↔ a = b := by
  cases a; cases b
  simp [iterator.eq]
  tauto

theorem Cell.getD_data {C : Nat} {c : Cell T} (h : c.wf C) (i : Nat) (hi : i < c.size) :
    ∃ v, c.vals[i]? = some v ∧ c.data.getD i none = some v := by
  have h1 := Cell.vals_getElem? h i hi
  have h2 : i < c.vals.length := by rw [Cell.vals_length h]; exact hi
  refine ⟨c.vals[i], List.getElem?_eq_getElem h2, ?_⟩
  rw [List.getD_eq_getElem?_getD, h1, List.getElem?_eq_getElem h2]
  rfl

/-- The range loop from a live slot to `end()` yields the rest of the cell and
the cells after it. -/
theorem collect_spec (s : BucketStorage T) (hI : Inv s) (hC : 0 < s.cell_capacity) :
    ∀ (fuel : Nat) (pre : List (Cell T)) (c : Cell T) (post : List (Cell T)) (ei : Nat),
      s.cells = pre ++ c :: post → ei < c.size →
      (c.size - ei) + (post.map Cell.size).sum < fuel →
      collect s fuel { cell_index := pre.length, element_index := ei, storage := s.this }
        = some (c.vals.drop ei ++ post.flatMap Cell.vals) := by
  intro fuel
  induction fuel with
  | zero => intro pre c post ei _ _ h; omega
  | succ fuel ih =>
    intro pre c post ei hdec hei hfuel
    have hwc : c.wf s.cell_capacity := hI.cells_wf c (by simp [hdec])
    have hne : iterator.eq { cell_index := pre.length, element_index := ei, storage := s.this }
        s.end_ = false := by
      rw [Bool.eq_false_iff]
      intro hh
      rw [iterator_eq_iff] at hh
      have := congrArg iterator.cell_index hh
      simp [BucketStorage.end_, BucketStorage.cell_count, hdec] at this
    obtain ⟨v, hv1, hv2⟩ := Cell.getD_data hwc ei hei
    have hder := deref_mid s pre post c ei s.this hdec
    rw [hv2] at hder
    have hdrop : c.vals.drop ei = v :: c.vals.drop (ei + 1) := by
      have hlt : ei < c.vals.length := by rw [Cell.vals_length hwc]; exact hei
      rw [List.drop_eq_getElem_cons hlt]
      rw [List.getElem?_eq_getElem hlt] at hv1
      injection hv1 with hv1
      rw [hv1]
    simp only [collect, hne, hder]
    by_cases hin : ei + 1 < c.size
    · rw [incr_within s pre post c ei s.this hdec hin (hwc.live _ hin)]
      simp only
      rw [ih pre c post (ei + 1) hdec hin (by omega), hdrop]
      simp
    · have hlast : ei + 1 = c.size := by omega
      have hnil : c.vals.drop (ei + 1) = [] := by
        apply List.drop_eq_nil_of_le
        rw [Cell.vals_length hwc]; omega
      cases post with
      | nil =>
        rw [incr_last s pre c ei s.this hdec hlast]
        simp only
        have hfuel2 : fuel = (fuel - 1) + 1 := by omega
        rw [hfuel2]
        have : iterator.eq { cell_index := s.cell_count, element_index := 0, storage := s.this }
            s.end_ = true := by
          rw [iterator_eq_iff]; rfl
        simp only [collect, this, if_true, hdrop, hnil]
        simp
      | cons d post =>
        have hwd : d.wf s.cell_capacity := hI.cells_wf d (by simp [hdec])
        have hdpos := hwd.size_pos hC
        rw [incr_next_cell s pre post c d ei s.this hdec hlast hdpos (hwd.live 0 hdpos)]
        simp only
        have hdec2 : s.cells = (pre ++ [c]) ++ d :: post := by simp [hdec]
        have := ih (pre ++ [c]) d post 0 hdec2 hdpos (by
          simp only [List.map_cons, List.sum_cons] at hfuel; omega)
        simp only [List.length_append, List.length_singleton] at this
        rw [this, hdrop, hnil]
        simp

/-- Iterating a consistent container from `begin()` to `end()` yields its
contents, for every bound above `size()`. -/
theorem to_list_spec (s : BucketStorage T) (hI : Inv s) (hC : 0 < s.cell_capacity)
    (fuel : Nat) (hfuel : s.total_size < fuel) : s.to_list fuel = some s.contents := by
  unfold BucketStorage.to_list BucketStorage.contents
  cases hcs : s.cells with
  | nil =>
    rw [begin_nil s hcs]
    have hfuel2 : fuel = (fuel - 1) + 1 := by omega
    rw [hfuel2]
    have : iterator.eq s.end_ s.end_ = true := by rw [iterator_eq_iff]
    simp [collect, this]
  | cons c cs =>
    have hwc : c.wf s.cell_capacity := hI.cells_wf c (by simp [hcs])
    have hpos := hwc.size_pos hC
    rw [begin_cons s c cs hcs hpos (hwc.live 0 hpos)]
    have := collect_spec s hI hC fuel [] c cs 0 (by simp [hcs]) hpos (by
      have ht := hI.total
      simp only [BucketStorage.live_total, hcs, List.map_cons, List.sum_cons] at ht
      omega)
    simpa using this

/-- The compaction loop moves the slots `(i, i + n]` down by one and leaves
the other slots and the members `size` and `capacity` alone. -/
theorem shift_down_spec (n : Nat) : ∀ (i : Nat) (c : Cell T),
    (∀ j, i < j → j ≤ i + n → c.flags[j]? = some false) →
    i + n < c.data.length → i + n < c.flags.length →
    (shift_down n i c).size = c.size ∧ (shift_down n i c).capacity = c.capacity ∧
    (shift_down n i c).data.length = c.data.length ∧
    (shift_down n i c).flags.length = c.flags.length ∧
    (∀ k, (shift_down n i c).data[k]? =
      if i ≤ k ∧ k < i + n then c.data[k + 1]? else c.data[k]?) ∧
    (∀ k, (shift_down n i c).flags[k]? =
      if i ≤ k ∧ k < i + n then some false else c.flags[k]?) := by
  induction n with
  | zero =>
    intro i c _ _ _
    refine ⟨rfl, rfl, rfl, rfl, ?_, ?_⟩ <;> intro k <;> rw [if_neg (by omega)] <;> rfl
  | succ n ih =>
    intro i c hfl hd hf
    have hf1 : c.flags[i + 1]? = some false := hfl (i + 1) (by omega) (by omega)
    simp only [shift_down, hf1, if_true]
    have hgd : c.flags.getD (i + 1) false = false := by
      rw [List.getD_eq_getElem?_getD, hf1]; rfl
    rw [hgd]
    obtain ⟨h1, h2, h3, h4, h5, h6⟩ := ih (i + 1)
      { c with data := c.data.set i (c.data.getD (i + 1) none), flags := c.flags.set i false }
      (by
        intro j hj1 hj2
        simp only
        rw [List.getElem?_set_ne (by omega)]
        exact hfl j (by omega) (by omega))
      (by simp; omega) (by simp; omega)
    refine ⟨h1, h2, by simpa using h3, by simpa using h4, ?_, ?_⟩
    · intro k
      rw [h5 k]
      simp only
      by_cases hk : i + 1 ≤ k ∧ k < i + 1 + n
      · rw [if_pos hk, if_pos (by omega), List.getElem?_set_ne (by omega)]
      · rw [if_neg hk]
        by_cases hki : k = i
        · subst hki
          rw [if_pos (by omega), List.getElem?_set_eq_of_lt _ (by omega),
            List.getD_eq_getElem?_getD, List.getElem?_eq_getElem (by omega : k + 1 < c.data.length)]
          rfl
        · rw [if_neg (by omega), List.getElem?_set_ne (by omega)]
    · intro k
      rw [h6 k]
      simp only
      by_cases hk : i + 1 ≤ k ∧ k < i + 1 + n
      · rw [if_pos hk, if_pos (by omega)]
      · rw [if_neg hk]
        by_cases hki : k = i
        · subst hki
          rw [if_pos (by omega), List.getElem?_set_eq_of_lt _ (by omega)]
        · rw [if_neg (by omega), List.getElem?_set_ne (by omega)]

/-- The table loop moves the cells `(i, i + n]` down by one. -/
theorem shift_cells_spec (n : Nat) : ∀ (i : Nat) (cells : List (Cell T)),
    i + n < cells.length →
    (shift_cells n i cells).length = cells.length ∧
    (∀ k, (shift_cells n i cells)[k]? =
      if i ≤ k ∧ k < i + n then cells[k + 1]? else cells[k]?) := by
  induction n with
  | zero =>
    intro i cells _
    refine ⟨rfl, ?_⟩
    intro k
    rw [if_neg (by omega)]
    rfl
  | succ n ih =>
    intro i cells hlen
    have hget : cells[i + 1]? = some (cells[i + 1]) := List.getElem?_eq_getElem (by omega)
    simp only [shift_cells, hget]
    obtain ⟨h1, h2⟩ := ih (i + 1) (cells.set i cells[i + 1]) (by simp; omega)
    refine ⟨by simpa using h1, ?_⟩
    intro k
    rw [h2 k]
    by_cases hk : i + 1 ≤ k ∧ k < i + 1 + n
    · rw [if_pos hk, if_pos (by omega), List.getElem?_set_ne (by omega)]
    · rw [if_neg hk]
      by_cases hki : k = i
      · subst hki
        rw [if_pos (by omega), List.getElem?_set_eq_of_lt _ (by omega), hget]
      · rw [if_neg (by omega), List.getElem?_set_ne (by omega)]

/-- Unlinking a cell of the table removes exactly that entry. -/
theorem remove_cell_eq (ci : Nat) (cells : List (Cell T)) (h : ci < cells.length) :
    remove_cell ci cells = cells.eraseIdx ci := by
  unfold remove_cell
  obtain ⟨h1, h2⟩ := shift_cells_spec (cells.length - 1 - ci) ci cells (by omega)
  apply List.ext_getElem?
  intro k
  rw [List.getElem?_take, h2 k, List.getElem?_eraseIdx]
  by_cases hk : k < cells.length - 1
  · rw [if_pos hk]
    by_cases hk2 : k < ci
    · rw [if_neg (by omega), if_pos hk2]
    · rw [if_pos (by omega), if_neg hk2]
  · rw [if_neg hk]
    rw [if_neg (by omega)]
    exact (List.getElem?_eq_none (by omega)).symm

theorem remove_cell_mid (pre post : List (Cell T)) (c : Cell T) :
    remove_cell pre.length (pre ++ c :: post) = pre ++ post := by
  rw [remove_cell_eq _ _ (by simp)]
  rw [List.eraseIdx_append_of_length_le (Nat.le_refl _)]
  simp

theorem set_mid {α : Type} (pre post : List α) (c d : α) :
    (pre ++ c :: post).set pre.length d = pre ++ d :: post := by
  rw [List.set_append_right _ _ (Nat.le_refl _)]
  simp

theorem Cell.remove_at_spec {C : Nat} (c : Cell T) (h : c.wf C) (index : Nat)
    (hi : index < c.size) :
    (c.remove_at index).size = c.size - 1 ∧ (c.remove_at index).capacity = C ∧
    (c.remove_at index).data.length = C ∧ (c.remove_at index).flags.length = C ∧
    (∀ k, k < c.size - 1 → (c.remove_at index).data[k]? =
      if index ≤ k then c.data[k + 1]? else c.data[k]?) ∧
    (∀ k, k < c.size - 1 → (c.remove_at index).flags[k]? = some false) := by
  have hsz := h.size_le
  have hdl := h.data_len
  have hfl := h.flags_len
  obtain ⟨h1, h2, h3, h4, h5, h6⟩ := shift_down_spec (c.size - 1 - index) index
    { c with data := c.data.set index none, flags := c.flags.set index true }
    (by
      intro j hj1 hj2
      simp only
      rw [List.getElem?_set_ne (by omega)]
      exact h.live j (by omega))
    (by simp; omega) (by simp; omega)
  unfold Cell.remove_at
  simp only at h1 h2 h3 h4 h5 h6 ⊢
  refine ⟨by rw [h1], by rw [h2, h.cap], by rw [h3]; simp [hdl], by rw [h4]; simp [hfl], ?_, ?_⟩
  · intro k hk
    rw [h5 k]
    by_cases hik : index ≤ k
    · rw [if_pos (by omega), if_pos hik, List.getElem?_set_ne (by omega)]
    · rw [if_neg (by omega), if_neg hik, List.getElem?_set_ne (by omega)]
  · intro k hk
    rw [h6 k]
    by_cases hik : index ≤ k
    · rw [if_pos (by omega)]
    · rw [if_neg (by omega), List.getElem?_set_ne (by omega)]
      exact h.live k (by omega)

theorem Cell.remove_at_take {C : Nat} (c : Cell T) (h : c.wf C) (index : Nat)
    (hi : index < c.size) :
    (c.remove_at index).data.take (c.remove_at index).size
      = (c.data.take c.size).eraseIdx index := by
  obtain ⟨h1, _, h3, _, h5, _⟩ := Cell.remove_at_spec c h index hi
  have hsz := h.size_le
  have hdl := h.data_len
  apply List.ext_getElem?
  intro k
  rw [h1, List.getElem?_take, List.getElem?_eraseIdx]
  by_cases hk : k < c.size - 1
  · rw [if_pos hk, h5 k hk]
    by_cases hik : index ≤ k
    · rw [if_pos hik, if_neg (by omega), List.getElem?_take_of_lt (by omega)]
    · rw [if_neg hik, if_pos (by omega), List.getElem?_take_of_lt (by omega)]
  · rw [if_neg hk]
    by_cases hik : k < index
    · omega
    · rw [if_neg hik, List.getElem?_take_eq_none (by omega)]

theorem Cell.remove_at_vals {C : Nat} (c : Cell T) (h : c.wf C) (index : Nat)
    (hi : index < c.size) : (c.remove_at index).vals = c.vals.eraseIdx index := by
  have h0 : (c.remove_at index).vals
      = ((c.vals.map some).eraseIdx index).reduceOption := by
    rw [← Cell.take_data h, ← Cell.remove_at_take c h index hi]
    rfl
  have : (c.vals.map some).eraseIdx index = (c.vals.eraseIdx index).map some := by
    apply List.ext_getElem?
    intro k
    simp only [List.getElem?_eraseIdx, List.getElem?_map]
    split <;> rfl
  rw [h0, this, reduceOption_map_some]

theorem Cell.remove_at_wf {C : Nat} (c : Cell T) (h : c.wf C) (index : Nat)
    (hi : index < c.size) (hgt : 1 < c.size) : (c.remove_at index).wf C := by
  obtain ⟨h1, h2, h3, h4, h5, h6⟩ := Cell.remove_at_spec c h index hi
  have hsz := h.size_le
  refine ⟨h2, h3, h4, by omega, fun _ => by omega, ?_, ?_⟩
  · intro i hlt
    exact h6 i (by omega)
  · intro i hlt
    rw [h5 i (by omega)]
    by_cases hik : index ≤ i
    · rw [if_pos hik]; exact h.full (i + 1) (by omega)
    · rw [if_neg hik]; exact h.full i (by omega)

theorem split_at_getElem? {α : Type} (l : List α) (i : Nat) (c : α) (h : l[i]? = some c) :
    l = l.take i ++ c :: l.drop (i + 1) ∧ (l.take i).length = i := by
  have hlt : i < l.length := by
    rcases Nat.lt_or_ge i l.length with h1 | h1
    · exact h1
    · rw [List.getElem?_eq_none h1] at h; simp at h
  have hc : l[i] = c := by
    rw [List.getElem?_eq_getElem hlt] at h
    injection h
  constructor
  · rw [← hc, ← List.drop_eq_getElem_cons hlt, List.take_append_drop]
  · simp; omega

theorem is_live_iff (s : BucketStorage T) (it : iterator) :
    is_live s it = true ↔
      it.storage = s.this ∧ ∃ c, s.cells[it.cell_index]? = some c ∧
        it.element_index < c.size ∧ c.flags[it.element_index]? = some false := by
  unfold is_live
  cases hc : s.cells[it.cell_index]? with
  | none => simp
  | some c => simp

/-- The method `erase` leaves the container alone when the iterator does not
address a live slot of it. -/
theorem erase_not_live (s : BucketStorage T) (it : iterator) (h : is_live s it = false) :
    s.erase it = (s, s.end_) := by
  unfold BucketStorage.erase
  by_cases h1 : it.storage ≠ s.this ∨ it.cell_index ≥ s.cell_count
  · rw [if_pos h1]
  · rw [if_neg h1]
    cases hc : s.cells[it.cell_index]? with
    | none => rfl
    | some c =>
      simp only
      by_cases h2 : it.element_index < c.size ∧ c.flags[it.element_index]? = some false
      · exfalso
        have : is_live s it = true := by
          rw [is_live_iff]
          refine ⟨?_, c, hc, h2.1, h2.2⟩
          by_contra h3
          exact h1 (Or.inl h3)
        rw [h] at this
        exact Bool.noConfusion this
      · rw [if_neg h2]

/-- The method `erase` on a live slot: the owning cell is compacted and, when
it is drained, unlinked from the table. -/
theorem erase_live_mid (s : BucketStorage T) (pre post : List (Cell T)) (c : Cell T)
    (ei : Nat) (hdec : s.cells = pre ++ c :: post) (hei : ei < c.size)
    (hfl : c.flags[ei]? = some false) :
    s.erase { cell_index := pre.length, element_index := ei, storage := s.this } =
      (if (c.remove_at ei).size = 0 then
          ({ s with cells := pre ++ post, total_size := s.total_size - 1 },
           { cell_index := (pre ++ post).length, element_index := 0, storage := s.this })
        else
          ({ s with cells := pre ++ c.remove_at ei :: post, total_size := s.total_size - 1 },
           { cell_index := (pre ++ c.remove_at ei :: post).length, element_index := 0,
             storage := s.this })) := by
  unfold BucketStorage.erase
  have h1 : ¬ (s.this ≠ s.this ∨ pre.length ≥ s.cell_count) := by
    simp [BucketStorage.cell_count, hdec]
  simp only [if_neg h1]
  have hget : s.cells[pre.length]? = some c := by rw [hdec]; exact getElem?_mid pre post c
  rw [hget]
  simp only
  rw [if_pos ⟨hei, hfl⟩]
  by_cases hz : (c.remove_at ei).size = 0
  · simp only [if_pos hz]
    rw [hdec, remove_cell_mid]
    rfl
  · simp only [if_neg hz]
    rw [hdec, set_mid]
    rfl

theorem flatMap_vals_length (C : Nat) (l : List (Cell T)) (h : ∀ c ∈ l, c.wf C) :
    (l.flatMap Cell.vals).length = (l.map Cell.size).sum := by
  induction l with
  | nil => rfl
  | cons c cs ih =>
    simp only [List.flatMap_cons, List.length_append, List.map_cons, List.sum_cons]
    rw [ih (fun d hd => h d (by simp [hd])), Cell.vals_length (h c (by simp))]

theorem contents_length (s : BucketStorage T) (hI : Inv s) :
    s.contents.length = s.total_size := by
  rw [hI.total]
  exact flatMap_vals_length _ _ hI.cells_wf

theorem eraseIdx_mid {α : Type} (A B C : List α) (i : Nat) (hi : i < B.length) :
    (A ++ B ++ C).eraseIdx (A.length + i) = A ++ B.eraseIdx i ++ C := by
  rw [List.append_assoc, List.eraseIdx_append_of_length_le (by omega)]
  rw [Nat.add_sub_cancel_left, List.eraseIdx_append_of_lt_length hi, List.append_assoc]

theorem Cell.remove_at_size {C : Nat} (c : Cell T) (h : c.wf C) (index : Nat)
    (hi : index < c.size) : (c.remove_at index).size = c.size - 1 :=
  (Cell.remove_at_spec c h index hi).1

/-- The table after `erase` on the live slot `ei` of the cell `c`. -/
theorem erase_live_cells (s : BucketStorage T) (hI : Inv s) (pre post : List (Cell T))
    (c : Cell T) (ei : Nat) (hdec : s.cells = pre ++ c :: post) (hei : ei < c.size) :
    (s.erase { cell_index := pre.length, element_index := ei, storage := s.this }).1 =
      { s with cells := if c.size = 1 then pre ++ post else pre ++ c.remove_at ei :: post,
               total_size := s.total_size - 1 } := by
  have hw := hI.cells_wf c (by simp [hdec])
  rw [erase_live_mid s pre post c ei hdec hei (hw.live ei hei), Cell.remove_at_size c hw ei hei]
  by_cases h1 : c.size = 1
  · rw [if_pos (by omega), if_pos h1]
  · rw [if_neg (by omega), if_neg h1]

theorem erase_inv (s : BucketStorage T) (it : iterator) (hI : Inv s) : Inv (s.erase it).1 := by
  cases hl : is_live s it with
  | false => rw [erase_not_live s it hl]; exact hI
  | true =>
    obtain ⟨hst, c, hc, hei, hfl⟩ := (is_live_iff s it).1 hl
    obtain ⟨hdec, hlen⟩ := split_at_getElem? s.cells it.cell_index c hc
    have hit : it = iterator.mk (s.cells.take it.cell_index).length it.element_index s.this := by
      cases it; simp at hlen hst ⊢; omega
    rw [hit, erase_live_cells s hI _ _ c _ hdec hei]
    have hw := hI.cells_wf c (by rw [hdec]; simp)
    have hpre : ∀ p ∈ s.cells.take it.cell_index, p.wf s.cell_capacity :=
      fun p hp => hI.cells_wf p (List.mem_of_mem_take hp)
    have hpost : ∀ p ∈ s.cells.drop (it.cell_index + 1), p.wf s.cell_capacity :=
      fun p hp => hI.cells_wf p (List.mem_of_mem_drop hp)
    have ht := hI.total
    unfold BucketStorage.live_total at ht
    rw [hdec] at ht
    simp only [List.map_append, List.sum_append, List.map_cons, List.sum_cons] at ht
    by_cases h1 : c.size = 1
    · rw [if_pos h1]
      constructor
      · intro d hd
        simp only [List.mem_append] at hd
        rcases hd with hd | hd
        · exact hpre d hd
        · exact hpost d hd
      · simp only [BucketStorage.live_total, List.map_append, List.sum_append]
        omega
    · rw [if_neg h1]
      have hw3 := Cell.remove_at_wf c hw it.element_index hei (by omega)
      constructor
      · intro d hd
        simp only [List.mem_append, List.mem_cons] at hd
        rcases hd with hd | rfl | hd
        · exact hpre d hd
        · exact hw3
        · exact hpost d hd
      · simp only [BucketStorage.live_total, List.map_append, List.sum_append, List.map_cons,
          List.sum_cons, Cell.remove_at_size c hw _ hei]
        omega

/-- The contents after `erase` on a live slot: the element at the iterator's
position is gone, the others keep their order. -/
theorem erase_contents (s : BucketStorage T) (hI : Inv s) (pre post : List (Cell T))
    (c : Cell T) (ei : Nat) (hdec : s.cells = pre ++ c :: post) (hei : ei < c.size) :
    (s.erase { cell_index := pre.length, element_index := ei, storage := s.this }).1.contents
      = s.contents.eraseIdx ((pre.map Cell.size).sum + ei) := by
  have hw := hI.cells_wf c (by simp [hdec])
  have hpre : ∀ p ∈ pre, p.wf s.cell_capacity := fun p hp => hI.cells_wf p (by simp [hdec, hp])
  rw [erase_live_cells s hI pre post c ei hdec hei]
  have hlen := flatMap_vals_length _ pre hpre
  have hv := Cell.vals_length hw
  have hc : s.contents = pre.flatMap Cell.vals ++ c.vals ++ post.flatMap Cell.vals := by
    unfold BucketStorage.contents; rw [hdec]; simp
  rw [hc, ← hlen, eraseIdx_mid _ _ _ _ (by omega)]
  unfold BucketStorage.contents
  by_cases h1 : c.size = 1
  · simp only [if_pos h1]
    have hnil : c.vals.eraseIdx ei = [] := by
      apply List.eq_nil_of_length_eq_zero
      rw [List.length_eraseIdx, if_pos (by omega)]
      omega
    rw [hnil]; simp
  · simp only [if_neg h1]
    simp [Cell.remove_at_vals c hw ei hei]

theorem set_replicate_same {α : Type} (n i : Nat) (a : α) :
    (List.replicate n a).set i a = List.replicate n a := by
  apply List.ext_getElem?
  intro k
  rw [List.getElem?_set]
  split
  · rename_i h; subst h
    simp [List.getElem?_replicate]
  · rfl

theorem Cell.of_list_put (C : Nat) (ys : List T) (x : T) (h : ys.length < C) :
    (Cell.of_list C ys).put ys.length (some x) = Cell.of_list C (ys ++ [x]) := by
  unfold Cell.of_list Cell.put
  simp only [set_replicate_same, List.length_append, List.length_singleton, List.map_append,
    List.map_cons, List.map_nil]
  congr 1
  have hl : ys.length = (ys.map some).length := by simp
  rw [List.set_append_right _ _ (by simp)]
  simp only [List.length_map, Nat.sub_self]
  have : C - ys.length = (C - (ys.length + 1)) + 1 := by omega
  rw [this, List.replicate_succ, List.set_cons_zero]
  simp

theorem Cell.of_list_vals (C : Nat) (ys : List T) :
    (Cell.of_list C ys).vals = ys := by
  unfold Cell.of_list Cell.vals
  simp only
  rw [List.take_append_of_le_length (by simp)]
  rw [List.take_of_length_le (by simp), reduceOption_map_some]

theorem Cell.of_list_wf (C : Nat) (ys : List T) (h : ys.length ≤ C)
    (hpos : 0 < C → 0 < ys.length) : (Cell.of_list C ys).wf C := by
  refine ⟨rfl, ?_, ?_, h, hpos, ?_, ?_⟩
  · simp [Cell.of_list]; omega
  · simp [Cell.of_list]
  · intro i hi
    simp only [Cell.of_list] at hi ⊢
    rw [List.getElem?_replicate, if_pos (by omega)]
  · intro i hi
    simp only [Cell.of_list] at hi ⊢
    refine ⟨ys[i], ?_⟩
    rw [List.getElem?_append_left (by simpa using hi)]
    simp [List.getElem?_eq_getElem hi]

theorem packed_length (C m : Nat) (xs : List T) : (packed C m xs).length = m := by
  induction m generalizing xs with
  | zero => rfl
  | succ m ih => simp [packed, ih]

/-- Storing one more element at `current_index` in the densely packed table. -/
theorem packed_write (C : Nat) (hC : 0 < C) (m : Nat) : ∀ (xs : List T) (x : T),
    xs.length < m * C →
    (match (packed C m xs)[xs.length / C]? with
      | some nc => (packed C m xs).set (xs.length / C) (nc.put (xs.length % C) (some x))
      | none => packed C m xs) = packed C m (xs ++ [x]) := by
  induction m with
  | zero => intro xs x h; simp at h
  | succ m ih =>
    intro xs x h
    by_cases hlt : xs.length < C
    · rw [Nat.div_eq_of_lt hlt, Nat.mod_eq_of_lt hlt]
      simp only [packed, List.getElem?_cons_zero, List.set_cons_zero]
      have h1 : xs.take C = xs := List.take_of_length_le (by omega)
      have h2 : (xs ++ [x]).take C = xs ++ [x] := List.take_of_length_le (by simp; omega)
      have h3 : xs.drop C = [] := List.drop_of_length_le (by omega)
      have h4 : (xs ++ [x]).drop C = [] := List.drop_of_length_le (by simp; omega)
      rw [h1, h2, h3, h4, Cell.of_list_put C xs x hlt]
    · have hge : C ≤ xs.length := by omega
      have hdiv : xs.length / C = (xs.length - C) / C + 1 := by
        rw [Nat.div_eq_sub_div hC hge]
      have hmod : xs.length % C = (xs.length - C) % C := by
        rw [Nat.mod_eq_sub_mod hge]
      have hdl : (xs.drop C).length = xs.length - C := by simp
      have hih := ih (xs.drop C) x (by rw [hdl, Nat.succ_mul] at *; omega)
      rw [hdl] at hih
      rw [hdiv, hmod]
      simp only [packed, List.getElem?_cons_succ, List.set_cons_succ]
      have h1 : (xs ++ [x]).take C = xs.take C := by
        rw [List.take_append_of_le_length hge]
      have h2 : (xs ++ [x]).drop C = xs.drop C ++ [x] := by
        rw [List.drop_append_of_le_length hge]
      rw [h1, h2, ← hih]
      cases hq : (packed C m (xs.drop C))[(xs.length - C) / C]? with
      | none => rfl
      | some nc => rfl

theorem packed_contents (C : Nat) (m : Nat) : ∀ (xs : List T),
    xs.length ≤ m * C → (packed C m xs).flatMap Cell.vals = xs := by
  induction m with
  | zero =>
    intro xs h
    simp at h
    simp [packed, h]
  | succ m ih =>
    intro xs h
    simp only [packed, List.flatMap_cons]
    rw [Cell.of_list_vals C _, ih (xs.drop C) (by
      simp only [List.length_drop]; rw [Nat.succ_mul] at h; omega)]
    exact List.take_append_drop C xs

theorem packed_wf (C : Nat) (hC : 0 < C) (m : Nat) : ∀ (xs : List T),
    xs.length ≤ m * C → m * C < xs.length + C →
    ∀ c ∈ packed C m xs, c.wf C := by
  induction m with
  | zero => intro xs _ _ c hc; simp [packed] at hc
  | succ m ih =>
    intro xs h1 h2 c hc
    rw [Nat.succ_mul] at h1 h2
    simp only [packed, List.mem_cons] at hc
    rcases hc with rfl | hc
    · apply Cell.of_list_wf
      · simp
      · intro _; simp; omega
    · cases m with
      | zero => simp [packed] at hc
      | succ k =>
        have hge : C ≤ xs.length := by
          rw [Nat.succ_mul] at h2
          have := Nat.zero_le (k * C)
          omega
        exact ih (xs.drop C) (by simp only [List.length_drop]; omega)
          (by simp only [List.length_drop]; omega) c hc

theorem repack_slot_packed (C : Nat) (hC : 0 < C) (m : Nat) (c : Cell T) (hw : c.wf C)
    (xs : List T) (j : Nat) (hj : j < c.size) (hroom : xs.length < m * C) :
    ∃ v, c.vals[j]? = some v ∧
      repack_slot C c (packed C m xs, xs.length) j = (packed C m (xs ++ [v]), xs.length + 1) := by
  obtain ⟨v, hv1, hv2⟩ := Cell.getD_data hw j hj
  refine ⟨v, hv1, ?_⟩
  unfold repack_slot
  simp only [hw.live j hj, if_true, hv2]
  rw [packed_write C hC m xs v hroom]

theorem repack_range_packed (C : Nat) (hC : 0 < C) (m : Nat) (c : Cell T) (hw : c.wf C)
    (xs : List T) : ∀ n, n ≤ c.size → xs.length + n ≤ m * C →
    (List.range n).foldl (repack_slot C c) (packed C m xs, xs.length)
      = (packed C m (xs ++ c.vals.take n), xs.length + n) := by
  intro n
  induction n with
  | zero => intro _ _; simp
  | succ n ih =>
    intro h1 h2
    rw [List.range_succ, List.foldl_append, ih (by omega) (by omega)]
    simp only [List.foldl_cons, List.foldl_nil]
    have hlen : (xs ++ c.vals.take n).length = xs.length + n := by
      simp [Cell.vals_length hw]; omega
    obtain ⟨v, hv1, hv2⟩ := repack_slot_packed C hC m c hw (xs ++ c.vals.take n) n (by omega)
      (by rw [hlen]; omega)
    rw [hlen] at hv2
    rw [hv2, List.take_succ, hv1]
    simp [Nat.add_assoc]

theorem repack_cell_packed (C : Nat) (hC : 0 < C) (m : Nat) (c : Cell T) (hw : c.wf C)
    (xs : List T) (hroom : xs.length + c.size ≤ m * C) :
    repack_cell C (packed C m xs, xs.length) c
      = (packed C m (xs ++ c.vals), xs.length + c.size) := by
  unfold repack_cell
  rw [repack_range_packed C hC m c hw xs c.size (Nat.le_refl _) hroom]
  rw [List.take_of_length_le (by rw [Cell.vals_length hw])]

theorem repack_cells_packed (C : Nat) (hC : 0 < C) (m : Nat) : ∀ (cells : List (Cell T))
    (xs : List T), (∀ c ∈ cells, c.wf C) → xs.length + (cells.map Cell.size).sum ≤ m * C →
    cells.foldl (repack_cell C) (packed C m xs, xs.length)
      = (packed C m (xs ++ cells.flatMap Cell.vals), xs.length + (cells.map Cell.size).sum) := by
  intro cells
  induction cells with
  | nil => intro xs _ _; simp
  | cons c cs ih =>
    intro xs hw hroom
    simp only [List.map_cons, List.sum_cons] at hroom
    have hwc := hw c (by simp)
    rw [List.foldl_cons, repack_cell_packed C hC m c hwc xs (by omega)]
    have hlen : (xs ++ c.vals).length = xs.length + c.size := by
      simp [Cell.vals_length hwc]
    have := ih (xs ++ c.vals) (fun d hd => hw d (by simp [hd])) (by rw [hlen]; omega)
    rw [hlen] at this
    rw [this]
    simp [Nat.add_assoc]

theorem packed_nil (C m : Nat) : packed C m ([] : List T) = List.replicate m (Cell.new C) := by
  induction m with
  | zero => rfl
  | succ m ih =>
    simp only [packed, List.take_nil, List.drop_nil, ih, List.replicate_succ]
    rfl

theorem ceil_div_bounds (n C : Nat) (hC : 0 < C) (hn : 0 < n) :
    n ≤ ((n + C - 1) / C) * C ∧ ((n + C - 1) / C) * C < n + C := by
  have h1 := Nat.div_add_mod (n + C - 1) C
  have h2 := Nat.mod_lt (n + C - 1) hC
  rw [Nat.mul_comm] at h1
  constructor <;> omega

theorem capacity_pos_of_size_pos (s : BucketStorage T) (hI : Inv s) (hpos : 0 < s.total_size) :
    0 < s.cell_capacity := by
  have h1 := sum_sizes_le s.cell_capacity s.cells (fun c hc => (hI.cells_wf c hc).size_le)
  have h2 := hI.total
  unfold BucketStorage.live_total at h2
  rcases Nat.eq_zero_or_pos s.cell_capacity with h | h
  · rw [h, Nat.zero_mul] at h1; omega
  · exact h

/-- What `shrink_to_fit` does in a consistent state that holds elements:
nothing when the table already has the minimal number of cells, else the
contents are packed densely into the minimal number of cells. -/
theorem shrink_to_fit_spec (s : BucketStorage T) (hI : Inv s) (hpos : 0 < s.total_size) :
    s.shrink_to_fit =
      if (s.total_size + s.cell_capacity - 1) / s.cell_capacity ≥ s.cell_count then s
      else { s with cells := packed s.cell_capacity
                      ((s.total_size + s.cell_capacity - 1) / s.cell_capacity) s.contents } := by
  have hC := capacity_pos_of_size_pos s hI hpos
  unfold BucketStorage.shrink_to_fit
  rw [if_neg (by omega)]
  simp only
  by_cases hm : (s.total_size + s.cell_capacity - 1) / s.cell_capacity ≥ s.cell_count
  · rw [if_pos hm, if_pos hm]
  · rw [if_neg hm, if_neg hm]
    have ht := hI.total
    unfold BucketStorage.live_total at ht
    have hb := (ceil_div_bounds s.total_size s.cell_capacity hC hpos).1
    have := repack_cells_packed s.cell_capacity hC
      ((s.total_size + s.cell_capacity - 1) / s.cell_capacity) s.cells [] hI.cells_wf
      (by simp only [List.length_nil, Nat.zero_add]; omega)
    rw [← packed_nil]
    simp only [List.length_nil, Nat.zero_add, List.nil_append] at this
    rw [this]
    simp only [BucketStorage.contents, ← ht]

theorem shrink_to_fit_inv (s : BucketStorage T) (hI : Inv s) : Inv s.shrink_to_fit := by
  rcases Nat.eq_zero_or_pos s.total_size with h0 | hpos
  · unfold BucketStorage.shrink_to_fit
    rw [if_pos h0]
    exact ⟨by simp [BucketStorage.clear], by simp [BucketStorage.clear, BucketStorage.live_total]⟩
  · rw [shrink_to_fit_spec s hI hpos]
    have hC := capacity_pos_of_size_pos s hI hpos
    split
    · exact hI
    · have hlen := contents_length s hI
      have hb := ceil_div_bounds s.total_size s.cell_capacity hC hpos
      have hwf := packed_wf s.cell_capacity hC
        ((s.total_size + s.cell_capacity - 1) / s.cell_capacity) s.contents
        (by rw [hlen]; exact hb.1) (by rw [hlen]; exact hb.2)
      refine ⟨hwf, ?_⟩
      simp only [BucketStorage.live_total]
      rw [← flatMap_vals_length _ _ hwf, packed_contents _ _ _ (by rw [hlen]; exact hb.1), hlen]

theorem Cell.of_list_nil (C : Nat) : (Cell.of_list C [] : Cell T) = Cell.new C := by
  simp [Cell.of_list, Cell.new]

theorem collect_end (s : BucketStorage T) (fuel : Nat) (h : 0 < fuel) :
    collect s fuel s.end_ = some [] := by
  cases fuel with
  | zero => omega
  | succ n =>
    have : iterator.eq s.end_ s.end_ = true := by rw [iterator_eq_iff]
    simp [collect, this]

theorem copy_loop_end (other : BucketStorage T) (C fuel : Nat) (cells : List (Cell T))
    (h : 0 < fuel) : copy_loop other C fuel other.end_ cells = some cells := by
  cases fuel with
  | zero => omega
  | succ n =>
    have : iterator.eq other.end_ other.end_ = true := by rw [iterator_eq_iff]
    simp [copy_loop, this]

/-- The loop of the copy constructor from a live slot on: the cells before
the iterator are copied, the iterator's cell is copied up to its slot, the
cells after it are still fresh. -/
theorem copy_loop_spec (s : BucketStorage T) (hI : Inv s) (hC : 0 < s.cell_capacity) :
    ∀ (fuel : Nat) (pre : List (Cell T)) (c : Cell T) (post : List (Cell T)) (ei : Nat),
      s.cells = pre ++ c :: post → ei < c.size →
      (c.size - ei) + (post.map Cell.size).sum < fuel →
      copy_loop s s.cell_capacity fuel
          { cell_index := pre.length, element_index := ei, storage := s.this }
          (pre.map (fun d => Cell.of_list s.cell_capacity d.vals)
            ++ Cell.of_list s.cell_capacity (c.vals.take ei)
            :: post.map (fun _ => Cell.new s.cell_capacity))
        = some (s.cells.map (fun d => Cell.of_list s.cell_capacity d.vals)) := by
  intro fuel
  induction fuel with
  | zero => intro pre c post ei _ _ h; omega
  | succ fuel ih =>
    intro pre c post ei hdec hei hfuel
    have hwc : c.wf s.cell_capacity := hI.cells_wf c (by simp [hdec])
    have hne : iterator.eq { cell_index := pre.length, element_index := ei, storage := s.this }
        s.end_ = false := by
      rw [Bool.eq_false_iff]
      intro hh
      rw [iterator_eq_iff] at hh
      have := congrArg iterator.cell_index hh
      simp [BucketStorage.end_, BucketStorage.cell_count, hdec] at this
    obtain ⟨v, hv1, hv2⟩ := Cell.getD_data hwc ei hei
    have hder := deref_mid s pre post c ei s.this hdec
    rw [hv2] at hder
    have hvl := Cell.vals_length hwc
    have htake : c.vals.take (ei + 1) = c.vals.take ei ++ [v] := by
      rw [List.take_succ, hv1]; rfl
    have hsz := hwc.size_le
    have hget : (pre.map (fun d => Cell.of_list s.cell_capacity d.vals)
            ++ Cell.of_list s.cell_capacity (c.vals.take ei)
            :: post.map (fun _ => Cell.new s.cell_capacity))[pre.length]?
        = some (Cell.of_list s.cell_capacity (c.vals.take ei)) := by
      have := getElem?_mid (pre.map (fun d => Cell.of_list s.cell_capacity d.vals))
        (post.map (fun _ => Cell.new s.cell_capacity))
        (Cell.of_list s.cell_capacity (c.vals.take ei))
      rw [List.length_map] at this
      exact this
    have hset : (pre.map (fun d => Cell.of_list s.cell_capacity d.vals)
            ++ Cell.of_list s.cell_capacity (c.vals.take ei)
            :: post.map (fun _ => Cell.new s.cell_capacity)).set pre.length
              (Cell.of_list s.cell_capacity (c.vals.take (ei + 1)))
        = pre.map (fun d => Cell.of_list s.cell_capacity d.vals)
            ++ Cell.of_list s.cell_capacity (c.vals.take (ei + 1))
            :: post.map (fun _ => Cell.new s.cell_capacity) := by
      have := set_mid (pre.map (fun d => Cell.of_list s.cell_capacity d.vals))
        (post.map (fun _ => Cell.new s.cell_capacity))
        (Cell.of_list s.cell_capacity (c.vals.take ei))
        (Cell.of_list s.cell_capacity (c.vals.take (ei + 1)))
      rw [List.length_map] at this
      exact this
    have hsize : (Cell.of_list s.cell_capacity (c.vals.take ei)).size = ei := by
      simp [Cell.of_list]; omega
    have hput : (Cell.of_list s.cell_capacity (c.vals.take ei)).put ei (some v)
        = Cell.of_list s.cell_capacity (c.vals.take (ei + 1)) := by
      have hl : (c.vals.take ei).length = ei := by simp; omega
      have := Cell.of_list_put s.cell_capacity (c.vals.take ei) v (by omega)
      rw [hl] at this
      rw [this, htake]
    simp only [copy_loop, hne, hget, hsize, hder, hput, hset, Bool.false_eq_true, if_false]
    rw [if_pos (by omega)]
    by_cases hin : ei + 1 < c.size
    · rw [incr_within s pre post c ei s.this hdec hin (hwc.live _ hin)]
      exact ih pre c post (ei + 1) hdec hin (by omega)
    · have hlast : ei + 1 = c.size := by omega
      have hall : c.vals.take (ei + 1) = c.vals := List.take_of_length_le (by omega)
      cases post with
      | nil =>
        rw [incr_last s pre c ei s.this hdec hlast]
        simp only
        have := copy_loop_end s s.cell_capacity fuel
          (pre.map (fun d => Cell.of_list s.cell_capacity d.vals)
            ++ Cell.of_list s.cell_capacity (c.vals.take (ei + 1))
            :: ([] : List (Cell T)).map (fun _ => Cell.new s.cell_capacity)) (by omega)
        unfold BucketStorage.end_ at this
        rw [this, hall, hdec]
        simp
      | cons d post =>
        have hwd : d.wf s.cell_capacity := hI.cells_wf d (by simp [hdec])
        have hdpos := hwd.size_pos hC
        rw [incr_next_cell s pre post c d ei s.this hdec hlast hdpos (hwd.live 0 hdpos)]
        simp only
        have hdec2 : s.cells = (pre ++ [c]) ++ d :: post := by simp [hdec]
        have := ih (pre ++ [c]) d post 0 hdec2 hdpos (by
          simp only [List.map_cons, List.sum_cons] at hfuel; omega)
        simp only [List.length_append, List.length_singleton, List.take_zero, Cell.of_list_nil,
          List.map_append, List.map_cons, List.map_nil, List.append_assoc, List.singleton_append]
          at this
        rw [hall]
        simpa using this

theorem copy_loop_mono (other : BucketStorage T) (C : Nat) :
    ∀ (f g : Nat) (i : iterator) (cells r : List (Cell T)), f ≤ g →
      copy_loop other C f i cells = some r → copy_loop other C g i cells = some r := by
  intro f
  induction f with
  | zero => intro g i cells r _ h; simp [copy_loop] at h
  | succ f ih =>
    intro g i cells r hle h
    cases g with
    | zero => omega
    | succ g =>
      simp only [copy_loop] at h ⊢
      by_cases he : i.eq other.end_ = true
      · simp only [he, if_true] at h ⊢; exact h
      · simp only [he, if_false] at h ⊢
        cases hc : cells[i.cell_index]? with
        | none => simp [hc] at h
        | some c =>
          simp only [hc] at h ⊢
          cases hi : i.incr other with
          | none => simp [hi] at h
          | some i1 =>
            simp only [hi] at h ⊢
            exact ih _ _ _ _ (by omega) h

theorem first_nonempty_all_empty (i : Nat) (cells : List (Cell T))
    (h : ∀ c ∈ cells, c.size = 0) : first_nonempty i cells = i + cells.length := by
  induction cells generalizing i with
  | nil => rfl
  | cons c cs ih =>
    have hc := h c (by simp)
    simp only [first_nonempty, hc, beq_self_eq_true, if_true, List.length_cons]
    rw [ih (i + 1) (fun d hd => h d (by simp [hd]))]
    omega

/-- In a table whose cells are all empty `begin()` is the pair
`(cell_count, cell_count)`. -/
theorem begin_all_empty (s : BucketStorage T) (h : ∀ c ∈ s.cells, c.size = 0) :
    s.begin = { cell_index := s.cell_count, element_index := s.cell_count, storage := s.this } := by
  have h1 := first_nonempty_all_empty 0 s.cells h
  rw [Nat.zero_add] at h1
  have h2 : s.cells[s.cells.length]? = none := List.getElem?_eq_none (Nat.le_refl _)
  simp [BucketStorage.begin, BucketStorage.begin_helper, h1, h2, BucketStorage.cell_count]

theorem map_const_replicate {α β : Type} (l : List α) (b : β) :
    l.map (fun _ => b) = List.replicate l.length b := by
  induction l with
  | nil => rfl
  | cons x xs ih => simp [List.replicate_succ, ih]

/-- The copy constructor with a bound above `size()` on a consistent source
of positive cell capacity: every cell is copied slot by slot. -/
theorem copy_construct_spec (s : BucketStorage T) (hI : Inv s) (hC : 0 < s.cell_capacity)
    (addr fuel : Nat) (hf : s.total_size < fuel) :
    BucketStorage.copy_construct addr s fuel =
      some { this := addr, cells := s.cells.map (fun d => Cell.of_list s.cell_capacity d.vals),
             cell_capacity := s.cell_capacity, total_size := s.total_size } := by
  unfold BucketStorage.copy_construct
  have hloop : copy_loop s s.cell_capacity fuel s.begin
      (List.replicate s.cell_count (Cell.new s.cell_capacity))
      = some (s.cells.map (fun d => Cell.of_list s.cell_capacity d.vals)) := by
    cases hcs : s.cells with
    | nil =>
      rw [begin_nil s hcs, copy_loop_end s _ fuel _ (by omega)]
      simp [BucketStorage.cell_count, hcs]
    | cons c cs =>
      have hwc : c.wf s.cell_capacity := hI.cells_wf c (by simp [hcs])
      have hpos := hwc.size_pos hC
      rw [begin_cons s c cs hcs hpos (hwc.live 0 hpos)]
      have := copy_loop_spec s hI hC fuel [] c cs 0 (by simp [hcs]) hpos (by
        have ht := hI.total
        simp only [BucketStorage.live_total, hcs, List.map_cons, List.sum_cons] at ht
        omega)
      simp only [List.map_nil, List.nil_append, List.take_zero, Cell.of_list_nil,
        List.length_nil, hcs] at this
      rw [← this, map_const_replicate]
      simp [BucketStorage.cell_count, hcs, List.replicate_succ]
  rw [hloop]

/-- Whenever the copy constructor returns on a consistent source, it has
copied every cell slot by slot. -/
theorem copy_construct_some (s s1 : BucketStorage T) (hI : Inv s) (addr fuel : Nat)
    (h : BucketStorage.copy_construct addr s fuel = some s1) :
    s1 = { this := addr, cells := s.cells.map (fun d => Cell.of_list s.cell_capacity d.vals),
           cell_capacity := s.cell_capacity, total_size := s.total_size } := by
  rcases Nat.eq_zero_or_pos s.cell_capacity with hC | hC
  · have hall : ∀ c ∈ s.cells, c.size = 0 := by
      intro c hc
      have := (hI.cells_wf c hc).size_le
      omega
    unfold BucketStorage.copy_construct at h
    rw [begin_all_empty s hall] at h
    cases hcs : s.cells with
    | nil =>
      cases fuel with
      | zero => simp [copy_loop] at h
      | succ f =>
        simp [copy_loop, iterator.eq, BucketStorage.end_, BucketStorage.cell_count, hcs] at h
        rw [← h]
        rfl
    | cons c cs =>
      exfalso
      cases fuel with
      | zero => simp [copy_loop] at h
      | succ f =>
        have hn : (List.replicate (cs.length + 1)
            (Cell.new s.cell_capacity : Cell T))[cs.length + 1]? = none :=
          List.getElem?_eq_none (by simp)
        simp [copy_loop, iterator.eq, BucketStorage.end_, BucketStorage.cell_count, hcs, hn] at h
  · have h2 := copy_construct_spec s hI hC addr (max fuel (s.total_size + 1)) (by omega)
    unfold BucketStorage.copy_construct at h h2
    cases hl : copy_loop s s.cell_capacity fuel s.begin
        (List.replicate s.cell_count (Cell.new s.cell_capacity)) with
    | none => rw [hl] at h; simp at h
    | some r =>
      rw [hl] at h
      rw [copy_loop_mono s _ fuel _ _ _ r (by omega) hl] at h2
      simp only [Option.some.injEq] at h h2
      rw [← h, h2]

theorem inv_of_fields (s t : BucketStorage T) (hI : Inv s) (h1 : t.cells = s.cells)
    (h2 : t.cell_capacity = s.cell_capacity) (h3 : t.total_size = s.total_size) : Inv t := by
  constructor
  · intro c hc
    rw [h1] at hc; rw [h2]
    exact hI.cells_wf c hc
  · rw [h3, hI.total]
    simp [BucketStorage.live_total, h1]

theorem inv_empty (addr C : Nat) :
    Inv ({ this := addr, cells := [], cell_capacity := C, total_size := 0 } : BucketStorage T) :=
  ⟨by simp, by simp [BucketStorage.live_total]⟩

theorem copy_cells_inv (s : BucketStorage T) (hI : Inv s) (addr : Nat) :
    Inv ({ this := addr, cells := s.cells.map (fun d => Cell.of_list s.cell_capacity d.vals),
           cell_capacity := s.cell_capacity, total_size := s.total_size } : BucketStorage T) := by
  constructor
  · intro c hc
    simp only [List.mem_map] at hc
    obtain ⟨d, hd, rfl⟩ := hc
    have hw := hI.cells_wf d hd
    have hl := Cell.vals_length hw
    exact Cell.of_list_wf _ _ (by rw [hl]; exact hw.size_le)
      (fun h => by rw [hl]; exact hw.size_pos h)
  · simp only [BucketStorage.live_total, List.map_map]
    rw [hI.total]
    unfold BucketStorage.live_total
    apply congrArg
    apply List.map_congr_left
    intro d hd
    simp [Cell.of_list, Cell.vals_length (hI.cells_wf d hd)]

/-- Every reachable state is consistent. -/
theorem reachable_inv (s : BucketStorage T) (h : Reachable s) : Inv s := by
  induction h with
  | construct addr C => exact inv_empty addr C
  | insert v _ ih => exact insert_inv _ v ih
  | erase it _ ih => exact erase_inv _ it ih
  | clear _ ih => exact inv_empty _ _
  | shrink_to_fit _ ih => exact shrink_to_fit_inv _ ih
  | swap_this _ _ iha ihb => exact inv_of_fields _ _ ihb rfl rfl rfl
  | swap_other _ _ iha ihb => exact inv_of_fields _ _ iha rfl rfl rfl
  | copy_construct addr fuel _ hc ih =>
    rw [copy_construct_some _ _ ih addr fuel hc]
    exact copy_cells_inv _ ih addr
  | move_construct_this addr _ ih => exact inv_of_fields _ _ ih rfl rfl rfl
  | move_construct_other addr _ ih => exact inv_empty _ _
  | @move_assign_this a b _ _ iha ihb =>
    unfold BucketStorage.move_assign
    split
    · exact inv_of_fields _ _ ihb rfl rfl rfl
    · exact iha
  | @move_assign_other a b _ _ iha ihb =>
    unfold BucketStorage.move_assign
    split
    · exact inv_empty _ _
    · exact ihb
  | @copy_assign a b a1 tmp fuel _ _ hc iha ihb =>
    unfold BucketStorage.copy_assign at hc
    split at hc
    · cases hcc : BucketStorage.copy_construct tmp b fuel with
      | none => rw [hcc] at hc; simp at hc
      | some cp =>
        rw [hcc] at hc
        simp only [Option.some.injEq] at hc
        rw [← hc]
        have hcp := copy_construct_some _ _ ihb tmp fuel hcc
        have := copy_cells_inv b ihb tmp
        rw [← hcp] at this
        exact inv_of_fields _ _ this rfl rfl rfl
    · simp only [Option.some.injEq] at hc
      rw [← hc]; exact iha

theorem insert_fields (s : BucketStorage T) (v : T) :
    (s.insert v).1.this = s.this ∧ (s.insert v).1.cell_capacity = s.cell_capacity := by
  unfold BucketStorage.insert BucketStorage.insert_helper
  simp only
  split <;> split <;> simp [BucketStorage.allocate_new_cell]

theorem erase_fields (s : BucketStorage T) (it : iterator) :
    (s.erase it).1.this = s.this ∧ (s.erase it).1.cell_capacity = s.cell_capacity := by
  unfold BucketStorage.erase
  split
  · simp
  · split
    · simp
    · simp only
      split
      · split <;> simp
      · simp

theorem insert_size (s : BucketStorage T) (v : T) (hI : Inv s) (hC : 0 < s.cell_capacity) :
    (s.insert v).1.total_size = s.total_size + 1 := by
  obtain ⟨pre, c, post, _, _, _, heq⟩ := insert_spec s v hI hC
  rw [heq]

/-- A live iterator addresses a slot of a cell of the table. -/
theorem live_split (s : BucketStorage T) (it : iterator) (hl : is_live s it = true) :
    ∃ pre c post, s.cells = pre ++ c :: post ∧ pre.length = it.cell_index ∧
      s.cells[it.cell_index]? = some c ∧ it.element_index < c.size ∧
      c.flags[it.element_index]? = some false ∧
      it = { cell_index := pre.length, element_index := it.element_index, storage := s.this } := by
  obtain ⟨hst, c, hc, hei, hfl⟩ := (is_live_iff s it).1 hl
  obtain ⟨hdec, hlen⟩ := split_at_getElem? s.cells it.cell_index c hc
  refine ⟨_, c, _, hdec, hlen, hc, hei, hfl, ?_⟩
  cases it
  simp at hlen hst ⊢
  omega

theorem erase_size_live (s : BucketStorage T) (it : iterator) (hI : Inv s)
    (hl : is_live s it = true) : (s.erase it).1.total_size + 1 = s.total_size := by
  obtain ⟨pre, c, post, hdec, _, _, hei, _, hit⟩ := live_split s it hl
  rw [hit, erase_live_cells s hI pre post c _ hdec hei]
  have ht := hI.total
  unfold BucketStorage.live_total at ht
  rw [hdec] at ht
  simp only [List.map_append, List.sum_append, List.map_cons, List.sum_cons] at ht
  simp only
  omega

theorem reachable_run (s : BucketStorage T) (ops : List (Op T)) (h : Reachable s) :
    Reachable (run s ops) := by
  induction ops generalizing s with
  | nil => exact h
  | cons op ops ih =>
    cases op with
    | insert v => exact ih _ (Reachable.insert v h)
    | erase it => exact ih _ (Reachable.erase it h)

theorem run_capacity (s : BucketStorage T) (ops : List (Op T)) :
    (run s ops).cell_capacity = s.cell_capacity := by
  induction ops generalizing s with
  | nil => rfl
  | cons op ops ih =>
    cases op with
    | insert v => exact (ih _).trans (insert_fields s v).2
    | erase it => exact (ih _).trans (erase_fields s it).2

theorem run_count (s : BucketStorage T) (hI : Inv s) (hC : 0 < s.cell_capacity)
    (ops : List (Op T)) :
    (run s ops).total_size + erased s ops = s.total_size + inserted ops := by
  induction ops generalizing s with
  | nil => rfl
  | cons op ops ih =>
    cases op with
    | insert v =>
      have := ih (s.insert v).1 (insert_inv s v hI) (by rw [(insert_fields s v).2]; exact hC)
      simp only [run, List.foldl_cons, step, erased, inserted] at this ⊢
      rw [insert_size s v hI hC] at this
      omega
    | erase it =>
      have := ih (s.erase it).1 (erase_inv s it hI) (by rw [(erase_fields s it).2]; exact hC)
      simp only [run, List.foldl_cons, step, erased, inserted] at this ⊢
      cases hl : is_live s it with
      | true =>
        have h2 := erase_size_live s it hI hl
        simp only [if_true]
        omega
      | false =>
        rw [erase_not_live s it hl] at this ⊢
        simp only [Bool.false_eq_true, if_false] at this ⊢
        omega

/-- C1: from construction with `C > 0`, after every sequence of `insert` and
`erase` calls `size()` is the number of inserts minus the number of erases
that addressed a live slot; it equals the sum of the cells' sizes; one more
`insert` increases it by one and one more `erase` on a live slot decreases it
by one. -/
theorem C1_size_counts_live_elements (addr C : Nat) (hC : 0 < C) (ops : List (Op T)) :
    (run (BucketStorage.construct addr C) ops).size
        + erased (BucketStorage.construct addr C) ops = inserted ops ∧
    (run (BucketStorage.construct addr C) ops).size
        = (run (BucketStorage.construct addr C) ops).live_total ∧
    (∀ v : T, ((run (BucketStorage.construct addr C) ops).insert v).1.size
        = (run (BucketStorage.construct addr C) ops).size + 1) ∧
    (∀ it : iterator, is_live (run (BucketStorage.construct addr C) ops) it = true →
      ((run (BucketStorage.construct addr C) ops).erase it).1.size + 1
        = (run (BucketStorage.construct addr C) ops).size) := by
  have hR : Reachable (run (BucketStorage.construct addr C : BucketStorage T) ops) :=
    reachable_run _ ops (Reachable.construct addr C)
  have hI := reachable_inv _ hR
  have hC2 : 0 < (run (BucketStorage.construct addr C : BucketStorage T) ops).cell_capacity := by
    rw [run_capacity]; exact hC
  refine ⟨?_, hI.total, fun v => insert_size _ v hI hC2, fun it hl => erase_size_live _ it hI hl⟩
  have := run_count (BucketStorage.construct addr C : BucketStorage T)
    (reachable_inv _ (Reachable.construct addr C)) hC ops
  simpa [BucketStorage.size, BucketStorage.construct] using this

theorem C1_witness :
    0 < 2 ∧
    (run (BucketStorage.construct 1 2 : BucketStorage Nat)
        [Op.insert 10, Op.insert 20, Op.erase ⟨0, 0, 1⟩, Op.erase ⟨5, 0, 1⟩, Op.insert 30]).size
      + erased (BucketStorage.construct 1 2 : BucketStorage Nat)
        [Op.insert 10, Op.insert 20, Op.erase ⟨0, 0, 1⟩, Op.erase ⟨5, 0, 1⟩, Op.insert 30]
      = inserted [Op.insert 10, Op.insert 20, Op.erase ⟨0, 0, 1⟩, Op.erase ⟨5, 0, 1⟩,
          (Op.insert 30 : Op Nat)] ∧
    erased (BucketStorage.construct 1 2 : BucketStorage Nat)
        [Op.insert 10, Op.insert 20, Op.erase ⟨0, 0, 1⟩, Op.erase ⟨5, 0, 1⟩, Op.insert 30] = 1 :=
  ⟨by decide, (C1_size_counts_live_elements 1 2 (by decide) _).1, by decide⟩

/-- C2: in every reachable state `capacity()` is `C * cell_count`, a multiple
of `C`, and `0 <= size() <= capacity()`. -/
theorem C2_capacity_multiple_and_bounds_size (s : BucketStorage T) (h : Reachable s) :
    s.capacity = s.cell_capacity * s.cell_count ∧ s.cell_capacity ∣ s.capacity ∧
    0 ≤ s.size ∧ s.size ≤ s.capacity := by
  have hI := reachable_inv s h
  refine ⟨rfl, Dvd.intro _ rfl, Nat.zero_le _, ?_⟩
  have h1 := sum_sizes_le s.cell_capacity s.cells (fun c hc => (hI.cells_wf c hc).size_le)
  have h2 := hI.total
  unfold BucketStorage.live_total at h2
  unfold BucketStorage.size BucketStorage.capacity BucketStorage.cell_count
  omega

theorem C2_witness :
    Reachable scenarioB.shrink_to_fit ∧ scenarioB.shrink_to_fit.size = 4 ∧
    scenarioB.shrink_to_fit.capacity = 4 ∧
    scenarioB.shrink_to_fit.size ≤ scenarioB.shrink_to_fit.capacity :=
  ⟨Reachable.shrink_to_fit (Reachable.erase _ (Reachable.insert 50 (Reachable.insert 40
      (Reachable.insert 30 (Reachable.insert 20 (Reachable.insert 10
        (Reachable.construct 1 2))))))),
   by decide, by decide,
   (C2_capacity_multiple_and_bounds_size _ (Reachable.shrink_to_fit (Reachable.erase _
      (Reachable.insert 50 (Reachable.insert 40 (Reachable.insert 30 (Reachable.insert 20
        (Reachable.insert 10 (Reachable.construct 1 2))))))))).2.2.2⟩

theorem mem_of_split_snoc {α : Type} (pre pre1 post1 : List α) (x c : α)
    (h : pre ++ [x] = pre1 ++ c :: post1) (hne : post1 ≠ []) : c ∈ pre := by
  have hlen := congrArg List.length h
  simp only [List.length_append, List.length_cons, List.length_nil] at hlen
  have hp : 0 < post1.length := List.length_pos.2 hne
  have h1 : (pre ++ [x])[pre1.length]? = some c := by rw [h]; exact getElem?_mid pre1 post1 c
  rw [List.getElem?_append_left (by omega)] at h1
  exact List.getElem?_mem h1

theorem dense_snoc (C : Nat) (pre : List (Cell T)) (x : Cell T)
    (hpre : ∀ p ∈ pre, p.size = C) : dense C (pre ++ [x]) := by
  intro pre1 c post1 h hne
  exact hpre c (mem_of_split_snoc pre pre1 post1 x c h hne)

theorem dense_tail (C : Nat) (c : Cell T) (rest : List (Cell T)) (h : dense C (c :: rest)) :
    dense C rest := by
  intro pre d post hd hne
  exact h (c :: pre) d post (by rw [hd]; rfl) hne

/-- In a densely filled table `insert` stores the element behind all others. -/
theorem insert_dense (s : BucketStorage T) (v : T) (hI : Inv s) (hC : 0 < s.cell_capacity)
    (hd : dense s.cell_capacity s.cells) :
    dense s.cell_capacity (s.insert v).1.cells ∧ (s.insert v).1.contents = s.contents ++ [v] := by
  obtain ⟨pre, c, post, hdec, hpre, hc, heq⟩ := insert_spec s v hI hC
  have hpost : post = [] := by
    rcases hdec with h | ⟨_, _, h⟩
    · by_contra hne
      have := hd pre c post h hne
      omega
    · exact h
  subst hpost
  have hlen : c.size < c.data.length := by
    rcases hdec with h | ⟨_, h, _⟩
    · rw [(hI.cells_wf c (by simp [h])).data_len]; exact hc
    · rw [h]; simpa [Cell.new] using hC
  obtain ⟨h1, h2⟩ := insert_contents s v pre [] c hdec hlen
  rw [heq]
  refine ⟨dense_snoc _ pre _ hpre, ?_⟩
  simp only [BucketStorage.contents]
  rw [h2]
  unfold BucketStorage.contents at h1
  rw [h1]
  simp

theorem insert_all_spec (vs : List T) : ∀ (s : BucketStorage T), Inv s →
    0 < s.cell_capacity → dense s.cell_capacity s.cells →
    Inv (insert_all s vs) ∧ (insert_all s vs).cell_capacity = s.cell_capacity ∧
    dense s.cell_capacity (insert_all s vs).cells ∧
    (insert_all s vs).contents = s.contents ++ vs := by
  induction vs with
  | nil => intro s hI _ hd; exact ⟨hI, rfl, hd, by simp [insert_all]⟩
  | cons v vs ih =>
    intro s hI hC hd
    have hcap := (insert_fields s v).2
    obtain ⟨h1, h2⟩ := insert_dense s v hI hC hd
    obtain ⟨k1, k2, k3, k4⟩ := ih (s.insert v).1 (insert_inv s v hI) (by rw [hcap]; exact hC)
      (by rw [hcap]; exact h1)
    rw [hcap] at k2 k3
    refine ⟨k1, k2, k3, ?_⟩
    have : insert_all s (v :: vs) = insert_all (s.insert v).1 vs := rfl
    rw [this, k4, h2]
    simp

/-- In a dense table cell `i` holds the elements `[i * C, i * C + C)` of the
contents. -/
theorem dense_vals (C : Nat) : ∀ (cells : List (Cell T)), (∀ c ∈ cells, c.wf C) →
    dense C cells → ∀ i c, cells[i]? = some c →
      c.vals = ((cells.flatMap Cell.vals).drop (i * C)).take C := by
  intro cells
  induction cells with
  | nil => intro _ _ i c h; simp at h
  | cons c0 rest ih =>
    intro hw hd i c h
    have hw0 := hw c0 (by simp)
    have hl0 := Cell.vals_length hw0
    cases i with
    | zero =>
      simp only [List.getElem?_cons_zero, Option.some.injEq] at h
      subst h
      simp only [Nat.zero_mul, List.drop_zero, List.flatMap_cons]
      cases rest with
      | nil =>
        simp only [List.flatMap_nil, List.append_nil]
        rw [List.take_of_length_le (by rw [hl0]; exact hw0.size_le)]
      | cons d rest =>
        have := hd [] c0 (d :: rest) rfl (by simp)
        rw [List.take_append_of_le_length (by omega), List.take_of_length_le (by omega)]
    | succ j =>
      simp only [List.getElem?_cons_succ] at h
      have hne : rest ≠ [] := by
        intro hr; rw [hr] at h; simp at h
      have hfull := hd [] c0 rest rfl hne
      have := ih (fun d hd => hw d (by simp [hd])) (dense_tail C c0 rest hd) j c h
      rw [this, List.flatMap_cons, Nat.succ_mul]
      have : j * C + C = c0.vals.length + j * C := by omega
      rw [this, List.drop_append]

theorem dense_count (C : Nat) (hC : 0 < C) : ∀ (cells : List (Cell T)),
    (∀ c ∈ cells, c.wf C) → dense C cells →
    cells.length = ((cells.map Cell.size).sum + C - 1) / C := by
  intro cells
  induction cells with
  | nil =>
    intro _ _
    simp only [List.length_nil, List.map_nil, List.sum_nil, Nat.zero_add]
    exact (Nat.div_eq_of_lt (by omega)).symm
  | cons c0 rest ih =>
    intro hw hd
    have hw0 := hw c0 (by simp)
    have hp := hw0.size_pos hC
    have hle := hw0.size_le
    cases rest with
    | nil =>
      simp only [List.length_cons, List.length_nil, List.map_cons, List.map_nil, List.sum_cons,
        List.sum_nil, Nat.add_zero, Nat.zero_add]
      exact (Nat.div_eq_of_lt_le (by omega) (by omega)).symm
    | cons d rest =>
      have hfull := hd [] c0 (d :: rest) rfl (by simp)
      have := ih (fun e he => hw e (by simp [he])) (dense_tail C c0 _ hd)
      have hsum : ((c0 :: d :: rest).map Cell.size).sum
          = C + ((d :: rest).map Cell.size).sum := by
        rw [List.map_cons, List.sum_cons, hfull]
      have h2 : C + ((d :: rest).map Cell.size).sum + C - 1
          = (((d :: rest).map Cell.size).sum + C - 1) + C := by omega
      rw [List.length_cons, this, hsum, h2, Nat.add_div_right _ hC]

theorem dense_nil (C : Nat) : dense C ([] : List (Cell T)) := by
  intro pre c post h _
  simp at h

/-- C3: `N` inserts into a fresh container with `C > 0` and no erase:
iteration yields the values in insertion order, the table has `ceil(N / C)`
cells, cell `i` holds the values `[i * C, i * C + C)` so that every cell but
the last is full, `size() = N` and `capacity() = C * ceil(N / C)`. -/
theorem C3_inserts_fill_cells_in_order (addr C : Nat) (hC : 0 < C) (vs : List T) :
    (∀ fuel, vs.length < fuel →
      (insert_all (BucketStorage.construct addr C) vs).to_list fuel = some vs) ∧
    (insert_all (BucketStorage.construct addr C) vs).cell_count = (vs.length + C - 1) / C ∧
    (∀ i c, (insert_all (BucketStorage.construct addr C) vs).cells[i]? = some c →
      c.vals = (vs.drop (i * C)).take C) ∧
    (∀ i c, (insert_all (BucketStorage.construct addr C) vs).cells[i]? = some c →
      i + 1 < (insert_all (BucketStorage.construct addr C) vs).cell_count → c.size = C) ∧
    (insert_all (BucketStorage.construct addr C) vs).size = vs.length ∧
    (insert_all (BucketStorage.construct addr C) vs).capacity
      = C * ((vs.length + C - 1) / C) := by
  obtain ⟨hI, hcap, hd, hcont⟩ := insert_all_spec vs (BucketStorage.construct addr C)
    (inv_empty addr C) hC (dense_nil C)
  have hcap2 : (insert_all (BucketStorage.construct addr C) vs).cell_capacity = C := hcap
  have hd2 : dense C (insert_all (BucketStorage.construct addr C) vs).cells := hd
  have hcont2 : (insert_all (BucketStorage.construct addr C) vs).contents = vs := by
    rw [hcont]; rfl
  have hsize : (insert_all (BucketStorage.construct addr C) vs).total_size = vs.length := by
    rw [← contents_length _ hI, hcont2]
  have hwf : ∀ c ∈ (insert_all (BucketStorage.construct addr C) vs).cells, c.wf C := by
    intro c hc; have := hI.cells_wf c hc; rw [hcap2] at this; exact this
  have hcount : (insert_all (BucketStorage.construct addr C) vs).cell_count
      = (vs.length + C - 1) / C := by
    have := dense_count C hC _ hwf hd2
    have ht := hI.total
    unfold BucketStorage.live_total at ht
    rw [← ht, hsize] at this
    exact this
  refine ⟨?_, hcount, ?_, ?_, hsize, ?_⟩
  · intro fuel hf
    rw [to_list_spec _ hI (by rw [hcap2]; exact hC) fuel (by rw [hsize]; exact hf), hcont2]
  · intro i c hc
    have := dense_vals C _ hwf hd2 i c hc
    unfold BucketStorage.contents at hcont2
    rw [hcont2] at this
    exact this
  · intro i c hc hlt
    obtain ⟨hdec, hlen⟩ := split_at_getElem? _ i c hc
    apply hd2 _ c _ hdec
    intro hnil
    have h2 := congrArg List.length hdec
    rw [hnil] at h2
    simp only [List.length_append, List.length_cons, List.length_nil, hlen] at h2
    unfold BucketStorage.cell_count at hlt
    omega
  · unfold BucketStorage.capacity
    rw [hcap2, hcount]

theorem C3_witness :
    0 < 2 ∧ scenarioA.to_list 6 = some [10, 20, 30, 40, 50] ∧
    scenarioA.cells.map Cell.vals = [[10, 20], [30, 40], [50]] ∧
    scenarioA.size = 5 ∧ scenarioA.capacity = 6 :=
  ⟨by decide, (C3_inserts_fill_cells_in_order 1 2 (by decide) [10, 20, 30, 40, 50]).1 6
      (by decide), by decide, by decide, by decide⟩

/-- The method `insert` leaves every slot below the `size` of every cell
where it was: each cell of the old table is at the same index of the new
table with the same data and flags in those slots. -/
theorem insert_frame (s : BucketStorage T) (v : T) (hI : Inv s) (hC : 0 < s.cell_capacity)
    (i : Nat) (c : Cell T) (hc : s.cells[i]? = some c) :
    ∃ c1, (s.insert v).1.cells[i]? = some c1 ∧ c.size ≤ c1.size ∧
      ∀ j, j < c.size → c1.data[j]? = c.data[j]? ∧ c1.flags[j]? = c.flags[j]? := by
  obtain ⟨pre, c0, post, hdec, _, _, heq⟩ := insert_spec s v hI hC
  rw [heq]
  simp only
  rcases hdec with h | ⟨h, _, h3⟩
  · rw [← set_mid pre post c0 (c0.put c0.size (some v)), ← h, List.getElem?_set]
    by_cases hi : pre.length = i
    · have hc0 : c = c0 := by
        rw [h, ← hi, getElem?_mid] at hc
        injection hc with hc
        exact hc.symm
      subst hc0
      have hlt : pre.length < s.cells.length := by rw [h]; simp
      rw [if_pos hi, if_pos hlt]
      refine ⟨_, rfl, by simp [Cell.put], ?_⟩
      intro j hj
      simp only [Cell.put]
      rw [List.getElem?_set_ne (by omega), List.getElem?_set_ne (by omega)]
      exact ⟨rfl, rfl⟩
    · rw [if_neg hi]
      exact ⟨c, hc, Nat.le_refl _, fun j _ => ⟨rfl, rfl⟩⟩
  · subst h3
    have hlt : i < pre.length := by
      rw [← h]
      rcases Nat.lt_or_ge i s.cells.length with h1 | h1
      · exact h1
      · rw [List.getElem?_eq_none h1] at hc; simp at hc
    rw [List.getElem?_append_left hlt, ← h]
    exact ⟨c, hc, Nat.le_refl _, fun j _ => ⟨rfl, rfl⟩⟩

/-- C4: `insert` never relocates an element: in a reachable container with
`C > 0` every live position is live after `insert(v)` and holds the same
element; every cell keeps its index, also when a cell is appended. -/
theorem C4_insert_keeps_live_positions (s : BucketStorage T) (h : Reachable s)
    (hC : 0 < s.cell_capacity) (v : T) (it : iterator) (hl : is_live s it = true) :
    is_live (s.insert v).1 it = true ∧
    (∃ x, it.deref s = some x ∧ it.deref (s.insert v).1 = some x) ∧
    s.cell_count ≤ (s.insert v).1.cell_count ∧
    (∀ (i : Nat) (c : Cell T), s.cells[i]? = some c →
      ∃ c1 : Cell T, (s.insert v).1.cells[i]? = some c1 ∧ c1.vals.take c.size = c.vals) := by
  have hI := reachable_inv s h
  have hI1 := insert_inv s v hI
  have hcap := (insert_fields s v).2
  obtain ⟨hst, c, hc, hei, hfl⟩ := (is_live_iff s it).1 hl
  obtain ⟨c1, hc1, hsz, hfr⟩ := insert_frame s v hI hC it.cell_index c hc
  have hw := hI.cells_wf c (List.getElem?_mem hc)
  refine ⟨?_, ?_, ?_, ?_⟩
  · rw [is_live_iff]
    refine ⟨by rw [(insert_fields s v).1]; exact hst, c1, hc1, by omega, ?_⟩
    rw [(hfr _ hei).2]; exact hfl
  · obtain ⟨x, _, hx⟩ := Cell.getD_data hw it.element_index hei
    refine ⟨x, ?_, ?_⟩
    · unfold iterator.deref; rw [hc]; exact hx
    · unfold iterator.deref; rw [hc1]
      simp only
      rw [List.getD_eq_getElem?_getD] at hx ⊢
      rw [(hfr _ hei).1]; exact hx
  · unfold BucketStorage.cell_count
    rcases Nat.lt_or_ge (s.insert v).1.cells.length s.cells.length with hlt | hge
    · exfalso
      have hlast : s.cells[(s.insert v).1.cells.length]? = some (s.cells[(s.insert v).1.cells.length]) :=
        List.getElem?_eq_getElem hlt
      obtain ⟨c2, hc2, _⟩ := insert_frame s v hI hC _ _ hlast
      rw [List.getElem?_eq_none (Nat.le_refl _)] at hc2
      simp at hc2
    · exact hge
  · intro i d hd
    obtain ⟨d1, hd1, hsz1, hfr1⟩ := insert_frame s v hI hC i d hd
    refine ⟨d1, hd1, ?_⟩
    have hwd := hI.cells_wf d (List.getElem?_mem hd)
    have hwd1 : d1.wf s.cell_capacity := by
      have := hI1.cells_wf d1 (List.getElem?_mem hd1)
      rw [hcap] at this; exact this
    apply List.ext_getElem?
    intro k
    have e1 := Cell.take_data hwd
    have e2 := Cell.take_data hwd1
    have e3 : (d1.vals.take d.size).map some = d.vals.map some := by
      rw [List.map_take, ← e2, ← e1, List.take_take, Nat.min_eq_left hsz1]
      apply List.ext_getElem?
      intro j
      rw [List.getElem?_take, List.getElem?_take]
      split
      · rename_i hj; exact (hfr1 j hj).1
      · rfl
    have := congrArg (fun l => l[k]?) e3
    simp only [List.getElem?_map] at this
    cases h1 : (d1.vals.take d.size)[k]? <;> cases h2 : d.vals[k]? <;> simp_all

theorem reachable_insert_all (s : BucketStorage T) (vs : List T) (h : Reachable s) :
    Reachable (insert_all s vs) := by
  induction vs generalizing s with
  | nil => exact h
  | cons v vs ih => exact ih _ (Reachable.insert v h)

theorem reachable_scenarioA : Reachable scenarioA :=
  reachable_insert_all _ _ (Reachable.construct 1 2)

theorem reachable_scenarioB : Reachable scenarioB :=
  Reachable.erase _ reachable_scenarioA

theorem reachable_scenarioD : Reachable scenarioD :=
  reachable_insert_all _ _ (Reachable.construct 1 4)

theorem C4_witness :
    is_live (insert_all (BucketStorage.construct 1 2) [10, 20]) ⟨0, 1, 1⟩ = true ∧
    (insert_all (BucketStorage.construct 1 2) [10, 20]).cell_count = 1 ∧
    ((insert_all (BucketStorage.construct 1 2) [10, 20]).insert 30).1.cell_count = 2 ∧
    is_live ((insert_all (BucketStorage.construct 1 2) [10, 20]).insert 30).1 ⟨0, 1, 1⟩ = true :=
  ⟨by decide, by decide, by decide,
   (C4_insert_keeps_live_positions (insert_all (BucketStorage.construct 1 2) [10, 20])
      (reachable_insert_all _ _ (Reachable.construct 1 2)) (by decide) 30 ⟨0, 1, 1⟩
      (by decide)).1⟩

/-- C5: in a reachable container with `C > 0`, `insert(v)` returns an
iterator of this container that is not `end()` and dereferences to `v`; every
cell before the iterator's cell is full; the iterator's cell is either a cell
of the old table with room, written at its old `size` with the table length
unchanged, or a cell appended behind a table without room, written at slot
`0`; the written cell has one element more and holds `v` in the slot. -/
theorem C5_insert_uses_first_cell_with_room (s : BucketStorage T) (h : Reachable s)
    (hC : 0 < s.cell_capacity) (v : T) :
    (s.insert v).2 ≠ (s.insert v).1.end_ ∧
    (s.insert v).2.deref (s.insert v).1 = some v ∧
    (s.insert v).2.storage = s.this ∧
    (∀ (i : Nat) (c : Cell T), i < (s.insert v).2.cell_index → s.cells[i]? = some c →
      c.size = s.cell_capacity) ∧
    ((∃ c : Cell T, s.cells[(s.insert v).2.cell_index]? = some c ∧ c.size < s.cell_capacity ∧
        (s.insert v).2.element_index = c.size ∧
        (s.insert v).1.cell_count = s.cell_count) ∨
      ((s.insert v).2.cell_index = s.cell_count ∧ (s.insert v).2.element_index = 0 ∧
        (s.insert v).1.cell_count = s.cell_count + 1)) ∧
    (∃ c1 : Cell T, (s.insert v).1.cells[(s.insert v).2.cell_index]? = some c1 ∧
      c1.size = (s.insert v).2.element_index + 1 ∧
      c1.data[(s.insert v).2.element_index]? = some (some v)) := by
  have hI := reachable_inv s h
  obtain ⟨pre, c, post, hdec, hpre, hc, heq⟩ := insert_spec s v hI hC
  have hdl : c.size < c.data.length := by
    rcases hdec with h1 | ⟨_, h1, _⟩
    · rw [(hI.cells_wf c (by simp [h1])).data_len]; exact hc
    · rw [h1]; simpa [Cell.new] using hC
  have hpre_get : ∀ (i : Nat) (d : Cell T), i < pre.length → s.cells[i]? = some d → d ∈ pre := by
    intro i d hi hd
    rcases hdec with h1 | ⟨h1, _, _⟩
    · rw [h1, List.getElem?_append_left hi] at hd
      exact List.getElem?_mem hd
    · rw [h1] at hd
      exact List.getElem?_mem hd
  rw [heq]
  simp only
  refine ⟨?_, ?_, trivial, ?_, ?_, ?_⟩
  · intro hh
    have := congrArg iterator.cell_index hh
    simp [BucketStorage.end_, BucketStorage.cell_count] at this
  · unfold iterator.deref
    simp only [getElem?_mid]
    simp [Cell.put, List.getD_eq_getElem?_getD, List.getElem?_set, hdl]
  · intro i d hi hd
    exact hpre d (hpre_get i d hi hd)
  · rcases hdec with h1 | ⟨h1, h2, h3⟩
    · left
      refine ⟨c, by rw [h1]; exact getElem?_mid pre post c, hc, rfl, ?_⟩
      simp [BucketStorage.cell_count, h1]
    · right
      subst h3
      refine ⟨by simp [BucketStorage.cell_count, h1], by rw [h2]; rfl, ?_⟩
      simp [BucketStorage.cell_count, h1]
  · refine ⟨c.put c.size (some v), getElem?_mid _ _ _, rfl, ?_⟩
    simp [Cell.put, List.getElem?_set, hdl]

theorem C5_witness :
    0 < scenarioB.cell_capacity ∧
    (scenarioB.insert 60).2 = { cell_index := 0, element_index := 1, storage := 1 } ∧
    (scenarioB.insert 60).1.to_list 6 = some [10, 60, 30, 40, 50] ∧
    (scenarioB.insert 60).2.deref (scenarioB.insert 60).1 = some 60 :=
  ⟨by decide, by decide, by decide,
   (C5_insert_uses_first_cell_with_room scenarioB reachable_scenarioB (by decide) 60).2.1⟩

theorem iter_pos_split (s : BucketStorage T) (pre post : List (Cell T)) (c : Cell T)
    (ei a : Nat) (hdec : s.cells = pre ++ c :: post) :
    iter_pos s { cell_index := pre.length, element_index := ei, storage := a }
      = (pre.map Cell.size).sum + ei := by
  unfold iter_pos
  simp only [hdec]
  rw [List.take_append_of_le_length (Nat.le_refl _), List.take_length]

/-- C6: in a reachable container with `C > 0`, `erase` through an iterator at
a live slot, at position `k` in iteration order, leaves exactly the previous
sequence without its `k`-th element; the owning cell holds its former
elements without the erased one, the later ones one slot lower, and is
unlinked when it held only that element; the other cells are untouched. -/
theorem C6_erase_removes_exactly_one_element (s : BucketStorage T) (h : Reachable s)
    (hC : 0 < s.cell_capacity) (it : iterator) (hl : is_live s it = true) :
    iter_pos s it < s.size ∧
    (∀ fuel, s.size < fuel →
      s.to_list fuel = some s.contents ∧
      (s.erase it).1.to_list fuel = some (s.contents.eraseIdx (iter_pos s it))) ∧
    (∃ c : Cell T, s.cells[it.cell_index]? = some c ∧
      (c.remove_at it.element_index).vals = c.vals.eraseIdx it.element_index ∧
      (∀ j, j < it.element_index →
        (c.remove_at it.element_index).data[j]? = c.data[j]?) ∧
      (∀ j, it.element_index ≤ j → j + 1 < c.size →
        (c.remove_at it.element_index).data[j]? = c.data[j + 1]?) ∧
      (s.erase it).1.cells =
        if c.size = 1 then s.cells.eraseIdx it.cell_index
        else s.cells.set it.cell_index (c.remove_at it.element_index)) := by
  have hI := reachable_inv s h
  obtain ⟨pre, c, post, hdec, hlen, hc, hei, hfl, hit⟩ := live_split s it hl
  have hw := hI.cells_wf c (List.getElem?_mem hc)
  have hpos : iter_pos s it = (pre.map Cell.size).sum + it.element_index := by
    rw [hit]; exact iter_pos_split s pre post c _ _ hdec
  have hI1 := erase_inv s it hI
  have hcap := (erase_fields s it).2
  have hsz := erase_size_live s it hI hl
  have ht := hI.total
  unfold BucketStorage.live_total at ht
  rw [hdec] at ht
  simp only [List.map_append, List.sum_append, List.map_cons, List.sum_cons] at ht
  refine ⟨by unfold BucketStorage.size; omega, ?_, c, hc, Cell.remove_at_vals c hw _ hei, ?_, ?_, ?_⟩
  · intro fuel hf
    unfold BucketStorage.size at hf
    refine ⟨to_list_spec s hI hC fuel hf, ?_⟩
    rw [to_list_spec _ hI1 (by rw [hcap]; exact hC) fuel (by omega), hpos]
    have := erase_contents s hI pre post c it.element_index hdec hei
    rw [← hit] at this
    rw [this]
  · intro j hj
    rw [(Cell.remove_at_spec c hw _ hei).2.2.2.2.1 j (by omega), if_neg (by omega)]
  · intro j hj1 hj2
    rw [(Cell.remove_at_spec c hw _ hei).2.2.2.2.1 j (by omega), if_pos hj1]
  · have := erase_live_cells s hI pre post c it.element_index hdec hei
    rw [← hit] at this
    rw [this]
    simp only
    rw [← hlen]
    by_cases h1 : c.size = 1
    · rw [if_pos h1, if_pos h1, hdec, List.eraseIdx_append_of_length_le (Nat.le_refl _)]
      simp
    · rw [if_neg h1, if_neg h1, hdec, set_mid]

theorem C6_witness :
    is_live scenarioA ⟨0, 1, 1⟩ = true ∧
    scenarioA.to_list 6 = some [10, 20, 30, 40, 50] ∧
    (scenarioA.erase ⟨0, 1, 1⟩).1.to_list 6 = some [10, 30, 40, 50] ∧
    (scenarioA.erase ⟨0, 1, 1⟩).1.cells.map Cell.vals = [[10], [30, 40], [50]] ∧
    (scenarioA.erase ⟨0, 1, 1⟩).1.size = 4 ∧
    iter_pos scenarioA ⟨0, 1, 1⟩ < scenarioA.size :=
  ⟨by decide, by decide, by decide, by decide, by decide,
   (C6_erase_removes_exactly_one_element scenarioA reachable_scenarioA (by decide) ⟨0, 1, 1⟩
      (by decide)).1⟩

/-- C7: in a reachable container with `C > 0`, `insert(x)` followed by `erase`
on the returned iterator restores `size()`, the number of cells, `capacity()`
and the sequence `begin()..end()` yields, whether the insert wrote into a cell
of the table or appended one. -/
theorem C7_insert_then_erase_restores (s : BucketStorage T) (h : Reachable s)
    (hC : 0 < s.cell_capacity) (x : T) :
    (((s.insert x).1.erase (s.insert x).2).1.size = s.size ∧
      ((s.insert x).1.erase (s.insert x).2).1.cell_count = s.cell_count ∧
      ((s.insert x).1.erase (s.insert x).2).1.capacity = s.capacity ∧
      ((s.insert x).1.erase (s.insert x).2).1.contents = s.contents ∧
      (∀ fuel, s.size < fuel →
        ((s.insert x).1.erase (s.insert x).2).1.to_list fuel = s.to_list fuel)) ∧
    ((s.insert x).1.cell_count = s.cell_count ∨
      (s.insert x).1.cell_count = s.cell_count + 1) := by
  have hI := reachable_inv s h
  have hI1 := insert_inv s x hI
  have hcap1 := (insert_fields s x).2
  have hthis1 := (insert_fields s x).1
  obtain ⟨pre, c, post, hdec, hpre, hc, heq⟩ := insert_spec s x hI hC
  have hdl : c.size < c.data.length := by
    rcases hdec with h1 | ⟨_, h1, _⟩
    · rw [(hI.cells_wf c (by simp [h1])).data_len]; exact hc
    · rw [h1]; simpa [Cell.new] using hC
  have hcells1 : (s.insert x).1.cells = pre ++ c.put c.size (some x) :: post := by rw [heq]
  have hit : (s.insert x).2
      = { cell_index := pre.length, element_index := c.size, storage := (s.insert x).1.this } := by
    rw [hthis1, heq]
  have hw1 : (c.put c.size (some x)).wf (s.insert x).1.cell_capacity :=
    hI1.cells_wf _ (by rw [hcells1]; simp)
  have hei : c.size < (c.put c.size (some x)).size := by simp [Cell.put]
  have hcells2 := erase_live_cells (s.insert x).1 hI1 pre post (c.put c.size (some x)) c.size
    hcells1 hei
  rw [← hit] at hcells2
  have hvals : ((c.put c.size (some x)).remove_at c.size).vals = c.vals := by
    rw [Cell.remove_at_vals _ hw1 _ hei, Cell.vals_put c x hdl]
    have hvl : c.vals.length = c.size := by
      rcases hdec with h1 | ⟨_, h1, _⟩
      · exact Cell.vals_length (hI.cells_wf c (by simp [h1]))
      · rw [h1, Cell.new_vals]; rfl
    rw [← hvl, List.eraseIdx_append_of_length_le (Nat.le_refl _)]
    simp
  have hsize : ((s.insert x).1.erase (s.insert x).2).1.total_size = s.total_size := by
    rw [hcells2]
    simp only
    rw [insert_size s x hI hC]
    omega
  have hcount : ((s.insert x).1.erase (s.insert x).2).1.cells.length = s.cells.length := by
    rw [hcells2]
    simp only
    rcases hdec with h1 | ⟨h1, h2, h3⟩
    · have := (hI.cells_wf c (by simp [h1])).size_pos hC
      rw [if_neg (by simp [Cell.put]; omega), h1]
      simp
    · rw [if_pos (by rw [h2]; simp [Cell.put, Cell.new]), h1, h3]
      simp
  have hcont : ((s.insert x).1.erase (s.insert x).2).1.contents = s.contents := by
    rw [hcells2]
    unfold BucketStorage.contents
    simp only
    have hs : s.cells.flatMap Cell.vals
        = pre.flatMap Cell.vals ++ c.vals ++ post.flatMap Cell.vals :=
      (insert_contents s x pre post c hdec hdl).1
    rw [hs]
    split
    · rename_i h1
      have : c.vals = [] := by
        have hz : c.size = 0 := by simpa [Cell.put] using h1
        rcases hdec with h2 | ⟨_, h2, _⟩
        · have := (hI.cells_wf c (by simp [h2])).size_pos hC
          omega
        · rw [h2]; exact Cell.new_vals _
      rw [this]; simp
    · simp [hvals]
  have hI2 := erase_inv (s.insert x).1 (s.insert x).2 hI1
  have hcap2 := (erase_fields (s.insert x).1 (s.insert x).2).2
  refine ⟨⟨hsize, hcount, ?_, hcont, ?_⟩, ?_⟩
  · unfold BucketStorage.capacity BucketStorage.cell_count
    rw [hcount, hcap2, hcap1]
  · intro fuel hf
    unfold BucketStorage.size at hf
    rw [to_list_spec _ hI2 (by rw [hcap2, hcap1]; exact hC) fuel (by rw [hsize]; exact hf),
      to_list_spec s hI hC fuel hf, hcont]
  · unfold BucketStorage.cell_count
    rw [hcells1]
    rcases hdec with h1 | ⟨h1, _, h3⟩
    · left; rw [h1]; simp
    · right; rw [h1, h3]; simp

theorem C7_witness :
    0 < scenarioB.cell_capacity ∧
    (scenarioB.insert 60).1.cell_count = scenarioB.cell_count ∧
    ((scenarioB.insert 60).1.erase (scenarioB.insert 60).2).1.to_list 6 = scenarioB.to_list 6 ∧
    ((scenarioB.insert 60).1.erase (scenarioB.insert 60).2).1.size = scenarioB.size :=
  ⟨by decide, by decide, by decide,
   (C7_insert_then_erase_restores scenarioB reachable_scenarioB (by decide) 60).1.1⟩

theorem erase_returns_end (s : BucketStorage T) (it : iterator) :
    (s.erase it).2 = (s.erase it).1.end_ := by
  unfold BucketStorage.erase
  split
  · rfl
  · split
    · rfl
    · simp only
      split
      · rfl
      · rfl

/-- C8: `erase` always returns the end sentinel of the container as it is
after the call, and it changes nothing when the iterator belongs to another
container, when its cell index is outside the table, or when its slot is not
a live slot of the cell. -/
theorem C8_erase_returns_end_and_skips_dead_positions (s : BucketStorage T) (it : iterator) :
    (s.erase it).2 = (s.erase it).1.end_ ∧
    (s.erase it).2 =
      { cell_index := (s.erase it).1.cell_count, element_index := 0, storage := s.this } ∧
    (it.storage ≠ s.this → (s.erase it).1 = s) ∧
    (it.cell_index ≥ s.cell_count → (s.erase it).1 = s) ∧
    (∀ c : Cell T, s.cells[it.cell_index]? = some c →
      ¬ (it.element_index < c.size ∧ c.flags[it.element_index]? = some false) →
      (s.erase it).1 = s) := by
  refine ⟨erase_returns_end s it, ?_, ?_, ?_, ?_⟩
  · rw [erase_returns_end s it]
    unfold BucketStorage.end_
    rw [(erase_fields s it).1]
  · intro hne
    rw [erase_not_live s it]
    cases hl : is_live s it with
    | false => rfl
    | true => exact absurd ((is_live_iff s it).1 hl).1 hne
  · intro hge
    rw [erase_not_live s it]
    cases hl : is_live s it with
    | false => rfl
    | true =>
      obtain ⟨_, c, hc, _, _⟩ := (is_live_iff s it).1 hl
      rw [List.getElem?_eq_none hge] at hc
      simp at hc
  · intro c hc hn
    rw [erase_not_live s it]
    cases hl : is_live s it with
    | false => rfl
    | true =>
      obtain ⟨_, d, hd, h1, h2⟩ := (is_live_iff s it).1 hl
      rw [hc] at hd
      injection hd with hd
      subst hd
      exact absurd ⟨h1, h2⟩ hn

/-- C10: in a reachable container with `C > 0`, `erase` on a live slot of a
cell with one element unlinks the cell: the table is one cell shorter,
`capacity()` is `C` less, the cells before it keep their index and the cells
behind it move one index down, all unchanged; `erase` on a live slot of a
cell with more elements leaves the table length and `capacity()` as they
were. -/
theorem C10_erase_unlinks_drained_cell (s : BucketStorage T) (h : Reachable s)
    (_hC : 0 < s.cell_capacity) (it : iterator) (hl : is_live s it = true) :
    ∃ c : Cell T, s.cells[it.cell_index]? = some c ∧
      (c.size = 1 →
        (s.erase it).1.cell_count + 1 = s.cell_count ∧
        (s.erase it).1.capacity + s.cell_capacity = s.capacity ∧
        (∀ k, k < it.cell_index → (s.erase it).1.cells[k]? = s.cells[k]?) ∧
        (∀ k, it.cell_index ≤ k → (s.erase it).1.cells[k]? = s.cells[k + 1]?)) ∧
      (1 < c.size →
        (s.erase it).1.cell_count = s.cell_count ∧
        (s.erase it).1.capacity = s.capacity ∧
        (∀ k, k ≠ it.cell_index → (s.erase it).1.cells[k]? = s.cells[k]?)) := by
  have hI := reachable_inv s h
  obtain ⟨pre, c, post, hdec, hlen, hc, hei, hfl, hit⟩ := live_split s it hl
  have hcap := (erase_fields s it).2
  have hcells := erase_live_cells s hI pre post c it.element_index hdec hei
  rw [← hit] at hcells
  have hlt : it.cell_index < s.cells.length := by rw [hdec, ← hlen]; simp
  refine ⟨c, hc, ?_, ?_⟩
  · intro h1
    have hce : (s.erase it).1.cells = s.cells.eraseIdx it.cell_index := by
      rw [hcells]
      simp only [if_pos h1]
      rw [hdec, ← hlen, List.eraseIdx_append_of_length_le (Nat.le_refl _)]
      simp
    have hcnt : (s.erase it).1.cells.length + 1 = s.cells.length := by
      rw [hce, List.length_eraseIdx, if_pos hlt]
      omega
    refine ⟨hcnt, ?_, ?_, ?_⟩
    · unfold BucketStorage.capacity BucketStorage.cell_count
      rw [hcap, ← hcnt, Nat.mul_succ]
    · intro k hk
      rw [hce, List.getElem?_eraseIdx, if_pos hk]
    · intro k hk
      rw [hce, List.getElem?_eraseIdx, if_neg (by omega)]
  · intro h1
    have hce : (s.erase it).1.cells = s.cells.set it.cell_index (c.remove_at it.element_index) := by
      rw [hcells]
      simp only [if_neg (by omega : ¬ c.size = 1)]
      rw [hdec, ← hlen, set_mid]
    have hcnt : (s.erase it).1.cells.length = s.cells.length := by
      rw [hce, List.length_set]
    refine ⟨hcnt, ?_, ?_⟩
    · unfold BucketStorage.capacity BucketStorage.cell_count
      rw [hcap, hcnt]
    · intro k hk
      rw [hce, List.getElem?_set_ne (by omega)]

theorem C10_witness :
    is_live scenarioB ⟨0, 0, 1⟩ = true ∧ scenarioB.cell_count = 3 ∧
    (scenarioB.erase ⟨0, 0, 1⟩).1.cell_count = 2 ∧
    (scenarioB.erase ⟨0, 0, 1⟩).1.cells.map Cell.vals = [[30, 40], [50]] ∧
    (∃ c : Cell Nat, scenarioB.cells[0]? = some c ∧
      (c.size = 1 →
        (scenarioB.erase ⟨0, 0, 1⟩).1.cell_count + 1 = scenarioB.cell_count ∧
        (scenarioB.erase ⟨0, 0, 1⟩).1.capacity + scenarioB.cell_capacity = scenarioB.capacity ∧
        (∀ k, k < 0 → (scenarioB.erase ⟨0, 0, 1⟩).1.cells[k]? = scenarioB.cells[k]?) ∧
        (∀ k, 0 ≤ k → (scenarioB.erase ⟨0, 0, 1⟩).1.cells[k]? = scenarioB.cells[k + 1]?)) ∧
      (1 < c.size →
        (scenarioB.erase ⟨0, 0, 1⟩).1.cell_count = scenarioB.cell_count ∧
        (scenarioB.erase ⟨0, 0, 1⟩).1.capacity = scenarioB.capacity ∧
        (∀ k, k ≠ 0 → (scenarioB.erase ⟨0, 0, 1⟩).1.cells[k]? = scenarioB.cells[k]?))) :=
  ⟨by decide, by decide, by decide, by decide,
   C10_erase_unlinks_drained_cell scenarioB reachable_scenarioB (by decide) ⟨0, 0, 1⟩
     (by decide)⟩

theorem C9_counterexample :
    Reachable scenarioD ∧ 0 < scenarioD.cell_capacity ∧
    is_live scenarioD ⟨0, 1, 1⟩ = true ∧
    iterator.deref scenarioD ⟨0, 1, 1⟩ = some 20 ∧
    (scenarioD.erase ⟨0, 1, 1⟩).1.size = 2 ∧
    (scenarioD.erase ⟨0, 1, 1⟩).1.to_list 4 = some [10, 30] ∧
    ((scenarioD.erase ⟨0, 1, 1⟩).1.erase ⟨0, 1, 1⟩).1.size = 1 ∧
    ((scenarioD.erase ⟨0, 1, 1⟩).1.erase ⟨0, 1, 1⟩).1.to_list 4 = some [10] ∧
    ((scenarioD.erase ⟨0, 1, 1⟩).1.erase ⟨0, 1, 1⟩).1.size
      ≠ (scenarioD.erase ⟨0, 1, 1⟩).1.size ∧
    ((scenarioD.erase ⟨0, 1, 1⟩).1.erase ⟨0, 1, 1⟩).1.to_list 4
      ≠ (scenarioD.erase ⟨0, 1, 1⟩).1.to_list 4 :=
  ⟨reachable_scenarioD, by decide, by decide, by decide, by decide, by decide, by decide,
   by decide, by decide, by decide⟩

/-- After `erase` on a live slot the same iterator value addresses a live
slot again unless the slot was the last of its cell and the cell either keeps
an element or was the last cell of the table. -/
theorem live_after_erase (s : BucketStorage T) (hI : Inv s) (hC : 0 < s.cell_capacity)
    (it : iterator) (hl : is_live s it = true) (c : Cell T)
    (hc : s.cells[it.cell_index]? = some c) :
    (is_live (s.erase it).1 it = true ↔
      ¬ (it.element_index + 1 = c.size ∧ (1 < c.size ∨ it.cell_index + 1 = s.cell_count))) ∧
    iter_pos (s.erase it).1 it = iter_pos s it := by
  obtain ⟨pre, c0, post, hdec, hlen, hc0, hei, hfl, hit⟩ := live_split s it hl
  have hcc : c0 = c := by
    rw [hc] at hc0; injection hc0 with hc0; exact hc0.symm
  subst hcc
  have hw := hI.cells_wf c0 (List.getElem?_mem hc)
  have hcells := erase_live_cells s hI pre post c0 it.element_index hdec hei
  rw [← hit] at hcells
  have hthis := (erase_fields s it).1
  have hst := ((is_live_iff s it).1 hl).1
  have hcount : s.cell_count = pre.length + 1 + post.length := by
    unfold BucketStorage.cell_count; rw [hdec]; simp; omega
  have hpos0 : iter_pos s it = (pre.map Cell.size).sum + it.element_index := by
    rw [hit]; exact iter_pos_split s pre post c0 _ _ hdec
  by_cases h1 : c0.size = 1
  · have hce : (s.erase it).1.cells = pre ++ post := by rw [hcells]; simp only [if_pos h1]
    constructor
    · rw [is_live_iff, hce, ← hlen]
      cases post with
      | nil =>
        constructor
        · rintro ⟨_, d, hd, _⟩
          rw [List.getElem?_eq_none (by simp)] at hd
          simp at hd
        · intro hn
          exfalso
          apply hn
          exact ⟨by omega, Or.inr (by rw [hcount]; simp)⟩
      | cons d post =>
        have hwd := hI.cells_wf d (by rw [hdec]; simp)
        have hdp := hwd.size_pos hC
        constructor
        · intro _
          rintro ⟨_, h3 | h3⟩
          · omega
          · rw [hcount] at h3; simp at h3
        · intro _
          refine ⟨by rw [hthis]; exact hst, d, getElem?_mid pre post d, by omega, ?_⟩
          have : it.element_index = 0 := by omega
          rw [this]; exact hwd.live 0 hdp
    · rw [hpos0]
      unfold iter_pos
      rw [hce, ← hlen, List.take_append_of_le_length (Nat.le_refl _), List.take_length]
  · have hce : (s.erase it).1.cells = pre ++ c0.remove_at it.element_index :: post := by
      rw [hcells]; simp only [if_neg h1]
    have hsz := Cell.remove_at_size c0 hw it.element_index hei
    have hw3 := Cell.remove_at_wf c0 hw it.element_index hei (by omega)
    constructor
    · rw [is_live_iff, hce, ← hlen]
      constructor
      · rintro ⟨_, d, hd, h4, _⟩
        rw [getElem?_mid] at hd
        injection hd with hd
        subst hd
        rintro ⟨h5, _⟩
        omega
      · intro hn
        have hlt : it.element_index + 1 < c0.size := by
          by_contra h6
          apply hn
          exact ⟨by omega, Or.inl (by omega)⟩
        exact ⟨by rw [hthis]; exact hst, _, getElem?_mid _ _ _, by omega,
          hw3.live _ (by omega)⟩
    · rw [hpos0]
      unfold iter_pos
      rw [hce, ← hlen, List.take_append_of_le_length (Nat.le_refl _), List.take_length]

/-- C9 (amended): in a reachable container with `C > 0`, after `erase(it)` on
a live slot a second `erase(it)` with the same iterator value returns the end
sentinel; it changes nothing when the slot was the last one of its cell and
the cell either had more than one element or was the last cell of the table;
in every other case the position is live again and the second call removes
the element that now sits there, `size()` decreasing by one more. -/
theorem C9_second_erase_is_noop_only_at_cell_end (s : BucketStorage T) (h : Reachable s)
    (hC : 0 < s.cell_capacity) (it : iterator) (hl : is_live s it = true) :
    ∃ c : Cell T, s.cells[it.cell_index]? = some c ∧
      ((s.erase it).1.erase it).2 = ((s.erase it).1.erase it).1.end_ ∧
      ((it.element_index + 1 = c.size ∧ (1 < c.size ∨ it.cell_index + 1 = s.cell_count)) →
        ((s.erase it).1.erase it).1 = (s.erase it).1) ∧
      (¬ (it.element_index + 1 = c.size ∧ (1 < c.size ∨ it.cell_index + 1 = s.cell_count)) →
        ((s.erase it).1.erase it).1.size + 1 = (s.erase it).1.size ∧
        ((s.erase it).1.erase it).1.contents
          = (s.contents.eraseIdx (iter_pos s it)).eraseIdx (iter_pos s it)) := by
  have hI := reachable_inv s h
  have hI1 := erase_inv s it hI
  obtain ⟨hst, c, hc, hei, hfl⟩ := (is_live_iff s it).1 hl
  obtain ⟨hlive, hpos⟩ := live_after_erase s hI hC it hl c hc
  refine ⟨c, hc, erase_returns_end _ it, ?_, ?_⟩
  · intro hcond
    have : is_live (s.erase it).1 it = false := by
      cases hl1 : is_live (s.erase it).1 it with
      | false => rfl
      | true => exact absurd hcond (hlive.1 hl1)
    rw [erase_not_live _ it this]
  · intro hcond
    have hl1 := hlive.2 hcond
    refine ⟨erase_size_live _ it hI1 hl1, ?_⟩
    obtain ⟨pre, d, post, hdec, hlen, _, hei1, _, hit⟩ := live_split _ it hl1
    have e1 := erase_contents _ hI1 pre post d it.element_index hdec hei1
    rw [← hit] at e1
    have hp1 : iter_pos (s.erase it).1 it = (pre.map Cell.size).sum + it.element_index := by
      have := iter_pos_split (s.erase it).1 pre post d it.element_index (s.erase it).1.this hdec
      rw [← hit] at this
      exact this
    rw [e1, ← hp1, hpos]
    obtain ⟨pre0, c0, post0, hdec0, hlen0, _, hei0, _, hit0⟩ := live_split s it hl
    have e0 := erase_contents s hI pre0 post0 c0 it.element_index hdec0 hei0
    rw [← hit0] at e0
    have hp0 : iter_pos s it = (pre0.map Cell.size).sum + it.element_index := by
      have := iter_pos_split s pre0 post0 c0 it.element_index s.this hdec0
      rw [← hit0] at this
      exact this
    rw [e0, ← hp0]

theorem C9_witness :
    is_live scenarioD ⟨0, 2, 1⟩ = true ∧ 0 < scenarioD.cell_capacity ∧
    (scenarioD.erase ⟨0, 2, 1⟩).1.to_list 4 = some [10, 20] ∧
    ((scenarioD.erase ⟨0, 2, 1⟩).1.erase ⟨0, 2, 1⟩).1.to_list 4 = some [10, 20] ∧
    (∃ c : Cell Nat, scenarioD.cells[0]? = some c ∧
      ((scenarioD.erase ⟨0, 2, 1⟩).1.erase ⟨0, 2, 1⟩).2
        = ((scenarioD.erase ⟨0, 2, 1⟩).1.erase ⟨0, 2, 1⟩).1.end_ ∧
      ((2 + 1 = c.size ∧ (1 < c.size ∨ 0 + 1 = scenarioD.cell_count)) →
        ((scenarioD.erase ⟨0, 2, 1⟩).1.erase ⟨0, 2, 1⟩).1 = (scenarioD.erase ⟨0, 2, 1⟩).1) ∧
      (¬ (2 + 1 = c.size ∧ (1 < c.size ∨ 0 + 1 = scenarioD.cell_count)) →
        ((scenarioD.erase ⟨0, 2, 1⟩).1.erase ⟨0, 2, 1⟩).1.size + 1
          = (scenarioD.erase ⟨0, 2, 1⟩).1.size ∧
        ((scenarioD.erase ⟨0, 2, 1⟩).1.erase ⟨0, 2, 1⟩).1.contents
          = (scenarioD.contents.eraseIdx (iter_pos scenarioD ⟨0, 2, 1⟩)).eraseIdx
              (iter_pos scenarioD ⟨0, 2, 1⟩))) :=
  ⟨by decide, by decide, by decide, by decide,
   C9_second_erase_is_noop_only_at_cell_end scenarioD reachable_scenarioD (by decide)
     ⟨0, 2, 1⟩ (by decide)⟩

theorem ceil_le_count (s : BucketStorage T) (hI : Inv s) (hC : 0 < s.cell_capacity) :
    (s.total_size + s.cell_capacity - 1) / s.cell_capacity ≤ s.cell_count := by
  have h1 := sum_sizes_le s.cell_capacity s.cells (fun c hc => (hI.cells_wf c hc).size_le)
  have h2 := hI.total
  unfold BucketStorage.live_total at h2
  unfold BucketStorage.cell_count
  apply Nat.le_of_lt_succ
  rw [Nat.div_lt_iff_lt_mul hC, Nat.succ_mul, Nat.mul_comm]
  omega

theorem shrink_to_fit_fields (s : BucketStorage T) :
    s.shrink_to_fit.this = s.this ∧ s.shrink_to_fit.cell_capacity = s.cell_capacity := by
  unfold BucketStorage.shrink_to_fit
  split
  · exact ⟨rfl, rfl⟩
  · simp only
    split <;> exact ⟨rfl, rfl⟩

/-- The three outcomes of `shrink_to_fit` in a consistent state. -/
theorem shrink_to_fit_cases (s : BucketStorage T) (hI : Inv s) (hC : 0 < s.cell_capacity) :
    (s.total_size = 0 ∧ s.shrink_to_fit = s.clear) ∨
    (0 < s.total_size ∧
      s.cell_count = (s.total_size + s.cell_capacity - 1) / s.cell_capacity ∧
      s.shrink_to_fit = s) ∨
    (0 < s.total_size ∧
      (s.total_size + s.cell_capacity - 1) / s.cell_capacity < s.cell_count ∧
      s.shrink_to_fit =
        { s with cells := packed s.cell_capacity
                            ((s.total_size + s.cell_capacity - 1) / s.cell_capacity)
                            s.contents }) := by
  rcases Nat.eq_zero_or_pos s.total_size with h0 | hpos
  · left
    refine ⟨h0, ?_⟩
    unfold BucketStorage.shrink_to_fit
    rw [if_pos h0]
  · right
    have hle := ceil_le_count s hI hC
    rw [shrink_to_fit_spec s hI hpos]
    by_cases hm : (s.total_size + s.cell_capacity - 1) / s.cell_capacity ≥ s.cell_count
    · left
      rw [if_pos hm]
      exact ⟨hpos, by omega, rfl⟩
    · right
      rw [if_neg hm]
      exact ⟨hpos, by omega, rfl⟩

/-- C11: in a reachable container with `C > 0`, `shrink_to_fit()` keeps
`size()` and leaves `ceil(size() / C)` cells, so `capacity()` is
`C * ceil(size() / C)`, and no cell when `size()` is `0`; on the early return
the table already has that many cells, on the repacking path the new table
has them. -/
theorem C11_shrink_to_fit_leaves_minimal_cell_count (s : BucketStorage T) (h : Reachable s)
    (hC : 0 < s.cell_capacity) :
    s.shrink_to_fit.size = s.size ∧
    s.shrink_to_fit.cell_capacity = s.cell_capacity ∧
    s.shrink_to_fit.cell_count = (s.size + s.cell_capacity - 1) / s.cell_capacity ∧
    s.shrink_to_fit.capacity
      = s.cell_capacity * ((s.size + s.cell_capacity - 1) / s.cell_capacity) ∧
    (s.size = 0 → s.shrink_to_fit.cell_count = 0) ∧
    (0 < s.size → (s.size + s.cell_capacity - 1) / s.cell_capacity ≥ s.cell_count →
      s.shrink_to_fit = s ∧
      s.cell_count = (s.size + s.cell_capacity - 1) / s.cell_capacity) := by
  have hI := reachable_inv s h
  have hcap := (shrink_to_fit_fields s).2
  have key : s.shrink_to_fit.total_size = s.total_size ∧
      s.shrink_to_fit.cell_count = (s.total_size + s.cell_capacity - 1) / s.cell_capacity := by
    rcases shrink_to_fit_cases s hI hC with ⟨h0, he⟩ | ⟨_, hc, he⟩ | ⟨_, _, he⟩
    · rw [he, h0]
      refine ⟨rfl, ?_⟩
      simp only [BucketStorage.clear, BucketStorage.cell_count, List.length_nil, Nat.zero_add]
      exact (Nat.div_eq_of_lt (by omega)).symm
    · rw [he]; exact ⟨rfl, hc⟩
    · rw [he]
      exact ⟨rfl, by simp only [BucketStorage.cell_count, packed_length]⟩
  unfold BucketStorage.size
  refine ⟨key.1, hcap, key.2, ?_, ?_, ?_⟩
  · unfold BucketStorage.capacity
    rw [hcap, key.2]
  · intro h0
    rw [key.2, h0, Nat.zero_add]
    exact Nat.div_eq_of_lt (by omega)
  · intro hpos hm
    rcases shrink_to_fit_cases s hI hC with ⟨h0, _⟩ | ⟨_, hc, he⟩ | ⟨_, hlt, _⟩
    · omega
    · exact ⟨he, hc⟩
    · omega

theorem reachable_scenarioE : Reachable scenarioE :=
  Reachable.erase _ (reachable_insert_all _ _ (Reachable.construct 1 3))

theorem C11_witness :
    0 < scenarioB.cell_capacity ∧ scenarioB.cell_count = 3 ∧ scenarioB.size = 4 ∧
    scenarioB.shrink_to_fit.cells.map Cell.vals = [[10, 30], [40, 50]] ∧
    scenarioB.shrink_to_fit.cell_count
      = (scenarioB.size + scenarioB.cell_capacity - 1) / scenarioB.cell_capacity :=
  ⟨by decide, by decide, by decide, by decide,
   (C11_shrink_to_fit_leaves_minimal_cell_count scenarioB reachable_scenarioB
      (by decide)).2.2.1⟩

theorem dense_cons (C : Nat) (c : Cell T) (rest : List (Cell T))
    (hc : rest ≠ [] → c.size = C) (hr : dense C rest) : dense C (c :: rest) := by
  intro pre d post hdec hne
  cases pre with
  | nil =>
    simp only [List.nil_append, List.cons.injEq] at hdec
    obtain ⟨h1, h2⟩ := hdec
    subst h1
    exact hc (by rw [h2]; exact hne)
  | cons p pre =>
    simp only [List.cons_append, List.cons.injEq] at hdec
    exact hr pre d post hdec.2 hne

theorem packed_dense (C : Nat) (m : Nat) : ∀ (xs : List T),
    xs.length ≤ m * C → m * C < xs.length + C → dense C (packed C m xs) := by
  induction m with
  | zero => intro xs _ _; exact dense_nil C
  | succ m ih =>
    intro xs h1 h2
    rw [Nat.succ_mul] at h1 h2
    simp only [packed]
    apply dense_cons
    · intro hne
      cases m with
      | zero => simp [packed] at hne
      | succ k =>
        rw [Nat.succ_mul] at h2
        simp only [Cell.of_list, List.length_take]
        have := Nat.zero_le (k * C)
        omega
    · cases m with
      | zero => exact dense_nil C
      | succ k =>
        have hge : C ≤ xs.length := by
          rw [Nat.succ_mul] at h2
          have := Nat.zero_le (k * C)
          omega
        exact ih (xs.drop C) (by simp only [List.length_drop]; omega)
          (by simp only [List.length_drop]; omega)

theorem contents_nil_of_size_zero (s : BucketStorage T) (hI : Inv s) (h0 : s.total_size = 0) :
    s.contents = [] := by
  apply List.eq_nil_of_length_eq_zero
  rw [contents_length s hI, h0]

theorem shrink_to_fit_contents (s : BucketStorage T) (hI : Inv s) (hC : 0 < s.cell_capacity) :
    s.shrink_to_fit.contents = s.contents := by
  rcases shrink_to_fit_cases s hI hC with ⟨h0, he⟩ | ⟨_, _, he⟩ | ⟨hpos, _, he⟩
  · rw [he, contents_nil_of_size_zero s hI h0]
    rfl
  · rw [he]
  · rw [he]
    have hb := (ceil_div_bounds s.total_size s.cell_capacity hC hpos).1
    exact packed_contents _ _ _ (by rw [contents_length s hI]; exact hb)

theorem shrink_to_fit_idem (s : BucketStorage T) (hI : Inv s) (hC : 0 < s.cell_capacity) :
    s.shrink_to_fit.shrink_to_fit = s.shrink_to_fit := by
  have hI1 := shrink_to_fit_inv s hI
  have hcap := (shrink_to_fit_fields s).2
  have hcount : s.shrink_to_fit.cell_count
      = (s.shrink_to_fit.total_size + s.shrink_to_fit.cell_capacity - 1)
          / s.shrink_to_fit.cell_capacity := by
    rcases shrink_to_fit_cases s hI hC with ⟨h0, he⟩ | ⟨_, hc, he⟩ | ⟨_, _, he⟩
    · rw [he]
      simp only [BucketStorage.clear, BucketStorage.cell_count, List.length_nil, Nat.zero_add]
      exact (Nat.div_eq_of_lt (by omega)).symm
    · rw [he]; exact hc
    · rw [he]
      simp only [BucketStorage.cell_count, packed_length]
  rcases Nat.eq_zero_or_pos s.shrink_to_fit.total_size with h0 | hpos
  · have hnil : s.shrink_to_fit.cells = [] := by
      apply List.eq_nil_of_length_eq_zero
      unfold BucketStorage.cell_count at hcount
      rw [hcount, h0, Nat.zero_add]
      exact Nat.div_eq_of_lt (by omega)
    generalize s.shrink_to_fit = t at h0 hnil
    unfold BucketStorage.shrink_to_fit
    rw [if_pos h0]
    cases t
    simp only [BucketStorage.clear] at h0 hnil ⊢
    rw [h0, hnil]
  · rw [shrink_to_fit_spec _ hI1 hpos, if_pos (by omega)]

theorem C12_counterexample :
    Reachable scenarioE ∧ 0 < scenarioE.cell_capacity ∧
    scenarioE.cells.map Cell.vals = [[10, 20], [30, 40]] ∧
    scenarioE.shrink_to_fit.cell_capacity = 3 ∧
    scenarioE.shrink_to_fit.cell_count = 2 ∧
    scenarioE.shrink_to_fit.cells.map Cell.vals = [[10, 20], [30, 40]] ∧
    scenarioE.shrink_to_fit.cells.map Cell.size = [2, 2] ∧
    ¬ dense scenarioE.shrink_to_fit.cell_capacity scenarioE.shrink_to_fit.cells := by
  refine ⟨reachable_scenarioE, by decide, by decide, by decide, by decide, by decide,
    by decide, ?_⟩
  intro hd
  have h1 : scenarioE.shrink_to_fit.cells
      = [] ++ Cell.mk [some 10, some 20, none] 3 2 [false, false, true]
          :: [Cell.mk [some 30, some 40, none] 3 2 [false, false, false]] := by decide
  have := hd _ _ _ h1 (by simp)
  revert this
  decide

/-- C12 (amended): in a reachable container with `C > 0`, `shrink_to_fit()`
leaves `size()` and the sequence `begin()..end()` yields unchanged and is
idempotent; when the table has more than `ceil(size() / C)` cells the elements
are packed densely, every cell but the last full; when it has exactly that
many cells the table is left as it is. -/
theorem C12_shrink_to_fit_keeps_sequence_packs_when_shorter (s : BucketStorage T)
    (h : Reachable s) (hC : 0 < s.cell_capacity) :
    s.shrink_to_fit.size = s.size ∧
    s.shrink_to_fit.contents = s.contents ∧
    (∀ fuel, s.size < fuel →
      s.to_list fuel = some s.contents ∧ s.shrink_to_fit.to_list fuel = some s.contents) ∧
    ((s.size + s.cell_capacity - 1) / s.cell_capacity < s.cell_count →
      dense s.cell_capacity s.shrink_to_fit.cells ∧
      ∀ (i : Nat) (c : Cell T), s.shrink_to_fit.cells[i]? = some c →
        c.vals = (s.contents.drop (i * s.cell_capacity)).take s.cell_capacity) ∧
    (s.cell_count ≤ (s.size + s.cell_capacity - 1) / s.cell_capacity →
      s.shrink_to_fit.cells = s.cells) ∧
    s.shrink_to_fit.shrink_to_fit = s.shrink_to_fit := by
  have hI := reachable_inv s h
  have hI1 := shrink_to_fit_inv s hI
  have hcap := (shrink_to_fit_fields s).2
  have hcont := shrink_to_fit_contents s hI hC
  have hsize : s.shrink_to_fit.total_size = s.total_size := by
    rw [← contents_length _ hI1, hcont, contents_length s hI]
  unfold BucketStorage.size
  refine ⟨hsize, hcont, ?_, ?_, ?_, shrink_to_fit_idem s hI hC⟩
  · intro fuel hf
    refine ⟨to_list_spec s hI hC fuel hf, ?_⟩
    rw [to_list_spec _ hI1 (by rw [hcap]; exact hC) fuel (by rw [hsize]; exact hf), hcont]
  · intro hlt
    have hd : dense s.cell_capacity s.shrink_to_fit.cells := by
      rcases shrink_to_fit_cases s hI hC with ⟨_, he⟩ | ⟨_, hc, _⟩ | ⟨hpos, _, he⟩
      · rw [he]; exact dense_nil _
      · omega
      · rw [he]
        have hb := ceil_div_bounds s.total_size s.cell_capacity hC hpos
        have hl := contents_length s hI
        exact packed_dense _ _ _ (by rw [hl]; exact hb.1) (by rw [hl]; exact hb.2)
    refine ⟨hd, ?_⟩
    intro i c hc
    have hwf : ∀ d ∈ s.shrink_to_fit.cells, d.wf s.cell_capacity := by
      intro d hd1
      have := hI1.cells_wf d hd1
      rw [hcap] at this
      exact this
    have := dense_vals s.cell_capacity _ hwf hd i c hc
    unfold BucketStorage.contents at hcont
    rw [hcont] at this
    exact this
  · intro hle
    rcases shrink_to_fit_cases s hI hC with ⟨h0, he⟩ | ⟨_, _, he⟩ | ⟨_, hlt, _⟩
    · rw [he]
      have : s.cells.length = 0 := by
        unfold BucketStorage.cell_count at hle
        rw [h0, Nat.zero_add, Nat.div_eq_of_lt (by omega)] at hle
        omega
      rw [List.eq_nil_of_length_eq_zero this]
      rfl
    · rw [he]
    · omega

theorem C12_witness :
    0 < scenarioB.cell_capacity ∧
    scenarioB.cells.map Cell.vals = [[10], [30, 40], [50]] ∧
    scenarioB.shrink_to_fit.cells.map Cell.vals = [[10, 30], [40, 50]] ∧
    scenarioB.shrink_to_fit.to_list 5 = some [10, 30, 40, 50] ∧
    scenarioB.shrink_to_fit.contents = scenarioB.contents :=
  ⟨by decide, by decide, by decide, by decide,
   (C12_shrink_to_fit_keeps_sequence_packs_when_shorter scenarioB reachable_scenarioB
      (by decide)).2.1⟩

theorem copy_cells_contents (s : BucketStorage T) :
    (s.cells.map (fun d => Cell.of_list s.cell_capacity d.vals)).flatMap Cell.vals
      = s.cells.flatMap Cell.vals := by
  induction s.cells with
  | nil => rfl
  | cons c cs ih =>
    simp only [List.map_cons, List.flatMap_cons, ih, Cell.of_list_vals]

/-- C13: for a reachable source with `C > 0` the copy constructor returns for
every bound above `size()`; the copy has the same `C`, the same number of
cells, the same `size()` and `capacity()`, in every cell the same sequence of
elements as the source, and the same sequence `begin()..end()`; whatever
bound it returns with, the result is this one. -/
theorem C13_copy_construct_mirrors_cells (s : BucketStorage T) (h : Reachable s)
    (hC : 0 < s.cell_capacity) (addr : Nat) :
    ∃ s1 : BucketStorage T,
      (∀ fuel, s.size < fuel → BucketStorage.copy_construct addr s fuel = some s1) ∧
      (∀ fuel s2, BucketStorage.copy_construct addr s fuel = some s2 → s2 = s1) ∧
      s1.this = addr ∧ s1.cell_capacity = s.cell_capacity ∧
      s1.cell_count = s.cell_count ∧ s1.size = s.size ∧ s1.capacity = s.capacity ∧
      (∀ i : Nat, (s1.cells[i]?).map Cell.vals = (s.cells[i]?).map Cell.vals) ∧
      (∀ i : Nat, (s1.cells[i]?).map Cell.size = (s.cells[i]?).map Cell.size) ∧
      s1.contents = s.contents ∧
      (∀ fuel, s.size < fuel → s1.to_list fuel = s.to_list fuel) ∧
      Reachable s1 := by
  have hI := reachable_inv s h
  have hspec := copy_construct_spec s hI hC addr (s.total_size + 1) (by omega)
  have hR : Reachable (BucketStorage.mk addr
      (s.cells.map (fun d => Cell.of_list s.cell_capacity d.vals))
      s.cell_capacity s.total_size) :=
    Reachable.copy_construct addr (s.total_size + 1) h hspec
  have hI1 := reachable_inv _ hR
  refine ⟨_, fun fuel hf => copy_construct_spec s hI hC addr fuel hf,
    fun fuel s2 h2 => copy_construct_some s s2 hI addr fuel h2, rfl, rfl, ?_, rfl, ?_, ?_, ?_, ?_,
    ?_, hR⟩
  · simp [BucketStorage.cell_count]
  · simp [BucketStorage.capacity, BucketStorage.cell_count]
  · intro i
    simp only [List.getElem?_map, Option.map_map]
    cases s.cells[i]? with
    | none => rfl
    | some c => simp [Cell.of_list_vals]
  · intro i
    simp only [List.getElem?_map, Option.map_map]
    cases hc : s.cells[i]? with
    | none => rfl
    | some c =>
      simp [Cell.of_list, Cell.vals_length (hI.cells_wf c (List.getElem?_mem hc))]
  · exact copy_cells_contents s
  · intro fuel hf
    rw [to_list_spec _ hI1 hC fuel hf, to_list_spec s hI hC fuel hf]
    exact congrArg some (copy_cells_contents s)

theorem C13_witness :
    0 < scenarioB.cell_capacity ∧
    (BucketStorage.copy_construct 7 scenarioB 5).map (fun t => t.cells.map Cell.vals)
      = some [[10], [30, 40], [50]] ∧
    (∃ s1 : BucketStorage Nat,
      (∀ fuel, scenarioB.size < fuel →
        BucketStorage.copy_construct 7 scenarioB fuel = some s1) ∧
      s1.cell_count = scenarioB.cell_count ∧ s1.contents = scenarioB.contents) :=
  ⟨by decide, by decide,
   (C13_copy_construct_mirrors_cells scenarioB reachable_scenarioB (by decide) 7).elim
     (fun s1 hs => ⟨s1, hs.1, hs.2.2.2.2.1, hs.2.2.2.2.2.2.2.2.2.1⟩)⟩

theorem deref_cells (s t : BucketStorage T) (hc : t.cells = s.cells) (ci ei a b : Nat) :
    iterator.deref t ⟨ci, ei, a⟩ = iterator.deref s ⟨ci, ei, b⟩ := by
  unfold iterator.deref
  simp only [hc]

theorem incr_cells (s t : BucketStorage T) (hc : t.cells = s.cells) (ci ei a b : Nat) :
    iterator.incr t ⟨ci, ei, a⟩
      = (iterator.incr s ⟨ci, ei, b⟩).map (fun j => ⟨j.cell_index, j.element_index, a⟩) := by
  unfold iterator.incr
  simp only [hc, BucketStorage.cell_count]
  cases s.cells[ci]? with
  | none => rfl
  | some c =>
    simp only
    split_ifs <;> rfl

theorem incr_storage (s : BucketStorage T) (it j : iterator) (h : iterator.incr s it = some j) :
    j.storage = it.storage := by
  unfold iterator.incr at h
  cases hc : s.cells[it.cell_index]? with
  | none => rw [hc] at h; simp at h
  | some c =>
    rw [hc] at h
    simp only at h
    split_ifs at h <;> (injection h with h; rw [← h])

theorem collect_cells (s t : BucketStorage T) (hc : t.cells = s.cells) :
    ∀ (fuel ci ei : Nat),
      collect t fuel ⟨ci, ei, t.this⟩ = collect s fuel ⟨ci, ei, s.this⟩ := by
  intro fuel
  induction fuel with
  | zero => intro ci ei; rfl
  | succ fuel ih =>
    intro ci ei
    have heq : iterator.eq ⟨ci, ei, t.this⟩ t.end_ = iterator.eq ⟨ci, ei, s.this⟩ s.end_ := by
      simp [iterator.eq, BucketStorage.end_, BucketStorage.cell_count, hc]
    simp only [collect, heq]
    split
    · rfl
    · rw [deref_cells s t hc ci ei t.this s.this, incr_cells s t hc ci ei t.this s.this]
      cases iterator.deref s ⟨ci, ei, s.this⟩ with
      | none => rfl
      | some v =>
        cases hj : iterator.incr s ⟨ci, ei, s.this⟩ with
        | none => rfl
        | some j =>
          have hst := incr_storage s _ j hj
          simp only at hst
          have hjj : j = ⟨j.cell_index, j.element_index, s.this⟩ := by
            cases j; simp at hst ⊢; exact hst
          simp only [Option.map_some']
          rw [ih j.cell_index j.element_index, ← hjj]

theorem to_list_cells (s t : BucketStorage T) (hc : t.cells = s.cells) (fuel : Nat) :
    t.to_list fuel = s.to_list fuel := by
  unfold BucketStorage.to_list BucketStorage.begin BucketStorage.begin_helper
  simp only [hc, BucketStorage.cell_count]
  exact collect_cells s t hc fuel _ _

/-- C14: `a.swap(b)` exchanges the segment capacity, the table, `size()`,
`capacity()` and the sequence `begin()..end()` yields; each object keeps its
address, every cell keeps its index in its table and every element its slot;
a second swap restores both containers. -/
theorem C14_swap_exchanges_state (a b : BucketStorage T) :
    (a.swap b).1.this = a.this ∧ (a.swap b).2.this = b.this ∧
    (a.swap b).1.cell_capacity = b.cell_capacity ∧
    (a.swap b).2.cell_capacity = a.cell_capacity ∧
    (a.swap b).1.size = b.size ∧ (a.swap b).2.size = a.size ∧
    (a.swap b).1.capacity = b.capacity ∧ (a.swap b).2.capacity = a.capacity ∧
    (a.swap b).1.cells = b.cells ∧ (a.swap b).2.cells = a.cells ∧
    (∀ fuel, (a.swap b).1.to_list fuel = b.to_list fuel) ∧
    (∀ fuel, (a.swap b).2.to_list fuel = a.to_list fuel) ∧
    (a.swap b).1.swap (a.swap b).2 = (a, b) := by
  refine ⟨rfl, rfl, rfl, rfl, rfl, rfl, rfl, rfl, rfl, rfl, ?_, ?_, rfl⟩
  · intro fuel; exact to_list_cells b (a.swap b).1 rfl fuel
  · intro fuel; exact to_list_cells a (a.swap b).2 rfl fuel

theorem insert_deref (s : BucketStorage T) (v : T) (hI : Inv s) (hC : 0 < s.cell_capacity) :
    (s.insert v).2.deref (s.insert v).1 = some v := by
  obtain ⟨pre, c, post, hdec, _, hc, heq⟩ := insert_spec s v hI hC
  have hdl : c.size < c.data.length := by
    rcases hdec with h1 | ⟨_, h1, _⟩
    · rw [(hI.cells_wf c (by simp [h1])).data_len]; exact hc
    · rw [h1]; simpa [Cell.new] using hC
  rw [heq]
  unfold iterator.deref
  simp only [getElem?_mid]
  simp [Cell.put, List.getD_eq_getElem?_getD, List.getElem?_set, hdl]

/-- Iterating a table of one empty cell runs into a read past the table. -/
theorem to_list_one_empty_cell (s : BucketStorage T) (c : Cell T) (hc : s.cells = [c])
    (h0 : c.size = 0) (fuel : Nat) : s.to_list fuel = none := by
  unfold BucketStorage.to_list
  rw [begin_all_empty s (by intro d hd; rw [hc] at hd; simp at hd; rw [hd]; exact h0)]
  cases fuel with
  | zero => rfl
  | succ n =>
    simp [collect, iterator.eq, iterator.deref, BucketStorage.end_, BucketStorage.cell_count, hc]

/-- C15: what a moved-from container does.  The source of a move
construction is left with `size() = 0` and cell capacity `0`: a following
`insert(v)` returns `end()`, stores nothing, `size()` stays `0` and iteration
does not yield `v`.  The source of a move assignment into another object of
positive cell capacity is left with `size() = 0` and that capacity: a
following `insert(v)` returns an iterator that dereferences to `v`, `size()`
is `1` and iteration yields exactly `v`. -/
theorem C15_moved_from_source_after_insert (s a : BucketStorage T) (hs : Reachable s)
    (ha : Reachable a) (hCa : 0 < a.cell_capacity) (hne : a.this ≠ s.this) (addr : Nat)
    (v : T) :
    ((BucketStorage.move_construct addr s).2.size = 0 ∧
      (BucketStorage.move_construct addr s).2.cell_capacity = 0 ∧
      ((BucketStorage.move_construct addr s).2.insert v).2
        = ((BucketStorage.move_construct addr s).2.insert v).1.end_ ∧
      ((BucketStorage.move_construct addr s).2.insert v).1.size = 0 ∧
      (∀ fuel, ((BucketStorage.move_construct addr s).2.insert v).1.to_list fuel = none)) ∧
    ((a.move_assign s).2.size = 0 ∧
      (a.move_assign s).2.cell_capacity = a.cell_capacity ∧
      ((a.move_assign s).2.insert v).2.deref ((a.move_assign s).2.insert v).1 = some v ∧
      ((a.move_assign s).2.insert v).1.size = 1 ∧
      (∀ fuel, 1 < fuel → ((a.move_assign s).2.insert v).1.to_list fuel = some [v])) := by
  constructor
  · have hz : (BucketStorage.move_construct addr s).2.cell_capacity = 0 := rfl
    rw [insert_zero _ v hz]
    refine ⟨rfl, rfl, rfl, rfl, ?_⟩
    intro fuel
    exact to_list_one_empty_cell _ (Cell.new 0) rfl rfl fuel
  · have hR : Reachable (a.move_assign s).2 := Reachable.move_assign_other ha hs
    have hI := reachable_inv _ hR
    have hform : (a.move_assign s).2
        = BucketStorage.mk s.this [] a.cell_capacity 0 := by
      unfold BucketStorage.move_assign
      rw [if_pos hne]
      rfl
    have hC : 0 < (a.move_assign s).2.cell_capacity := by rw [hform]; exact hCa
    have hI1 := insert_inv _ v hI
    have hcap1 := (insert_fields (a.move_assign s).2 v).2
    have hsz := insert_size _ v hI hC
    have hcont := (insert_dense _ v hI hC (by rw [hform]; exact dense_nil _)).2
    have hsz0 : (a.move_assign s).2.total_size = 0 := by rw [hform]
    have hc0 : (a.move_assign s).2.contents = [] := by rw [hform]; rfl
    refine ⟨hsz0, by rw [hform], insert_deref _ v hI hC, ?_, ?_⟩
    · unfold BucketStorage.size
      rw [hsz, hsz0]
    · intro fuel hf
      rw [to_list_spec _ hI1 (by rw [hcap1]; exact hC) fuel (by rw [hsz, hsz0]; exact hf),
        hcont, hc0]
      rfl

theorem C15_witness :
    0 < (BucketStorage.construct 3 2 : BucketStorage Nat).cell_capacity ∧
    (BucketStorage.construct 3 2 : BucketStorage Nat).this
      ≠ (insert_all (BucketStorage.construct 1 2) [10]).this ∧
    scenarioM.size = 0 ∧ scenarioM.cell_capacity = 0 ∧
    (scenarioM.insert 5).2 = (scenarioM.insert 5).1.end_ ∧
    (scenarioM.insert 5).1.size = 0 ∧
    iterator.deref (scenarioM.insert 5).1 (scenarioM.insert 5).2 = none ∧
    (scenarioM.insert 5).1.cell_count = 1 ∧
    (∀ fuel, (scenarioM.insert 5).1.to_list fuel = none) :=
  ⟨by decide, by decide, by decide, by decide, by decide, by decide, by decide, by decide,
   (C15_moved_from_source_after_insert (insert_all (BucketStorage.construct 1 2) [10])
      (BucketStorage.construct 3 2)
      (reachable_insert_all _ _ (Reachable.construct 1 2)) (Reachable.construct 3 2)
      (by decide) (by decide) 2 5).1.2.2.2.2⟩

theorem gt_iff (a b : iterator) (h : a.storage = b.storage) :
    a.gt b = true ↔ (a.cell_index > b.cell_index ∨
      (a.cell_index = b.cell_index ∧ a.element_index > b.element_index)) := by
  cases a; cases b
  simp only at h
  subst h
  simp only [iterator.gt, iterator.eq, beq_self_eq_true, Bool.true_and, Bool.and_eq_true,
    Bool.not_eq_true', Bool.or_eq_true, decide_eq_true_eq, beq_iff_eq, Bool.and_eq_false_imp,
    beq_eq_false_iff_ne]
  constructor
  · rintro ⟨_, h2⟩; exact h2
  · intro h2
    refine ⟨?_, h2⟩
    intro h3
    omega

theorem lt_iff (a b : iterator) (h : a.storage = b.storage) :
    a.lt b = true ↔ (a.cell_index < b.cell_index ∨
      (a.cell_index = b.cell_index ∧ a.element_index < b.element_index)) := by
  have hg := gt_iff a b h
  have he := iterator_eq_iff a b
  unfold iterator.lt
  simp only [Bool.and_eq_true, Bool.not_eq_true', ← Bool.not_eq_true, hg, he]
  cases a; cases b
  simp only at h
  subst h
  simp only [iterator.mk.injEq, and_true]
  omega

theorem prefix_sum_step (cells pre post : List (Cell T)) (c : Cell T) (n : Nat)
    (hdec : cells = pre ++ c :: post) (hn : pre.length < n) :
    (pre.map Cell.size).sum + c.size ≤ ((cells.take n).map Cell.size).sum := by
  have : cells.take n = pre ++ c :: post.take (n - pre.length - 1) := by
    rw [hdec, List.take_append_eq_append_take, List.take_of_length_le (by omega)]
    have : n - pre.length = (n - pre.length - 1) + 1 := by omega
    rw [this, List.take_succ_cons]
    simp
  rw [this]
  simp only [List.map_append, List.sum_append, List.map_cons, List.sum_cons]
  omega

/-- Two live iterators at the same position in iteration order are equal. -/
theorem live_pos_inj (s : BucketStorage T) (a b : iterator) (ha : is_live s a = true)
    (hb : is_live s b = true) (hp : iter_pos s a = iter_pos s b) : a = b := by
  obtain ⟨pa, ca, qa, hda, hla, _, hea, _, hia⟩ := live_split s a ha
  obtain ⟨pb, cb, qb, hdb, hlb, _, heb, _, hib⟩ := live_split s b hb
  have hpa : iter_pos s a = (pa.map Cell.size).sum + a.element_index := by
    have := iter_pos_split s pa qa ca a.element_index s.this hda
    rw [← hia] at this; exact this
  have hpb : iter_pos s b = (pb.map Cell.size).sum + b.element_index := by
    have := iter_pos_split s pb qb cb b.element_index s.this hdb
    rw [← hib] at this; exact this
  have hta : ((s.cells.take pa.length).map Cell.size).sum = (pa.map Cell.size).sum := by
    rw [hda, List.take_append_of_le_length (Nat.le_refl _), List.take_length]
  have htb : ((s.cells.take pb.length).map Cell.size).sum = (pb.map Cell.size).sum := by
    rw [hdb, List.take_append_of_le_length (Nat.le_refl _), List.take_length]
  have hci : pa.length = pb.length := by
    rcases Nat.lt_trichotomy pa.length pb.length with h1 | h1 | h1
    · have := prefix_sum_step s.cells pa qa ca pb.length hda h1
      omega
    · exact h1
    · have := prefix_sum_step s.cells pb qb cb pa.length hdb h1
      omega
  have hei : a.element_index = b.element_index := by
    rw [hci] at hta
    omega
  rw [hia, hib, hci, hei]

theorem live_pos_lt (s : BucketStorage T) (hI : Inv s) (it : iterator)
    (hl : is_live s it = true) : iter_pos s it < s.total_size := by
  obtain ⟨pre, c, post, hdec, _, _, hei, _, hit⟩ := live_split s it hl
  have hp : iter_pos s it = (pre.map Cell.size).sum + it.element_index := by
    have := iter_pos_split s pre post c it.element_index s.this hdec
    rw [← hit] at this; exact this
  have ht := hI.total
  unfold BucketStorage.live_total at ht
  rw [hdec] at ht
  simp only [List.map_append, List.sum_append, List.map_cons, List.sum_cons] at ht
  omega

/-- One increment from a live slot: the result is greater, and it is either
the live slot at the next position or, from the last position, `end()`. -/
theorem incr_live_step (s : BucketStorage T) (hI : Inv s) (hC : 0 < s.cell_capacity)
    (it : iterator) (hl : is_live s it = true) :
    ∃ it1, iterator.incr s it = some it1 ∧ it.lt it1 = true ∧
      ((is_live s it1 = true ∧ iter_pos s it1 = iter_pos s it + 1) ∨
        (it1 = s.end_ ∧ iter_pos s it + 1 = s.total_size)) := by
  obtain ⟨pre, c, post, hdec, hlen, hc, hei, hfl, hit⟩ := live_split s it hl
  have hw := hI.cells_wf c (List.getElem?_mem hc)
  have hp : iter_pos s it = (pre.map Cell.size).sum + it.element_index := by
    have := iter_pos_split s pre post c it.element_index s.this hdec
    rw [← hit] at this; exact this
  have hst : it.storage = s.this := ((is_live_iff s it).1 hl).1
  have hlt : ∀ j : iterator, j.storage = s.this →
      (it.cell_index < j.cell_index ∨
        (it.cell_index = j.cell_index ∧ it.element_index < j.element_index)) →
      it.lt j = true := fun j hj hh => (lt_iff it j (by rw [hst, hj])).2 hh
  by_cases hin : it.element_index + 1 < c.size
  · refine ⟨⟨pre.length, it.element_index + 1, s.this⟩, ?_, ?_, Or.inl ⟨?_, ?_⟩⟩
    · have := incr_within s pre post c it.element_index s.this hdec hin (hw.live _ hin)
      rw [← hit] at this; exact this
    · exact hlt _ rfl (Or.inr ⟨hlen.symm, Nat.lt_succ_self _⟩)
    · rw [is_live_iff]
      exact ⟨rfl, c, by rw [hdec]; exact getElem?_mid pre post c, hin, hw.live _ hin⟩
    · rw [iter_pos_split s pre post c _ _ hdec, hp]
      omega
  · have hlast : it.element_index + 1 = c.size := by omega
    cases post with
    | nil =>
      refine ⟨s.end_, ?_, ?_, Or.inr ⟨rfl, ?_⟩⟩
      · have := incr_last s pre c it.element_index s.this hdec hlast
        rw [← hit] at this; exact this
      · apply hlt _ rfl
        left
        rw [← hlen]
        simp [BucketStorage.end_, BucketStorage.cell_count, hdec]
      · have ht := hI.total
        unfold BucketStorage.live_total at ht
        rw [hdec] at ht
        simp only [List.map_append, List.sum_append, List.map_cons, List.sum_cons,
          List.map_nil, List.sum_nil] at ht
        omega
    | cons d post =>
      have hwd := hI.cells_wf d (by rw [hdec]; simp)
      have hdp := hwd.size_pos hC
      refine ⟨⟨pre.length + 1, 0, s.this⟩, ?_, ?_, Or.inl ⟨?_, ?_⟩⟩
      · have := incr_next_cell s pre post c d it.element_index s.this hdec hlast hdp
          (hwd.live 0 hdp)
        rw [← hit] at this; exact this
      · exact hlt _ rfl (Or.inl (by rw [← hlen]; exact Nat.lt_succ_self _))
      · rw [is_live_iff]
        have hdec2 : s.cells = (pre ++ [c]) ++ d :: post := by simp [hdec]
        refine ⟨rfl, d, ?_, hdp, hwd.live 0 hdp⟩
        have := getElem?_mid (pre ++ [c]) post d
        rw [← hdec2] at this
        simpa using this
      · have hdec2 : s.cells = (pre ++ [c]) ++ d :: post := by simp [hdec]
        have := iter_pos_split s (pre ++ [c]) post d 0 s.this hdec2
        simp only [List.length_append, List.length_singleton, List.map_append, List.sum_append,
          List.map_cons, List.map_nil, List.sum_cons, List.sum_nil] at this
        rw [this, hp]
        omega

theorem iterate_succ_last (f : iterator → Option iterator) (n : Nat) (x y : iterator)
    (h : iterate f n x = some y) : iterate f (n + 1) x = f y := by
  induction n generalizing x with
  | zero =>
    simp only [iterate, Option.some.injEq] at h
    subst h
    simp only [iterate]
    cases f x <;> rfl
  | succ n ih =>
    simp only [iterate] at h ⊢
    cases hfx : f x with
    | none => rw [hfx] at h; simp at h
    | some x1 =>
      rw [hfx] at h
      simp only at h ⊢
      have := ih x1 h
      simp only [iterate] at this
      exact this

theorem cells_nil_of_size_zero (s : BucketStorage T) (hI : Inv s) (hC : 0 < s.cell_capacity)
    (h0 : s.total_size = 0) : s.cells = [] := by
  cases hcs : s.cells with
  | nil => rfl
  | cons c cs =>
    exfalso
    have hp := (hI.cells_wf c (by simp [hcs])).size_pos hC
    have ht := hI.total
    simp only [BucketStorage.live_total, hcs, List.map_cons, List.sum_cons] at ht
    omega

theorem begin_live (s : BucketStorage T) (hI : Inv s) (hC : 0 < s.cell_capacity)
    (hpos : 0 < s.total_size) : is_live s s.begin = true ∧ iter_pos s s.begin = 0 := by
  cases hcs : s.cells with
  | nil =>
    exfalso
    have ht := hI.total
    simp [BucketStorage.live_total, hcs] at ht
    omega
  | cons c cs =>
    have hw := hI.cells_wf c (by simp [hcs])
    have hp := hw.size_pos hC
    rw [begin_cons s c cs hcs hp (hw.live 0 hp)]
    constructor
    · rw [is_live_iff]
      exact ⟨rfl, c, by simp [hcs], hp, hw.live 0 hp⟩
    · simp [iter_pos]

/-- The iterator reached from `begin()` by `k` increments. -/
theorem iterate_begin (s : BucketStorage T) (hI : Inv s) (hC : 0 < s.cell_capacity) :
    ∀ k, k < s.total_size →
      ∃ it, iterate (iterator.incr s) k s.begin = some it ∧ is_live s it = true ∧
        iter_pos s it = k := by
  intro k
  induction k with
  | zero =>
    intro hpos
    exact ⟨s.begin, rfl, (begin_live s hI hC hpos).1, (begin_live s hI hC hpos).2⟩
  | succ k ih =>
    intro hk
    obtain ⟨it, h1, h2, h3⟩ := ih (by omega)
    obtain ⟨it1, h4, _, h5⟩ := incr_live_step s hI hC it h2
    rcases h5 with ⟨h6, h7⟩ | ⟨_, h7⟩
    · exact ⟨it1, by rw [iterate_succ_last _ k _ it h1]; exact h4, h6, by rw [h7, h3]⟩
    · omega

theorem iterate_begin_end (s : BucketStorage T) (hI : Inv s) (hC : 0 < s.cell_capacity) :
    iterate (iterator.incr s) s.total_size s.begin = some s.end_ := by
  rcases Nat.eq_zero_or_pos s.total_size with h0 | hpos
  · rw [h0, begin_nil s (cells_nil_of_size_zero s hI hC h0)]
    rfl
  · obtain ⟨it, h1, h2, h3⟩ := iterate_begin s hI hC (s.total_size - 1) (by omega)
    obtain ⟨it1, h4, _, h5⟩ := incr_live_step s hI hC it h2
    have hn : s.total_size = (s.total_size - 1) + 1 := by omega
    rw [hn, iterate_succ_last _ _ _ it h1, h4]
    rcases h5 with ⟨h6, h7⟩ | ⟨h6, _⟩
    · have := live_pos_lt s hI it1 h6
      omega
    · rw [h6]

theorem begin_eq_end_iff (s : BucketStorage T) (hI : Inv s) (hC : 0 < s.cell_capacity) :
    s.total_size = 0 ↔ s.begin = s.end_ := by
  constructor
  · intro h0
    exact begin_nil s (cells_nil_of_size_zero s hI hC h0)
  · intro hbe
    rcases Nat.eq_zero_or_pos s.total_size with h0 | hpos
    · exact h0
    · exfalso
      have hl := (begin_live s hI hC hpos).1
      rw [hbe, is_live_iff] at hl
      obtain ⟨_, c, hc, _⟩ := hl
      rw [show s.end_.cell_index = s.cells.length from rfl,
        List.getElem?_eq_none (Nat.le_refl _)] at hc
      simp at hc

theorem live_ne_end (s : BucketStorage T) (it : iterator) (hl : is_live s it = true) :
    it ≠ s.end_ := by
  intro he
  rw [he, is_live_iff] at hl
  obtain ⟨_, c, hc, _⟩ := hl
  rw [show s.end_.cell_index = s.cells.length from rfl,
    List.getElem?_eq_none (Nat.le_refl _)] at hc
  simp at hc

/-- C16: in a reachable container with `C > 0`, `k < size()` increments from
`begin()` lead to the live slot at position `k`, which is not `end()` and is
less than its successor; `size()` increments lead to `end()`; every live slot
is the one reached by as many increments as its position; `size() == 0`
exactly when `begin() == end()`, which is the case after `clear()` and after
erasing the only element. -/
theorem C16_increment_visits_live_slots_then_end (s : BucketStorage T) (h : Reachable s)
    (hC : 0 < s.cell_capacity) :
    (∀ k, k < s.size →
      ∃ it, iterate (iterator.incr s) k s.begin = some it ∧ is_live s it = true ∧
        iter_pos s it = k ∧ it ≠ s.end_ ∧
        ∃ it1, iterator.incr s it = some it1 ∧ it.lt it1 = true) ∧
    iterate (iterator.incr s) s.size s.begin = some s.end_ ∧
    (∀ it, is_live s it = true →
      iter_pos s it < s.size ∧ iterate (iterator.incr s) (iter_pos s it) s.begin = some it) ∧
    (s.size = 0 ↔ s.begin = s.end_) ∧
    s.clear.begin = s.clear.end_ ∧
    (∀ it, is_live s it = true → s.size = 1 →
      (s.erase it).1.size = 0 ∧ (s.erase it).1.begin = (s.erase it).1.end_) := by
  have hI := reachable_inv s h
  unfold BucketStorage.size
  refine ⟨?_, iterate_begin_end s hI hC, ?_, begin_eq_end_iff s hI hC, ?_, ?_⟩
  · intro k hk
    obtain ⟨it, h1, h2, h3⟩ := iterate_begin s hI hC k hk
    obtain ⟨it1, h4, h5, _⟩ := incr_live_step s hI hC it h2
    exact ⟨it, h1, h2, h3, live_ne_end s it h2, it1, h4, h5⟩
  · intro it hl
    have hlt := live_pos_lt s hI it hl
    refine ⟨hlt, ?_⟩
    obtain ⟨it2, h1, h2, h3⟩ := iterate_begin s hI hC (iter_pos s it) hlt
    rw [h1, live_pos_inj s it2 it h2 hl h3]
  · exact begin_nil _ rfl
  · intro it hl h1
    have hsz := erase_size_live s it hI hl
    have h0 : (s.erase it).1.total_size = 0 := by omega
    refine ⟨h0, ?_⟩
    exact (begin_eq_end_iff _ (erase_inv s it hI)
      (by rw [(erase_fields s it).2]; exact hC)).1 h0

theorem C16_witness :
    0 < scenarioA.cell_capacity ∧
    iterate (iterator.incr scenarioA) 2 scenarioA.begin = some ⟨1, 0, 1⟩ ∧
    iterate (iterator.incr scenarioA) 4 scenarioA.begin = some ⟨2, 0, 1⟩ ∧
    iterate (iterator.incr scenarioA) scenarioA.size scenarioA.begin = some scenarioA.end_ :=
  ⟨by decide, by decide, by decide,
   (C16_increment_visits_live_slots_then_end scenarioA reachable_scenarioA (by decide)).2.1⟩

/-- C18: for iterators of the same container `operator<` is the strict
lexicographic order on `(cell_index, element_index)`: exactly one of `a < b`,
`a == b`, `a > b` holds, `a <= b` is the negation of `a > b`, `a >= b` the
negation of `a < b`, the order is transitive; and in a reachable container
with `C > 0` an iterator at a live slot is less than its increment, also when
that is `end()`. -/
theorem C18_iterator_order_is_lexicographic (s : BucketStorage T) (h : Reachable s)
    (hC : 0 < s.cell_capacity) (it : iterator) (hl : is_live s it = true) :
    (∃ it1, iterator.incr s it = some it1 ∧ it.lt it1 = true ∧ it1.gt it = true) ∧
    (∀ a b : iterator, a.storage = b.storage →
      (a.lt b = true ↔ (a.cell_index < b.cell_index ∨
        (a.cell_index = b.cell_index ∧ a.element_index < b.element_index))) ∧
      (a.gt b = true ↔ b.lt a = true) ∧
      ((a.lt b = true ∧ a.eq b = false ∧ a.gt b = false) ∨
        (a.lt b = false ∧ a.eq b = true ∧ a.gt b = false) ∨
        (a.lt b = false ∧ a.eq b = false ∧ a.gt b = true)) ∧
      a.le b = !(a.gt b) ∧ a.ge b = !(a.lt b)) ∧
    (∀ a b c : iterator, a.storage = b.storage → b.storage = c.storage →
      a.lt b = true → b.lt c = true → a.lt c = true) := by
  have hI := reachable_inv s h
  refine ⟨?_, ?_, ?_⟩
  · obtain ⟨it1, h1, h2, _⟩ := incr_live_step s hI hC it hl
    have hst := incr_storage s it it1 h1
    refine ⟨it1, h1, h2, ?_⟩
    rw [gt_iff it1 it hst]
    have := (lt_iff it it1 hst.symm).1 h2
    omega
  · intro a b hab
    have hlt := lt_iff a b hab
    have hgt := gt_iff a b hab
    have hlt2 := lt_iff b a hab.symm
    have heq := iterator_eq_iff a b
    refine ⟨hlt, ?_, ?_, rfl, rfl⟩
    · rw [hgt, hlt2]
      constructor
      · rintro (h1 | ⟨h1, h2⟩)
        · exact Or.inl h1
        · exact Or.inr ⟨h1.symm, h2⟩
      · rintro (h1 | ⟨h1, h2⟩)
        · exact Or.inl h1
        · exact Or.inr ⟨h1.symm, h2⟩
    · have hext : a = b ↔ (a.cell_index = b.cell_index ∧ a.element_index = b.element_index) := by
        cases a; cases b
        simp only at hab
        subst hab
        simp
      rcases Nat.lt_trichotomy a.cell_index b.cell_index with h1 | h1 | h1
      · left
        refine ⟨hlt.2 (Or.inl h1), ?_, ?_⟩
        · rw [← Bool.not_eq_true, heq, hext]; omega
        · rw [← Bool.not_eq_true, hgt]; omega
      · rcases Nat.lt_trichotomy a.element_index b.element_index with h2 | h2 | h2
        · left
          refine ⟨hlt.2 (Or.inr ⟨h1, h2⟩), ?_, ?_⟩
          · rw [← Bool.not_eq_true, heq, hext]; omega
          · rw [← Bool.not_eq_true, hgt]; omega
        · right; left
          refine ⟨?_, heq.2 (hext.2 ⟨h1, h2⟩), ?_⟩
          · rw [← Bool.not_eq_true, hlt]; omega
          · rw [← Bool.not_eq_true, hgt]; omega
        · right; right
          refine ⟨?_, ?_, hgt.2 (Or.inr ⟨h1, h2⟩)⟩
          · rw [← Bool.not_eq_true, hlt]; omega
          · rw [← Bool.not_eq_true, heq, hext]; omega
      · right; right
        refine ⟨?_, ?_, hgt.2 (Or.inl h1)⟩
        · rw [← Bool.not_eq_true, hlt]; omega
        · rw [← Bool.not_eq_true, heq, hext]; omega
  · intro a b c hab hbc h1 h2
    have k1 := (lt_iff a b hab).1 h1
    have k2 := (lt_iff b c hbc).1 h2
    rw [lt_iff a c (hab.trans hbc)]
    omega

theorem C18_witness :
    is_live scenarioA ⟨2, 0, 1⟩ = true ∧
    iterator.incr scenarioA ⟨2, 0, 1⟩ = some scenarioA.end_ ∧
    iterator.lt ⟨2, 0, 1⟩ scenarioA.end_ = true ∧
    (∃ it1, iterator.incr scenarioA ⟨2, 0, 1⟩ = some it1 ∧
      iterator.lt ⟨2, 0, 1⟩ it1 = true ∧ it1.gt ⟨2, 0, 1⟩ = true) :=
  ⟨by decide, by decide, by decide,
   (C18_iterator_order_is_lexicographic scenarioA reachable_scenarioA (by decide) ⟨2, 0, 1⟩
      (by decide)).1⟩

theorem seek_back_mid (cells pre post : List (Cell T)) (c : Cell T)
    (hdec : cells = pre ++ c :: post) (hpos : 0 < c.size)
    (hfl : c.flags[c.size - 1]? = some false) :
    seek_back cells (pre.length + 1) = some (pre.length, c.size - 1) := by
  have hget : cells[pre.length]? = some c := by rw [hdec]; exact getElem?_mid pre post c
  have hcond : c.size ≠ 0 ∧ c.flags[c.size - 1]? = some false := ⟨by omega, hfl⟩
  simp only [seek_back, hget, if_pos hcond]

theorem skip_back_live (flags : List Bool) (e : Nat) (h : flags[e]? = some false) :
    skip_back flags e = e := by
  cases e with
  | zero => rfl
  | succ e =>
    simp only [skip_back]
    rw [if_neg (by rw [h]; simp)]

/-- The operator `--` undoes the operator `++` taken from a live slot. -/
theorem decr_incr (s : BucketStorage T) (hI : Inv s) (hC : 0 < s.cell_capacity)
    (it it1 : iterator) (hl : is_live s it = true) (hinc : iterator.incr s it = some it1) :
    iterator.decr s it1 = some it := by
  obtain ⟨pre, c, post, hdec, hlen, hc, hei, hfl, hit⟩ := live_split s it hl
  have hw := hI.cells_wf c (List.getElem?_mem hc)
  by_cases hin : it.element_index + 1 < c.size
  · have h1 := incr_within s pre post c it.element_index s.this hdec hin (hw.live _ hin)
    rw [← hit, hinc] at h1
    injection h1 with h1
    rw [h1]
    unfold iterator.decr
    simp only [Nat.add_sub_cancel]
    rw [if_pos (by omega)]
    by_cases h0 : it.element_index = 0
    · rw [if_pos h0]
      rw [hit, h0]
    · rw [if_neg h0]
      have hget : s.cells[pre.length]? = some c := by rw [hdec]; exact getElem?_mid pre post c
      rw [hget]
      simp only
      rw [skip_back_live _ _ hfl]
      exact congrArg some hit.symm
  · have hlast : it.element_index + 1 = c.size := by omega
    have hsb := seek_back_mid s.cells pre post c hdec (by omega)
      (hw.live _ (by omega))
    have he : c.size - 1 = it.element_index := by omega
    cases post with
    | nil =>
      have h1 := incr_last s pre c it.element_index s.this hdec hlast
      rw [← hit, hinc] at h1
      injection h1 with h1
      rw [h1]
      unfold iterator.decr
      have hcnt : s.cell_count = pre.length + 1 := by
        simp [BucketStorage.cell_count, hdec]
      simp only [hcnt, hsb, he]
      rw [if_neg (by simp)]
      exact congrArg some hit.symm
    | cons d post =>
      have hwd := hI.cells_wf d (by rw [hdec]; simp)
      have hdp := hwd.size_pos hC
      have h1 := incr_next_cell s pre post c d it.element_index s.this hdec hlast hdp
        (hwd.live 0 hdp)
      rw [← hit, hinc] at h1
      injection h1 with h1
      rw [h1]
      unfold iterator.decr
      simp only [hsb, he]
      rw [if_neg (by simp)]
      exact congrArg some hit.symm

/-- From a live slot at position `k`, `n <= size() - k` increments followed
by `n` decrements lead back to the slot. -/
theorem iterate_incr_decr (s : BucketStorage T) (hI : Inv s) (hC : 0 < s.cell_capacity)
    (it : iterator) (hl : is_live s it = true) :
    ∀ n, iter_pos s it + n ≤ s.total_size →
      ∃ y, iterate (iterator.incr s) n it = some y ∧
        ((is_live s y = true ∧ iter_pos s y = iter_pos s it + n) ∨
          (y = s.end_ ∧ iter_pos s it + n = s.total_size)) ∧
        iterate (iterator.decr s) n y = some it := by
  intro n
  induction n with
  | zero => intro _; exact ⟨it, rfl, Or.inl ⟨hl, rfl⟩, rfl⟩
  | succ n ih =>
    intro hn
    obtain ⟨y, h1, h2, h3⟩ := ih (by omega)
    rcases h2 with ⟨h4, h5⟩ | ⟨_, h5⟩
    · obtain ⟨y1, k1, _, k3⟩ := incr_live_step s hI hC y h4
      refine ⟨y1, by rw [iterate_succ_last _ n it y h1]; exact k1, ?_, ?_⟩
      · rcases k3 with ⟨k4, k5⟩ | ⟨k4, k5⟩
        · exact Or.inl ⟨k4, by omega⟩
        · exact Or.inr ⟨k4, by omega⟩
      · simp only [iterate, decr_incr s hI hC y y1 h4 k1]
        exact h3
    · omega

theorem decr_end (s : BucketStorage T) (hI : Inv s) (hC : 0 < s.cell_capacity)
    (hpos : 0 < s.total_size) :
    ∃ last, iterator.decr s s.end_ = some last ∧ is_live s last = true ∧
      iter_pos s last + 1 = s.total_size := by
  have hne : s.cells ≠ [] := by
    intro hnil
    have ht := hI.total
    simp [BucketStorage.live_total, hnil] at ht
    omega
  have hdec : s.cells = s.cells.dropLast ++ s.cells.getLast hne :: [] :=
    (List.dropLast_append_getLast hne).symm
  have hw := hI.cells_wf (s.cells.getLast hne) (List.getLast_mem hne)
  have hp := hw.size_pos hC
  have hsb := seek_back_mid s.cells _ _ _ hdec hp (hw.live _ (by omega))
  have hcnt : s.cell_count = s.cells.dropLast.length + 1 := by
    unfold BucketStorage.cell_count
    rw [List.length_dropLast]
    have := List.length_pos.2 hne
    omega
  refine ⟨⟨s.cells.dropLast.length, (s.cells.getLast hne).size - 1, s.this⟩, ?_, ?_, ?_⟩
  · unfold iterator.decr
    simp only [BucketStorage.end_, hcnt, hsb]
    rw [if_neg (by simp)]
  · rw [is_live_iff]
    refine ⟨rfl, s.cells.getLast hne, ?_, Nat.sub_lt hp Nat.one_pos,
      hw.live _ (Nat.sub_lt hp Nat.one_pos)⟩
    have := getElem?_mid s.cells.dropLast [] (s.cells.getLast hne)
    rw [← hdec] at this
    exact this
  · rw [iter_pos_split s _ _ _ _ _ hdec]
    have ht := hI.total
    unfold BucketStorage.live_total at ht
    rw [hdec] at ht
    simp only [List.map_append, List.sum_append, List.map_cons, List.sum_cons, List.map_nil,
      List.sum_nil] at ht
    omega

/-- C17: in a reachable container with `C > 0`, for an iterator at a live
slot at position `k` and `n <= size() - k`, `get_to_distance(it, n)` is `n`
increments, `get_to_distance(., -n)` is `n` decrements and leads back to
`it`; decrementing `end()` of a non-empty container gives the iterator of the
last element in iteration order. -/
theorem C17_decrement_inverts_increment (s : BucketStorage T) (h : Reachable s)
    (hC : 0 < s.cell_capacity) (it : iterator) (hl : is_live s it = true) (n : Nat)
    (hn : iter_pos s it + n ≤ s.size) :
    (∃ y, get_to_distance s it (n : Int) = some y ∧
      iterate (iterator.incr s) n it = some y ∧
      get_to_distance s y (-(n : Int)) = some it ∧
      iterate (iterator.decr s) n y = some it) ∧
    (∃ last, iterator.decr s s.end_ = some last ∧ is_live s last = true ∧
      iter_pos s last + 1 = s.size ∧ iterator.incr s last = some s.end_) := by
  have hI := reachable_inv s h
  unfold BucketStorage.size at hn ⊢
  constructor
  · obtain ⟨y, h1, _, h3⟩ := iterate_incr_decr s hI hC it hl n hn
    refine ⟨y, ?_, h1, ?_, h3⟩
    · unfold get_to_distance
      by_cases h0 : n = 0
      · subst h0
        simp only [Nat.cast_zero, gt_iff_lt, lt_self_iff_false, if_false, neg_zero,
          Int.toNat_zero]
        simp only [iterate] at h1 ⊢
        exact h1
      · rw [if_pos (by omega)]
        simp only [Int.toNat_ofNat]
        exact h1
    · unfold get_to_distance
      rw [if_neg (by omega)]
      simp only [neg_neg, Int.toNat_ofNat]
      exact h3
  · have hpos : 0 < s.total_size := by
      have := live_pos_lt s hI it hl
      omega
    obtain ⟨last, k1, k2, k3⟩ := decr_end s hI hC hpos
    refine ⟨last, k1, k2, k3, ?_⟩
    obtain ⟨y1, m1, _, m3⟩ := incr_live_step s hI hC last k2
    rcases m3 with ⟨m4, m5⟩ | ⟨m4, _⟩
    · have := live_pos_lt s hI y1 m4
      omega
    · rw [m1, m4]

theorem C17_witness :
    is_live scenarioA ⟨0, 1, 1⟩ = true ∧ iter_pos scenarioA ⟨0, 1, 1⟩ + 4 ≤ scenarioA.size ∧
    get_to_distance scenarioA ⟨0, 1, 1⟩ 4 = some scenarioA.end_ ∧
    get_to_distance scenarioA scenarioA.end_ (-4) = some ⟨0, 1, 1⟩ ∧
    iterator.decr scenarioA scenarioA.end_ = some ⟨2, 0, 1⟩ ∧
    (∃ y, get_to_distance scenarioA ⟨0, 1, 1⟩ ((4 : Nat) : Int) = some y ∧
      iterate (iterator.incr scenarioA) 4 ⟨0, 1, 1⟩ = some y ∧
      get_to_distance scenarioA y (-((4 : Nat) : Int)) = some ⟨0, 1, 1⟩ ∧
      iterate (iterator.decr scenarioA) 4 y = some ⟨0, 1, 1⟩) :=
  ⟨by decide, by decide, by decide, by decide, by decide,
   (C17_decrement_inverts_increment scenarioA reachable_scenarioA (by decide) ⟨0, 1, 1⟩
      (by decide) 4 (by decide)).1⟩

/-- C19: in every reachable state with `C > 0` every cell of the table has
`1 <= size <= C`, so no drained cell stays linked, and every slot below `size`
is flagged live and holds an element: the live elements are the slots
`[0, size)` without a gap. -/
theorem C19_cells_hold_contiguous_nonempty_ranges (s : BucketStorage T) (h : Reachable s)
    (hC : 0 < s.cell_capacity) :
    ∀ c ∈ s.cells,
      1 ≤ c.size ∧ c.size ≤ s.cell_capacity ∧ c.capacity = s.cell_capacity ∧
      (∀ i, i < c.size → c.flags[i]? = some false) ∧
      (∀ i, i < c.size → ∃ v, c.data[i]? = some (some v)) ∧
      c.vals.length = c.size := by
  intro c hc
  have hw := (reachable_inv s h).cells_wf c hc
  exact ⟨hw.size_pos hC, hw.size_le, hw.cap, hw.live, hw.full, Cell.vals_length hw⟩

theorem C19_witness :
    0 < scenarioB.cell_capacity ∧
    scenarioB.cells.map Cell.size = [1, 2, 1] ∧
    (scenarioB.erase ⟨0, 0, 1⟩).1.cells.map Cell.size = [2, 1] ∧
    (∀ c ∈ (scenarioB.erase ⟨0, 0, 1⟩).1.cells, 1 ≤ c.size) :=
  ⟨by decide, by decide, by decide,
   fun c hc => (C19_cells_hold_contiguous_nonempty_ranges (scenarioB.erase ⟨0, 0, 1⟩).1
      (Reachable.erase _ reachable_scenarioB) (by decide) c hc).1⟩

theorem size_zero_of_capacity_zero (s : BucketStorage T) (hI : Inv s)
    (h0 : s.cell_capacity = 0) : s.total_size = 0 ∧ ∀ c ∈ s.cells, c.size = 0 := by
  have hall : ∀ c ∈ s.cells, c.size = 0 := by
    intro c hc
    have := (hI.cells_wf c hc).size_le
    omega
  refine ⟨?_, hall⟩
  have h1 := sum_sizes_le s.cell_capacity s.cells (fun c hc => (hI.cells_wf c hc).size_le)
  have h2 := hI.total
  unfold BucketStorage.live_total at h2
  rw [h0, Nat.zero_mul] at h1
  omega

/-- C20: a reachable container whose cell capacity is `0`, as the constructor
accepts it, holds nothing and never will: `size()` and `capacity()` are `0`,
`insert(v)` returns `end()`, keeps both at `0` and the capacity at `0`, and
links one more empty cell; afterwards `begin()` is
`(cell_count, cell_count)`, which differs from `end()`, although `empty()`
holds. -/
theorem C20_zero_capacity_container_holds_nothing (s : BucketStorage T) (h : Reachable s)
    (h0 : s.cell_capacity = 0) (v : T) :
    s.size = 0 ∧ s.capacity = 0 ∧ s.empty = true ∧
    (s.insert v).2 = (s.insert v).1.end_ ∧
    (s.insert v).1.size = 0 ∧ (s.insert v).1.capacity = 0 ∧
    (s.insert v).1.cell_capacity = 0 ∧
    (s.insert v).1.cells = s.cells ++ [Cell.new 0] ∧
    (s.insert v).1.cell_count = s.cell_count + 1 ∧
    (s.insert v).1.begin
      = { cell_index := (s.insert v).1.cell_count,
          element_index := (s.insert v).1.cell_count, storage := s.this } ∧
    (s.insert v).1.begin ≠ (s.insert v).1.end_ ∧
    (s.insert v).1.empty = true ∧
    Reachable (s.insert v).1 := by
  have hI := reachable_inv s h
  have hR1 : Reachable (s.insert v).1 := Reachable.insert v h
  have hI1 := reachable_inv _ hR1
  obtain ⟨hsz, _⟩ := size_zero_of_capacity_zero s hI h0
  have hcap1 : (s.insert v).1.cell_capacity = 0 := by rw [(insert_fields s v).2]; exact h0
  obtain ⟨hsz1, hall1⟩ := size_zero_of_capacity_zero _ hI1 hcap1
  have hins := insert_zero s v h0
  have hcells : (s.insert v).1.cells = s.cells ++ [Cell.new 0] := by
    rw [hins, ← h0]; rfl
  have hcnt : (s.insert v).1.cell_count = s.cell_count + 1 := by
    unfold BucketStorage.cell_count; rw [hcells]; simp
  have hbegin := begin_all_empty _ hall1
  rw [(insert_fields s v).1] at hbegin
  refine ⟨hsz, ?_, ?_, ?_, hsz1, ?_, hcap1, hcells, hcnt, hbegin, ?_, ?_, hR1⟩
  · unfold BucketStorage.capacity; rw [h0, Nat.zero_mul]
  · unfold BucketStorage.empty; rw [hsz]; rfl
  · rw [hins]
  · unfold BucketStorage.capacity; rw [hcap1, Nat.zero_mul]
  · rw [hbegin]
    intro hh
    have := congrArg iterator.element_index hh
    simp only [BucketStorage.end_] at this
    omega
  · unfold BucketStorage.empty; rw [hsz1]; rfl

theorem C20_witness :
    (BucketStorage.construct 1 0 : BucketStorage Nat).cell_capacity = 0 ∧
    ((BucketStorage.construct 1 0 : BucketStorage Nat).insert 5).1.cells = [Cell.new 0] ∧
    ((BucketStorage.construct 1 0 : BucketStorage Nat).insert 5).1.begin = ⟨1, 1, 1⟩ ∧
    ((BucketStorage.construct 1 0 : BucketStorage Nat).insert 5).1.end_ = ⟨1, 0, 1⟩ ∧
    (((BucketStorage.construct 1 0 : BucketStorage Nat).insert 5).1.insert 6).1.cell_count = 2 ∧
    (((BucketStorage.construct 1 0 : BucketStorage Nat).insert 5).1.insert 6).1.size = 0 ∧
    ((BucketStorage.construct 1 0 : BucketStorage Nat).insert 5).2
      = ((BucketStorage.construct 1 0 : BucketStorage Nat).insert 5).1.end_ :=
  ⟨by decide, by decide, by decide, by decide, by decide, by decide,
   (C20_zero_capacity_container_holds_nothing (BucketStorage.construct 1 0)
      (Reachable.construct 1 0) (by decide) 5).2.2.2.1⟩

end Bucket
